import Mathlib

/-!
Verification of the FYP-Data ingestion pipeline
(`src/database_insert/content_ingestion.py` and
`src/database_insert/question_ingestion.py`).

The development shallowly embeds the two ingestion scripts: YAML/JSON
values become the inductive `Val`, the Supabase tables become the record
`Store`, and each script's `ingest()` becomes a pure state-passing
function (`runContent`, `runQuestion`) over `RunState`.  Machine-level
details that the scripts rely on (Python truthiness, `dict.get`,
`in`-membership, `json.dumps(sort_keys=True)`, SHA-256) are modelled
explicitly and executably.
-/

set_option maxHeartbeats 1000000
set_option maxRecDepth 10000

namespace Ingest

/-- A YAML/JSON value as produced by `yaml.safe_load`: nested mappings,
sequences and scalars.  Mapping keys are strings (the shapes the
pipeline consumes); mappings keep their insertion order, as Python
dicts do. -/
inductive Val where
  | vnull : Val
  | vbool : Bool → Val
  | vint : Int → Val
  | vstr : String → Val
  | varr : List Val → Val
  | vobj : List (String × Val) → Val

namespace Val

mutual

/-- Structural equality test for values (needed because the nested
inductive does not get a derived instance). -/
def beq : Val → Val → Bool
  | vnull, vnull => true
  | vbool a, vbool b => a == b
  | vint a, vint b => a == b
  | vstr a, vstr b => a == b
  | varr xs, varr ys => beqList xs ys
  | vobj fs, vobj gs => beqFields fs gs
  | _, _ => false

def beqList : List Val → List Val → Bool
  | [], [] => true
  | x :: xs, y :: ys => beq x y && beqList xs ys
  | _, _ => false

def beqFields : List (String × Val) → List (String × Val) → Bool
  | [], [] => true
  | (k, v) :: fs, (l, w) :: gs => k == l && beq v w && beqFields fs gs
  | _, _ => false

end

mutual

theorem beq_iff : ∀ a b : Val, beq a b = true ↔ a = b
  | vnull, b => by cases b <;> simp [beq]
  | vbool x, b => by cases b <;> simp [beq]
  | vint x, b => by cases b <;> simp [beq]
  | vstr x, b => by cases b <;> simp [beq]
  | varr xs, b => by
      cases b <;> simp [beq]
      exact beqList_iff xs _
  | vobj fs, b => by
      cases b <;> simp [beq]
      exact beqFields_iff fs _

theorem beqList_iff : ∀ xs ys : List Val, beqList xs ys = true ↔ xs = ys
  | [], ys => by cases ys <;> simp [beqList]
  | x :: xs, [] => by simp [beqList]
  | x :: xs, y :: ys => by
      simp [beqList, beq_iff x y, beqList_iff xs ys]

theorem beqFields_iff :
    ∀ fs gs : List (String × Val), beqFields fs gs = true ↔ fs = gs
  | [], gs => by cases gs <;> simp [beqFields]
  | (k, v) :: fs, [] => by simp [beqFields]
  | (k, v) :: fs, (l, w) :: gs => by
      simp [beqFields, beq_iff v w, beqFields_iff fs gs, Prod.ext_iff]

end

instance : DecidableEq Val := fun a b => decidable_of_iff _ (beq_iff a b)

/-- Python truthiness (`if not question_type:`): `None`, `False`, `0`,
`""`, `[]`, `{}` are falsy, everything else truthy. -/
def truthy : Val → Bool
  | vnull => false
  | vbool b => b
  | vint n => n != 0
  | vstr s => s != ""
  | varr xs => !xs.isEmpty
  | vobj fs => !fs.isEmpty

/-- Key lookup in a mapping's field list (first binding wins, as in a
Python dict, whose keys are unique anyway). -/
def lookupField (k : String) : List (String × Val) → Option Val
  | [] => none
  | (k', v) :: rest => if k' = k then some v else lookupField k rest

/-- Python `d.get(key)` / `d.get(key, default)`: defined only on
mappings; on any other value the attribute access raises
(`AttributeError`), modelled as `none` at the call sites. -/
def pyGet (v : Val) (k : String) (dflt : Val) : Option Val :=
  match v with
  | vobj fs => some ((lookupField k fs).getD dflt)
  | _ => none

/-- Substring test on character lists (Python `in` for strings). -/
def isSubstr (needle hay : List Char) : Bool :=
  hay.tails.any (fun t => needle.isPrefixOf t)

/-- Python `key in v` for a string key: mappings test key membership,
lists test element membership, strings test substring; `in` on
`None`/numbers/booleans raises `TypeError` (`none`). -/
def pyContains (v : Val) (k : String) : Option Bool :=
  match v with
  | vobj fs => some (fs.any (fun p => p.1 = k))
  | varr xs => some (xs.contains (vstr k))
  | vstr s => some (isSubstr k.toList s.toList)
  | _ => none

/-- Python `v[key]` for a string key: only mappings support string
indexing; everything else raises (`none`).  (`KeyError` cannot occur at
the call site because membership was tested first.) -/
def pyIndex (v : Val) (k : String) : Option Val :=
  match v with
  | vobj fs => lookupField k fs
  | _ => none

/-- Python `for q in v`: lists iterate elements, strings iterate their
characters (as one-character strings), mappings iterate their keys;
`None`/numbers/booleans raise `TypeError` (`none`). -/
def pyIter (v : Val) : Option (List Val) :=
  match v with
  | varr xs => some xs
  | vstr s => some (s.toList.map (fun c => vstr (String.mk [c])))
  | vobj fs => some (fs.map (fun p => vstr p.1))
  | _ => none

/-- `isinstance(v, dict)`. -/
def isDict : Val → Bool
  | vobj _ => true
  | _ => false

end Val

/-! ## Canonical JSON serialization

`hash_content` in both scripts is
`sha256(json.dumps(data, sort_keys=True, separators=(",", ":")).encode("utf-8")).hexdigest()`.
`json.dumps(..., sort_keys=True)` emits every mapping with its keys in
sorted order; we model this as recursively key-sorting the value
(`canon`) and then dumping it in order (`dump`). -/

/-- Decimal digit to character. -/
def digitChar (d : Nat) : Char :=
  match d with
  | 0 => '0' | 1 => '1' | 2 => '2' | 3 => '3' | 4 => '4'
  | 5 => '5' | 6 => '6' | 7 => '7' | 8 => '8' | 9 => '9'
  | _ => '?'

/-- Lowercase hex digit to character (as Python's `json` and
`hexdigest()` emit). -/
def hexChar (d : Nat) : Char :=
  match d with
  | 0 => '0' | 1 => '1' | 2 => '2' | 3 => '3' | 4 => '4'
  | 5 => '5' | 6 => '6' | 7 => '7' | 8 => '8' | 9 => '9'
  | 10 => 'a' | 11 => 'b' | 12 => 'c' | 13 => 'd' | 14 => 'e' | 15 => 'f'
  | _ => '?'

/-- Decimal digits, most significant first, with explicit recursion
fuel (so that the definition unfolds by iota reduction alone). -/
def natDigitsAux : Nat → Nat → List Nat
  | 0, _ => []
  | fuel + 1, n => if n < 10 then [n] else natDigitsAux fuel (n / 10) ++ [n % 10]

/-- Decimal digits of a natural number, most significant first. -/
def natDigits (n : Nat) : List Nat := natDigitsAux (n + 1) n

/-- Characters of Python `repr` of an integer. -/
def intChars (n : Int) : List Char :=
  if n < 0 then '-' :: (natDigits n.natAbs).map digitChar
  else (natDigits n.toNat).map digitChar

/-- Four lowercase hex digits of a number below `0x10000` (the `XXXX`
in a `\uXXXX` escape). -/
def hex4 (n : Nat) : List Char :=
  [hexChar (n / 4096 % 16), hexChar (n / 256 % 16),
   hexChar (n / 16 % 16), hexChar (n % 16)]

/-- Escape of a single character in a JSON string literal, following
Python's `json.dumps` with `ensure_ascii=True`: backslash, quote and
`\b \t \n \f \r` get two-character escapes, every other character
outside `0x20`–`0x7e` becomes `\uXXXX` (a surrogate pair beyond the
BMP), and the rest stand for themselves. -/
def escChar (c : Char) : List Char :=
  let v := c.toNat
  if c = '"' then ['\\', '"']
  else if c = '\\' then ['\\', '\\']
  else if v = 8 then ['\\', 'b']
  else if v = 9 then ['\\', 't']
  else if v = 10 then ['\\', 'n']
  else if v = 12 then ['\\', 'f']
  else if v = 13 then ['\\', 'r']
  else if v < 32 ∨ 126 < v then
    if v < 65536 then '\\' :: 'u' :: hex4 v
    else ('\\' :: 'u' :: hex4 (55296 + (v - 65536) / 1024)) ++
         ('\\' :: 'u' :: hex4 (56320 + (v - 65536) % 1024))
  else [c]

/-- A JSON string literal: quote, escaped characters, quote. -/
def dumpStr (s : String) : List Char :=
  '"' :: (s.toList.foldr (fun c acc => escChar c ++ acc) []) ++ ['"']

mutual

/-- In-order JSON dump with separators `(",", ":")` (no incidental
whitespace).  Keys are emitted in the order they appear; `canon` below
is responsible for sorting them. -/
def dump : Val → List Char
  | .vnull => ['n', 'u', 'l', 'l']
  | .vbool true => ['t', 'r', 'u', 'e']
  | .vbool false => ['f', 'a', 'l', 's', 'e']
  | .vint n => intChars n
  | .vstr s => dumpStr s
  | .varr xs => '[' :: dumpArr xs
  | .vobj fs => '{' :: dumpObj fs

/-- Elements of an array dump, including the closing bracket. -/
def dumpArr : List Val → List Char
  | [] => [']']
  | [x] => dump x ++ [']']
  | x :: y :: rest => dump x ++ ',' :: dumpArr (y :: rest)

/-- Members of an object dump, including the closing brace. -/
def dumpObj : List (String × Val) → List Char
  | [] => ['}']
  | [(k, v)] => dumpStr k ++ ':' :: dump v ++ ['}']
  | (k, v) :: p :: rest => dumpStr k ++ ':' :: dump v ++ ',' :: dumpObj (p :: rest)

end

/-- Python string `<`: lexicographic comparison by code point. -/
def strLtB : List Char → List Char → Bool
  | [], [] => false
  | [], _ :: _ => true
  | _ :: _, [] => false
  | c :: cs, d :: ds =>
      if c.toNat < d.toNat then true
      else if d.toNat < c.toNat then false
      else strLtB cs ds

/-- Key order used by `sort_keys=True`: Python's `≤` on strings. -/
def keyLE (p q : String × Val) : Prop :=
  strLtB q.1.toList p.1.toList = false

instance : DecidableRel keyLE := fun p q =>
  instDecidableEqBool (strLtB q.1.toList p.1.toList) false

mutual

/-- Recursively sort every mapping's fields by key — the effect
`sort_keys=True` has on the emitted document. -/
def canon : Val → Val
  | .vobj fs => .vobj (List.insertionSort keyLE (canonFields fs))
  | .varr xs => .varr (canonList xs)
  | .vnull => .vnull
  | .vbool b => .vbool b
  | .vint n => .vint n
  | .vstr s => .vstr s

def canonList : List Val → List Val
  | [] => []
  | x :: xs => canon x :: canonList xs

def canonFields : List (String × Val) → List (String × Val)
  | [] => []
  | (k, v) :: fs => (k, canon v) :: canonFields fs

end

/-- `json.dumps(v, sort_keys=True, separators=(",", ":"))`. -/
def serializeJson (v : Val) : List Char := dump (canon v)

/-- UTF-8 bytes of one character (`str.encode("utf-8")`). -/
def utf8Encode (c : Char) : List Nat :=
  let v := c.toNat
  if v < 128 then [v]
  else if v < 2048 then [192 + v / 64, 128 + v % 64]
  else if v < 65536 then [224 + v / 4096, 128 + v / 64 % 64, 128 + v % 64]
  else [240 + v / 262144, 128 + v / 4096 % 64, 128 + v / 64 % 64, 128 + v % 64]

/-- UTF-8 bytes of a character sequence. -/
def utf8Bytes (s : List Char) : List Nat :=
  s.foldr (fun c acc => utf8Encode c ++ acc) []

/-! ### SHA-256 (FIPS 180-4), executable over byte lists -/

/-- Truncation to a 32-bit word. -/
def w32 (n : Nat) : Nat := n % 4294967296

/-- Right rotation of a 32-bit word. -/
def rotr (x n : Nat) : Nat := w32 ((x >>> n) ||| (x <<< (32 - n)))

/-- Bitwise complement of a 32-bit word. -/
def notW (x : Nat) : Nat := x ^^^ 4294967295

/-- The eight working variables / hash state of SHA-256. -/
structure H8 where
  a : Nat
  b : Nat
  c : Nat
  d : Nat
  e : Nat
  f : Nat
  g : Nat
  h : Nat

/-- SHA-256 round constants. -/
def sha256K : List Nat :=
  [1116352408, 1899447441, 3049323471, 3921009573, 961987163,
   1508970993, 2453635748, 2870763221, 3624381080, 310598401,
   607225278, 1426881987, 1925078388, 2162078206, 2614888103,
   3248222580, 3835390401, 4022224774, 264347078, 604807628,
   770255983, 1249150122, 1555081692, 1996064986, 2554220882,
   2821834349, 2952996808, 3210313671, 3336571891, 3584528711,
   113926993, 338241895, 666307205, 773529912, 1294757372,
   1396182291, 1695183700, 1986661051, 2177026350, 2456956037,
   2730485921, 2820302411, 3259730800, 3345764771, 3516065817,
   3600352804, 4094571909, 275423344, 430227734, 506948616,
   659060556, 883997877, 958139571, 1322822218, 1537002063,
   1747873779, 1955562222, 2024104815, 2227730452, 2361852424,
   2428436474, 2756734187, 3204031479, 3329325298]

/-- SHA-256 initial hash value. -/
def sha256Init : H8 :=
  ⟨1779033703, 3144134277, 1013904242, 2773480762,
   1359893119, 2600822924, 528734635, 1541459225⟩

/-- Group bytes into big-endian 32-bit words. -/
def toWords : List Nat → List Nat
  | b0 :: b1 :: b2 :: b3 :: rest =>
      (b0 * 16777216 + b1 * 65536 + b2 * 256 + b3) :: toWords rest
  | _ => []

/-- One message-schedule extension step: append
`σ1(w[L-2]) + w[L-7] + σ0(w[L-15]) + w[L-16]`. -/
def extendStep (ws : List Nat) : List Nat :=
  let L := ws.length
  let g : Nat → Nat := fun i => ws.getD i 0
  let s0 := rotr (g (L - 15)) 7 ^^^ rotr (g (L - 15)) 18 ^^^ (g (L - 15)) >>> 3
  let s1 := rotr (g (L - 2)) 17 ^^^ rotr (g (L - 2)) 19 ^^^ (g (L - 2)) >>> 10
  ws ++ [w32 (s1 + g (L - 7) + s0 + g (L - 16))]

/-- Iterate the extension step. -/
def extendN : Nat → List Nat → List Nat
  | 0, ws => ws
  | n + 1, ws => extendN n (extendStep ws)

/-- One SHA-256 round. -/
def sha256Round (st : H8) (kw : Nat × Nat) : H8 :=
  let S1 := rotr st.e 6 ^^^ rotr st.e 11 ^^^ rotr st.e 25
  let ch := (st.e &&& st.f) ^^^ (notW st.e &&& st.g)
  let t1 := w32 (st.h + S1 + ch + kw.1 + kw.2)
  let S0 := rotr st.a 2 ^^^ rotr st.a 13 ^^^ rotr st.a 22
  let mj := (st.a &&& st.b) ^^^ (st.a &&& st.c) ^^^ (st.b &&& st.c)
  let t2 := w32 (S0 + mj)
  ⟨w32 (t1 + t2), st.a, st.b, st.c, w32 (st.d + t1), st.e, st.f, st.g⟩

/-- Compression of one 64-byte block. -/
def sha256Compress (st : H8) (block : List Nat) : H8 :=
  let ws := extendN 48 (toWords block)
  let t := (sha256K.zip ws).foldl sha256Round st
  ⟨w32 (st.a + t.a), w32 (st.b + t.b), w32 (st.c + t.c), w32 (st.d + t.d),
   w32 (st.e + t.e), w32 (st.f + t.f), w32 (st.g + t.g), w32 (st.h + t.h)⟩

/-- Big-endian 8-byte encoding of the message bit length. -/
def lenBytes (n : Nat) : List Nat :=
  [n / 72057594037927936 % 256, n / 281474976710656 % 256,
   n / 1099511627776 % 256, n / 4294967296 % 256,
   n / 16777216 % 256, n / 65536 % 256, n / 256 % 256, n % 256]

/-- SHA-256 message padding: `0x80`, zeros to 56 mod 64, 8 length bytes. -/
def sha256Pad (msg : List Nat) : List Nat :=
  let padLen := (119 - msg.length % 64) % 64
  msg ++ 128 :: List.replicate padLen 0 ++ lenBytes (8 * msg.length)

/-- Split into 64-byte blocks (fuel-based so it unfolds by iota). -/
def chunk64Aux : Nat → List Nat → List (List Nat)
  | 0, _ => []
  | fuel + 1, l => if l.isEmpty then [] else l.take 64 :: chunk64Aux fuel (l.drop 64)

/-- Split into 64-byte blocks. -/
def chunk64 (l : List Nat) : List (List Nat) := chunk64Aux l.length l

/-- Big-endian bytes of a 32-bit word. -/
def wordToBytes (w : Nat) : List Nat :=
  [w / 16777216 % 256, w / 65536 % 256, w / 256 % 256, w % 256]

/-- SHA-256 digest (32 bytes) of a byte sequence. -/
def sha256Bytes (msg : List Nat) : List Nat :=
  let fin := (chunk64 (sha256Pad msg)).foldl sha256Compress sha256Init
  wordToBytes fin.a ++ wordToBytes fin.b ++ wordToBytes fin.c ++
  wordToBytes fin.d ++ wordToBytes fin.e ++ wordToBytes fin.f ++
  wordToBytes fin.g ++ wordToBytes fin.h

/-- Two lowercase hex characters of a byte. -/
def byteHex (b : Nat) : List Char := [hexChar (b / 16), hexChar (b % 16)]

/-- `hash_content` of both ingestion scripts:
`hashlib.sha256(json.dumps(data, sort_keys=True, separators=(",", ":")).encode("utf-8")).hexdigest()`. -/
def hash_content (v : Val) : String :=
  String.mk ((sha256Bytes (utf8Bytes (serializeJson v))).foldr
    (fun b acc => byteHex b ++ acc) [])

/-! ## The relational store

Four tables, as described by the scripts' upsert calls:
`topics(topic_id, topic_name UNIQUE)`,
`subtopics(subtopic_id, topic_id, subtopic_name, UNIQUE(topic_id, subtopic_name))`,
`content(..., UNIQUE(subtopic_id, difficulty))`,
`questions(..., UNIQUE(question_hash))`. -/

structure TopicRow where
  topic_id : Nat
  topic_name : String
  deriving DecidableEq

structure SubtopicRow where
  subtopic_id : Nat
  topic_id : Nat
  subtopic_name : String
  deriving DecidableEq

structure ContentRow where
  subtopic_id : Nat
  difficulty : String
  title : Val
  summary : Val
  content_json : Val
  content_hash : String
  is_published : Bool
  deriving DecidableEq

structure QuestionRow where
  subtopic_id : Nat
  difficulty : String
  question_type : Val
  content_json : Val
  question_hash : String
  is_published : Bool
  deriving DecidableEq

structure Store where
  topics : List TopicRow
  subtopics : List SubtopicRow
  content : List ContentRow
  questions : List QuestionRow
  nextTopicId : Nat
  nextSubtopicId : Nat
  deriving DecidableEq

def emptyStore : Store := ⟨[], [], [], [], 1, 1⟩

/-! ## Run state: store, log, upsert trace, retry bookkeeping -/

inductive LogLevel where
  | info | warning | error
  deriving DecidableEq

structure LogEntry where
  level : LogLevel
  msg : String
  deriving DecidableEq

/-- Conditions under which an uncaught Python exception escapes
`ingest()` and aborts the run. -/
inductive Crash where
  | yamlParse (file : String)
  | pyError (what : String)
  | upsertExhausted (table : String)
  deriving DecidableEq

/-- A successfully executed store write, with the store before and
after it was applied. -/
inductive Event where
  | topicUpsert (name : String) (before after : Store)
  | subtopicUpsert (tid : Nat) (name : String) (before after : Store)
  | contentUpsert (rows : List ContentRow) (before after : Store)
  | questionUpsert (rows : List QuestionRow) (before after : Store)
  deriving DecidableEq

structure RunState where
  store : Store
  events : List Event
  log : List LogEntry
  attempts : Nat
  delays : List Nat
  crashed : Option Crash
  deriving DecidableEq

def initState (s : Store) : RunState := ⟨s, [], [], 0, [], none⟩

/-- The state after an uncaught exception: everything so far is kept,
processing stops. -/
def crashState (st : RunState) (c : Crash) : RunState :=
  { st with crashed := some c }

/-- Decides whether each write attempt (numbered globally) succeeds:
`true` = the store accepts it, `false` = a transient failure. -/
def Oracle : Type := Nat → Bool

/-- The environment in which every write succeeds. -/
def allOk : Oracle := fun _ => true

/-! ## Input corpus -/

/-- The outcome of `yaml.safe_load` on one file path: the file may be
absent, fail to parse (`yaml.YAMLError`), or parse to a value. -/
inductive FileData where
  | missing
  | parseFail
  | parsed (v : Val)
  deriving DecidableEq

/-- One subtopic directory, possibly holding `chunks_by_level.yaml`
and `questions_by_level.yaml`. -/
structure SubtopicDir where
  name : String
  chunks : FileData
  questions : FileData
  deriving DecidableEq

structure TopicDir where
  name : String
  subs : List SubtopicDir
  deriving DecidableEq

/-- `CONTENT_ROOT`'s topic directories in enumeration order. -/
def Corpus : Type := List TopicDir

/-! ## Fixed configuration (`content_ingestion.py` / `question_ingestion.py`) -/

def BATCH_SIZE : Nat := 10
def MAX_RETRIES : Nat := 3

/-- `DIFFICULTY_MAP` of `content_ingestion.py`. -/
def CONTENT_DIFFICULTY_MAP : List (String × String) :=
  [("beginner", "basic"), ("intermediate", "core"), ("advanced", "advanced")]

/-- `DIFFICULTY_MAP` of `question_ingestion.py` (`advanced → mastery`). -/
def QUESTION_DIFFICULTY_MAP : List (String × String) :=
  [("beginner", "basic"), ("intermediate", "core"), ("advanced", "mastery")]

/-! ## Hierarchy resolver (`get_or_create_topic`, `get_or_create_subtopic`) -/

def findTopic (ts : List TopicRow) (name : String) : Option TopicRow :=
  ts.find? (fun r => r.topic_name == name)

/-- Conflict-tolerant insert on `topic_name` followed by a lookup of
the id (`upsert` + `select ... single`). -/
def getOrCreateTopic (s : Store) (name : String) : Store × Nat :=
  match findTopic s.topics name with
  | some r => (s, r.topic_id)
  | none =>
      ({ s with topics := s.topics ++ [⟨s.nextTopicId, name⟩],
                nextTopicId := s.nextTopicId + 1 }, s.nextTopicId)

def findSubtopic (ss : List SubtopicRow) (tid : Nat) (name : String) :
    Option SubtopicRow :=
  ss.find? (fun r => r.topic_id == tid && r.subtopic_name == name)

def getOrCreateSubtopic (s : Store) (tid : Nat) (name : String) : Store × Nat :=
  match findSubtopic s.subtopics tid name with
  | some r => (s, r.subtopic_id)
  | none =>
      ({ s with subtopics := s.subtopics ++ [⟨s.nextSubtopicId, tid, name⟩],
                nextSubtopicId := s.nextSubtopicId + 1 }, s.nextSubtopicId)

/-! ## Batched upsert writes with conflict keys -/

/-- Conflict on `(subtopic_id, difficulty)` (`on_conflict="subtopic_id,difficulty"`). -/
def contentKeyMatch (r x : ContentRow) : Bool :=
  x.subtopic_id == r.subtopic_id && x.difficulty == r.difficulty

def upsertContentRow (l : List ContentRow) (r : ContentRow) : List ContentRow :=
  if l.any (contentKeyMatch r) then
    l.map (fun x => if contentKeyMatch r x then r else x)
  else l ++ [r]

def upsertContentRows (s : Store) (rows : List ContentRow) : Store :=
  { s with content := rows.foldl upsertContentRow s.content }

/-- Conflict on `question_hash` (`on_conflict="question_hash"`). -/
def questionKeyMatch (r x : QuestionRow) : Bool :=
  x.question_hash == r.question_hash

def upsertQuestionRow (l : List QuestionRow) (r : QuestionRow) : List QuestionRow :=
  if l.any (questionKeyMatch r) then
    l.map (fun x => if questionKeyMatch r x then r else x)
  else l ++ [r]

def upsertQuestionRows (s : Store) (rows : List QuestionRow) : Store :=
  { s with questions := rows.foldl upsertQuestionRow s.questions }

/-- `safe_upsert` with its `@retry(tries=MAX_RETRIES, delay=2)`
decorator: each failed attempt logs an error; between attempts the
decorator sleeps 2 seconds (recorded in `delays`); when all tries are
exhausted the exception propagates (`crashed`). -/
def attemptUpsert (oracle : Oracle) (table : String) (apply : Store → Store)
    (mkEv : Store → Store → Event) : Nat → RunState → RunState
  | 0, st => { st with crashed := some (.upsertExhausted table) }
  | n + 1, st =>
      if oracle st.attempts then
        let s2 := apply st.store
        { st with store := s2, attempts := st.attempts + 1,
                  events := st.events ++ [mkEv st.store s2] }
      else
        let st2 : RunState :=
          { st with attempts := st.attempts + 1,
                    log := st.log ++ [⟨.error, "Upsert failed for " ++ table⟩] }
        if n = 0 then { st2 with crashed := some (.upsertExhausted table) }
        else attemptUpsert oracle table apply mkEv n
               { st2 with delays := st2.delays ++ [2] }

def safeUpsertContent (oracle : Oracle) (rows : List ContentRow)
    (st : RunState) : RunState :=
  attemptUpsert oracle "content" (fun s => upsertContentRows s rows)
    (fun b a => .contentUpsert rows b a) MAX_RETRIES st

def safeUpsertQuestions (oracle : Oracle) (rows : List QuestionRow)
    (st : RunState) : RunState :=
  attemptUpsert oracle "questions" (fun s => upsertQuestionRows s rows)
    (fun b a => .questionUpsert rows b a) MAX_RETRIES st

/-! ## Content ingestion (`content_ingestion.py: ingest`) -/

/-- One row of the `content` batch, as assembled in the loop body
(`title`/`summary` via `.get`, which yields `None` when absent). -/
def mkContentRow (sid : Nat) (db : String) (bf : List (String × Val)) : ContentRow :=
  ⟨sid, db, (Val.lookupField "title" bf).getD .vnull,
   (Val.lookupField "summary" bf).getD .vnull,
   .vobj bf, hash_content (.vobj bf), true⟩

/-- The batch the content loop accumulates over `DIFFICULTY_MAP.items()`:
levels absent from the file are skipped (`yaml_level not in data`);
a present level whose block is not a mapping makes
`level_block.get("title")` raise `AttributeError`, which nothing
catches. -/
def contentRowsFor (sid : Nat) (fields : List (String × Val)) :
    List (String × String) → Except Crash (List ContentRow)
  | [] => .ok []
  | (lvl, db) :: rest =>
      match Val.lookupField lvl fields with
      | none => contentRowsFor sid fields rest
      | some (.vobj bf) =>
          match contentRowsFor sid fields rest with
          | .ok rows => .ok (mkContentRow sid db bf :: rows)
          | .error e => .error e
      | some _ => .error (.pyError "AttributeError: level block has no .get")

def processContentSubtopic (oracle : Oracle) (tid : Nat) (sub : SubtopicDir)
    (st : RunState) : RunState :=
  if st.crashed.isSome then st else
  let p := getOrCreateSubtopic st.store tid sub.name
  let st1 : RunState :=
    { st with store := p.1,
              events := st.events ++ [.subtopicUpsert tid sub.name st.store p.1],
              log := st.log ++ [⟨.info, "Processing subtopic: " ++ sub.name⟩] }
  match sub.chunks with
  | .missing =>
      { st1 with log := st1.log ++
          [⟨.warning, "No chunks_by_level.yaml in " ++ sub.name⟩] }
  | .parseFail => crashState st1 (.yamlParse sub.name)
  | .parsed data =>
      match data with
      | .vobj fields =>
          match contentRowsFor p.2 fields CONTENT_DIFFICULTY_MAP with
          | .error c => crashState st1 c
          | .ok rows =>
              if rows.isEmpty then st1
              else
                let st2 := safeUpsertContent oracle rows st1
                if st2.crashed.isSome then st2
                else { st2 with log := st2.log ++
                        [⟨.info, "Inserted final batch of chunks"⟩] }
      | _ =>
          { st1 with log := st1.log ++
              [⟨.error, "Invalid YAML structure in " ++ sub.name⟩] }

def processContentTopic (oracle : Oracle) (t : TopicDir) (st : RunState) :
    RunState :=
  if st.crashed.isSome then st else
  let p := getOrCreateTopic st.store t.name
  let st1 : RunState :=
    { st with store := p.1,
              events := st.events ++ [.topicUpsert t.name st.store p.1],
              log := st.log ++ [⟨.info, "Processing topic: " ++ t.name⟩] }
  t.subs.foldl (fun acc sub => processContentSubtopic oracle p.2 sub acc) st1

def runContent (oracle : Oracle) (c : Corpus) (st : RunState) : RunState :=
  let st1 := c.foldl (fun acc t => processContentTopic oracle t acc) st
  if st1.crashed.isSome then st1
  else { st1 with log := st1.log ++ [⟨.info, "Ingestion completed"⟩] }

/-! ## Question ingestion (`question_ingestion.py: ingest`) -/

def mkQuestionRow (sid : Nat) (db : String) (qt q : Val) : QuestionRow :=
  ⟨sid, db, qt, q, hash_content q, true⟩

/-- The inner `for q in questions` loop, threading the shared
`batch_rows` buffer: items whose `type` is falsy are skipped with a
warning; after appending, the batch is flushed as soon as it reaches
`BATCH_SIZE`. -/
def qItemLoop (oracle : Oracle) (sid : Nat) (db : String) :
    List Val → List QuestionRow → RunState → List QuestionRow × RunState
  | [], batch, st => (batch, st)
  | q :: qs, batch, st =>
      if st.crashed.isSome then (batch, st) else
      match q with
      | .vobj qf =>
          let qt := (Val.lookupField "type" qf).getD .vnull
          if qt.truthy then
            let batch2 := batch ++ [mkQuestionRow sid db qt q]
            if BATCH_SIZE ≤ batch2.length then
              qItemLoop oracle sid db qs [] (safeUpsertQuestions oracle batch2 st)
            else qItemLoop oracle sid db qs batch2 st
          else
            qItemLoop oracle sid db qs batch
              { st with log := st.log ++
                  [⟨.warning, "Skipping question with missing type"⟩] }
      | _ =>
          (batch, crashState st (.pyError "AttributeError: question item has no .get"))

/-- The `for yaml_level, db_level in DIFFICULTY_MAP.items()` loop of the
question flow; `levels` is `data["by_level"]`, whose shape is only
probed by `in`, indexing, `.get` and iteration — mismatches raise. -/
def qLevelLoop (oracle : Oracle) (sid : Nat) (levels : Val) :
    List (String × String) → List QuestionRow → RunState →
    List QuestionRow × RunState
  | [], batch, st => (batch, st)
  | (lvl, db) :: rest, batch, st =>
      if st.crashed.isSome then (batch, st) else
      match Val.pyContains levels lvl with
      | none =>
          (batch, crashState st (.pyError "TypeError: in on non-container"))
      | some false => qLevelLoop oracle sid levels rest batch st
      | some true =>
          match Val.pyIndex levels lvl with
          | none =>
              (batch, crashState st (.pyError "TypeError: string index on non-dict"))
          | some block =>
              match Val.pyGet block "questions" (.varr []) with
              | none =>
                  (batch, crashState st (.pyError "AttributeError: level has no .get"))
              | some qsVal =>
                  match qsVal.pyIter with
                  | none =>
                      (batch, crashState st (.pyError "TypeError: not iterable"))
                  | some qs =>
                      let r := qItemLoop oracle sid db qs batch st
                      qLevelLoop oracle sid levels rest r.1 r.2

def processQuestionSubtopic (oracle : Oracle) (tid : Nat) (sub : SubtopicDir)
    (st : RunState) : RunState :=
  if st.crashed.isSome then st else
  let p := getOrCreateSubtopic st.store tid sub.name
  let st1 : RunState :=
    { st with store := p.1,
              events := st.events ++ [.subtopicUpsert tid sub.name st.store p.1],
              log := st.log ++ [⟨.info, "Processing subtopic: " ++ sub.name⟩] }
  match sub.questions with
  | .missing =>
      { st1 with log := st1.log ++
          [⟨.warning, "No questions_by_level.yaml in " ++ sub.name⟩] }
  | .parseFail =>
      { st1 with log := st1.log ++
          [⟨.error, "Failed to parse questions_by_level.yaml in " ++ sub.name⟩] }
  | .parsed data =>
      match data with
      | .vobj fields =>
          if fields.any (fun p => p.1 == "by_level") then
            let levels := (Val.lookupField "by_level" fields).getD .vnull
            let r := qLevelLoop oracle p.2 levels QUESTION_DIFFICULTY_MAP [] st1
            if r.2.crashed.isSome then r.2
            else if r.1.isEmpty then r.2
            else
              let st3 := safeUpsertQuestions oracle r.1 r.2
              if st3.crashed.isSome then st3
              else { st3 with log := st3.log ++
                      [⟨.info, "Inserted final batch of questions for " ++ sub.name⟩] }
          else
            { st1 with log := st1.log ++
                [⟨.error, "Invalid YAML structure in " ++ sub.name⟩] }
      | _ =>
          { st1 with log := st1.log ++
              [⟨.error, "Invalid YAML structure in " ++ sub.name⟩] }

def processQuestionTopic (oracle : Oracle) (t : TopicDir) (st : RunState) :
    RunState :=
  if st.crashed.isSome then st else
  let p := getOrCreateTopic st.store t.name
  let st1 : RunState :=
    { st with store := p.1,
              events := st.events ++ [.topicUpsert t.name st.store p.1],
              log := st.log ++ [⟨.info, "Processing topic: " ++ t.name⟩] }
  t.subs.foldl (fun acc sub => processQuestionSubtopic oracle p.2 sub acc) st1

def runQuestion (oracle : Oracle) (c : Corpus) (st : RunState) : RunState :=
  let st1 := c.foldl (fun acc t => processQuestionTopic oracle t acc) st
  if st1.crashed.isSome then st1
  else { st1 with log := st1.log ++ [⟨.info, "Questions ingestion completed"⟩] }

/-- One full ingestion pass: the content script, then the question
script (separate processes; each starts with fresh in-process state,
sharing only the store). -/
def ingestAll (oracle : Oracle) (c : Corpus) (s : Store) : Store :=
  (runQuestion oracle c (initState (runContent oracle c (initState s)).store)).store

/-! ## Trace invariants shared by several results -/

/-- Every recorded write event satisfies `P`. -/
def EventsOK (P : Event → Prop) (st : RunState) : Prop := ∀ e ∈ st.events, P e

theorem EventsOK.of_eq {P : Event → Prop} {st st' : RunState}
    (h : EventsOK P st) (he : st'.events = st.events) : EventsOK P st' :=
  fun e hm => h e (he ▸ hm)

theorem EventsOK.snoc {P : Event → Prop} {st st' : RunState} (ev : Event)
    (h : EventsOK P st) (hev : P ev) (he : st'.events = st.events ++ [ev]) :
    EventsOK P st' := by
  intro e hm
  rw [he] at hm
  rcases List.mem_append.mp hm with hm | hm
  · exact h e hm
  · simp at hm; exact hm ▸ hev

/-- Preservation of a state invariant through a subtopic/topic fold. -/
theorem foldl_pres {α : Type} (P : RunState → Prop) (step : α → RunState → RunState)
    (h : ∀ x st, P st → P (step x st)) :
    ∀ (l : List α) (st : RunState), P st → P (l.foldl (fun acc x => step x acc) st)
  | [], _, hst => hst
  | x :: xs, st, hst => foldl_pres P step h xs (step x st) (h x st hst)

theorem attemptUpsert_eventsOK {P : Event → Prop} (oracle : Oracle)
    (table : String) (apply : Store → Store) (mkEv : Store → Store → Event)
    (hEv : ∀ b a, P (mkEv b a)) :
    ∀ (n : Nat) (st : RunState), EventsOK P st →
      EventsOK P (attemptUpsert oracle table apply mkEv n st)
  | 0, st, h => h
  | n + 1, st, h => by
      rw [attemptUpsert]
      split
      · exact h.snoc (mkEv st.store (apply st.store)) (hEv _ _) (by simp)
      · split
        · exact h.of_eq (by simp)
        · exact attemptUpsert_eventsOK oracle table apply mkEv hEv n _
            (h.of_eq (by simp))

theorem safeUpsertContent_eventsOK {P : Event → Prop} (oracle : Oracle)
    (rows : List ContentRow) {st : RunState}
    (hEv : ∀ b a, P (.contentUpsert rows b a)) (h : EventsOK P st) :
    EventsOK P (safeUpsertContent oracle rows st) :=
  attemptUpsert_eventsOK _ _ _ _ hEv MAX_RETRIES st h

theorem safeUpsertQuestions_eventsOK {P : Event → Prop} (oracle : Oracle)
    (rows : List QuestionRow) {st : RunState}
    (hEv : ∀ b a, P (.questionUpsert rows b a)) (h : EventsOK P st) :
    EventsOK P (safeUpsertQuestions oracle rows st) :=
  attemptUpsert_eventsOK _ _ _ _ hEv MAX_RETRIES st h

/-- Rows assembled by the content loop: always published, difficulty
drawn from the stored side of `DIFFICULTY_MAP`. -/
theorem contentRowsFor_built :
    ∀ (m : List (String × String)) (sid : Nat) (fields : List (String × Val))
      (rows : List ContentRow), contentRowsFor sid fields m = .ok rows →
      ∀ r ∈ rows, r.is_published = true ∧ ∃ p ∈ m, r.difficulty = p.2
  | [], sid, fields, rows, h => by
      simp [contentRowsFor] at h
      subst h
      simp
  | (lvl, db) :: rest, sid, fields, rows, h => by
      rw [contentRowsFor] at h
      rcases hl : Val.lookupField lvl fields with _ | block <;> rw [hl] at h
      · intro r hr
        rcases contentRowsFor_built rest sid fields rows h r hr with ⟨hp, p, hm, hd⟩
        exact ⟨hp, p, List.mem_cons_of_mem _ hm, hd⟩
      · rcases block with _ | b | n | s | xs | bf <;> simp at h
        rcases hrest : contentRowsFor sid fields rest with e | rows' <;>
          rw [hrest] at h <;> simp at h
        subst h
        intro r hr
        rcases List.mem_cons.mp hr with rfl | hr
        · exact ⟨rfl, (lvl, db), List.mem_cons_self _ _, rfl⟩
        · rcases contentRowsFor_built rest sid fields rows' hrest r hr with ⟨hp, p, hm, hd⟩
          exact ⟨hp, p, List.mem_cons_of_mem _ hm, hd⟩

/-- What it means for a question row to have been assembled by the
question loop. -/
def builtQRow (r : QuestionRow) : Prop :=
  r.is_published = true ∧ ∃ p ∈ QUESTION_DIFFICULTY_MAP, r.difficulty = p.2

/-- Events record only rows assembled by the respective loop body. -/
def builtEvent : Event → Prop
  | .contentUpsert rows _ _ =>
      ∀ r ∈ rows, r.is_published = true ∧ ∃ p ∈ CONTENT_DIFFICULTY_MAP, r.difficulty = p.2
  | .questionUpsert rows _ _ => ∀ r ∈ rows, builtQRow r
  | _ => True

theorem builtEvent_topicUpsert (name : String) (b a : Store) :
    builtEvent (.topicUpsert name b a) := True.intro

theorem builtEvent_subtopicUpsert (tid : Nat) (name : String) (b a : Store) :
    builtEvent (.subtopicUpsert tid name b a) := True.intro

theorem processContentSubtopic_built (oracle : Oracle) (tid : Nat)
    (sub : SubtopicDir) (st : RunState) (h : EventsOK builtEvent st) :
    EventsOK builtEvent (processContentSubtopic oracle tid sub st) := by
  obtain ⟨name, chunks, qfile⟩ := sub
  unfold processContentSubtopic
  split
  · exact h
  · have h1 : EventsOK builtEvent
        { st with
            store := (getOrCreateSubtopic st.store tid name).1,
            events := st.events ++
              [.subtopicUpsert tid name st.store (getOrCreateSubtopic st.store tid name).1],
            log := st.log ++ [⟨.info, "Processing subtopic: " ++ name⟩] } :=
      h.snoc _ (builtEvent_subtopicUpsert _ _ _ _) rfl
    rcases chunks with _ | _ | data
    · exact h1.of_eq rfl
    · exact h1.of_eq rfl
    · rcases data with _ | b | n | s | xs | fields
      case vobj =>
        dsimp only
        split
        · exact h1.of_eq rfl
        · rename_i rows hrows
          split
          · exact h1.of_eq rfl
          · have h2 := safeUpsertContent_eventsOK oracle rows
              (fun b a => contentRowsFor_built _ _ _ _ hrows) h1
            split
            · exact h2
            · exact h2.of_eq rfl
      all_goals exact h1.of_eq rfl

theorem processContentTopic_built (oracle : Oracle) (t : TopicDir)
    (st : RunState) (h : EventsOK builtEvent st) :
    EventsOK builtEvent (processContentTopic oracle t st) := by
  unfold processContentTopic
  split
  · exact h
  · exact foldl_pres (EventsOK builtEvent) _
      (fun sub st' h' => processContentSubtopic_built oracle _ sub st' h') t.subs _
      (h.snoc _ (builtEvent_topicUpsert _ _ _) rfl)

theorem runContent_built (oracle : Oracle) (c : Corpus) (st : RunState)
    (h : EventsOK builtEvent st) : EventsOK builtEvent (runContent oracle c st) := by
  unfold runContent
  have h1 := foldl_pres (EventsOK builtEvent) _
    (fun t st' h' => processContentTopic_built oracle t st' h') c st h
  dsimp only
  split
  · exact h1
  · exact h1.of_eq rfl

theorem qItemLoop_built (oracle : Oracle) (sid : Nat) (db : String)
    (hdb : ∃ p ∈ QUESTION_DIFFICULTY_MAP, db = p.2) :
    ∀ (qs : List Val) (batch : List QuestionRow) (st : RunState),
      EventsOK builtEvent st → (∀ r ∈ batch, builtQRow r) →
      EventsOK builtEvent (qItemLoop oracle sid db qs batch st).2 ∧
        ∀ r ∈ (qItemLoop oracle sid db qs batch st).1, builtQRow r
  | [], batch, st, h, hb => ⟨h, hb⟩
  | q :: qs, batch, st, h, hb => by
      rcases q with _ | b | n | s | xs | qf
      case vobj =>
        rw [qItemLoop]
        split
        · exact ⟨h, hb⟩
        · dsimp only
          have hb2 : ∀ r ∈ batch ++
              [mkQuestionRow sid db ((Val.lookupField "type" qf).getD .vnull) (.vobj qf)],
              builtQRow r := by
            intro r hr
            rcases List.mem_append.mp hr with hr | hr
            · exact hb r hr
            · simp at hr
              subst hr
              exact ⟨rfl, by rcases hdb with ⟨p, hp, rfl⟩; exact ⟨p, hp, rfl⟩⟩
          split
          · split
            · exact qItemLoop_built oracle sid db hdb qs [] _
                (safeUpsertQuestions_eventsOK oracle _ (fun b a => hb2) h) (by simp)
            · exact qItemLoop_built oracle sid db hdb qs _ _ h hb2
          · exact qItemLoop_built oracle sid db hdb qs batch _ (h.of_eq rfl) hb
      case vnull =>
        rw [qItemLoop]
        · split
          · exact ⟨h, hb⟩
          · exact ⟨h.of_eq rfl, hb⟩
        · intro fs hfs
          cases hfs
      case vbool =>
        rw [qItemLoop]
        · split
          · exact ⟨h, hb⟩
          · exact ⟨h.of_eq rfl, hb⟩
        · intro fs hfs
          cases hfs
      case vint =>
        rw [qItemLoop]
        · split
          · exact ⟨h, hb⟩
          · exact ⟨h.of_eq rfl, hb⟩
        · intro fs hfs
          cases hfs
      case vstr =>
        rw [qItemLoop]
        · split
          · exact ⟨h, hb⟩
          · exact ⟨h.of_eq rfl, hb⟩
        · intro fs hfs
          cases hfs
      case varr =>
        rw [qItemLoop]
        · split
          · exact ⟨h, hb⟩
          · exact ⟨h.of_eq rfl, hb⟩
        · intro fs hfs
          cases hfs

theorem qLevelLoop_built (oracle : Oracle) (sid : Nat) (levels : Val) :
    ∀ (m : List (String × String)), (∀ p ∈ m, p ∈ QUESTION_DIFFICULTY_MAP) →
    ∀ (batch : List QuestionRow) (st : RunState),
      EventsOK builtEvent st → (∀ r ∈ batch, builtQRow r) →
      EventsOK builtEvent (qLevelLoop oracle sid levels m batch st).2 ∧
        ∀ r ∈ (qLevelLoop oracle sid levels m batch st).1, builtQRow r
  | [], _, batch, st, h, hb => ⟨h, hb⟩
  | (lvl, db) :: rest, hm, batch, st, h, hb => by
      have hrest : ∀ p ∈ rest, p ∈ QUESTION_DIFFICULTY_MAP :=
        fun p hp => hm p (List.mem_cons_of_mem _ hp)
      rw [qLevelLoop]
      split
      · exact ⟨h, hb⟩
      · split
        · exact ⟨h.of_eq rfl, hb⟩
        · exact qLevelLoop_built oracle sid levels rest hrest batch st h hb
        · split
          · exact ⟨h.of_eq rfl, hb⟩
          · split
            · exact ⟨h.of_eq rfl, hb⟩
            · split
              · exact ⟨h.of_eq rfl, hb⟩
              · rename_i qs hq
                dsimp only
                have hil := qItemLoop_built oracle sid db
                  ⟨(lvl, db), hm _ (List.mem_cons_self _ _), rfl⟩ qs batch st h hb
                exact qLevelLoop_built oracle sid levels rest hrest _ _ hil.1 hil.2

theorem processQuestionSubtopic_built (oracle : Oracle) (tid : Nat)
    (sub : SubtopicDir) (st : RunState) (h : EventsOK builtEvent st) :
    EventsOK builtEvent (processQuestionSubtopic oracle tid sub st) := by
  obtain ⟨name, chunks, qfile⟩ := sub
  unfold processQuestionSubtopic
  split
  · exact h
  · have h1 : EventsOK builtEvent
        { st with
            store := (getOrCreateSubtopic st.store tid name).1,
            events := st.events ++
              [.subtopicUpsert tid name st.store (getOrCreateSubtopic st.store tid name).1],
            log := st.log ++ [⟨.info, "Processing subtopic: " ++ name⟩] } :=
      h.snoc _ (builtEvent_subtopicUpsert _ _ _ _) rfl
    rcases qfile with _ | _ | data
    · exact h1.of_eq rfl
    · exact h1.of_eq rfl
    · rcases data with _ | b | n | s | xs | fields
      case vobj =>
        dsimp only
        split
        · have hll := qLevelLoop_built oracle (getOrCreateSubtopic st.store tid name).2
            ((Val.lookupField "by_level" fields).getD .vnull)
            QUESTION_DIFFICULTY_MAP (fun p hp => hp) [] _ h1 (by simp)
          split
          · exact hll.1
          · split
            · exact hll.1
            · have h2 := safeUpsertQuestions_eventsOK oracle _ (fun b a => hll.2) hll.1
              split
              · exact h2
              · exact h2.of_eq rfl
        · exact h1.of_eq rfl
      all_goals exact h1.of_eq rfl

theorem processQuestionTopic_built (oracle : Oracle) (t : TopicDir)
    (st : RunState) (h : EventsOK builtEvent st) :
    EventsOK builtEvent (processQuestionTopic oracle t st) := by
  unfold processQuestionTopic
  split
  · exact h
  · exact foldl_pres (EventsOK builtEvent) _
      (fun sub st' h' => processQuestionSubtopic_built oracle _ sub st' h') t.subs _
      (h.snoc _ (builtEvent_topicUpsert _ _ _) rfl)

theorem runQuestion_built (oracle : Oracle) (c : Corpus) (st : RunState)
    (h : EventsOK builtEvent st) : EventsOK builtEvent (runQuestion oracle c st) := by
  unfold runQuestion
  have h1 := foldl_pres (EventsOK builtEvent) _
    (fun t st' h' => processQuestionTopic_built oracle t st' h') c st h
  dsimp only
  split
  · exact h1
  · exact h1.of_eq rfl

/-- A fresh run has no events yet, so every event predicate holds. -/
theorem eventsOK_init (P : Event → Prop) (s : Store) : EventsOK P (initState s) :=
  fun _ he => absurd he (List.not_mem_nil _)

theorem runContent_events_built (oracle : Oracle) (c : Corpus) (s : Store) :
    EventsOK builtEvent (runContent oracle c (initState s)) :=
  runContent_built oracle c (initState s) (eventsOK_init _ s)

theorem runQuestion_events_built (oracle : Oracle) (c : Corpus) (s : Store) :
    EventsOK builtEvent (runQuestion oracle c (initState s)) :=
  runQuestion_built oracle c (initState s) (eventsOK_init _ s)

/-! ## Fixtures used by witness corollaries -/

def tinyChunks : Val := .vobj [("beginner", .vobj [])]

def tinyQuestions : Val :=
  .vobj [("by_level", .vobj [("beginner",
    .vobj [("questions", .varr [.vobj [("type", .vstr "mcq")]])])])]

def tinyCorp : Corpus := [⟨"T", [⟨"S", .parsed tinyChunks, .parsed tinyQuestions⟩]⟩]

/-- Store after the tiny corpus's topic and subtopic have been created. -/
def tinyStore2 : Store := ⟨[⟨1, "T"⟩], [⟨1, 1, "S"⟩], [], [], 2, 2⟩

def tinyContentRow : ContentRow :=
  ⟨1, "basic", .vnull, .vnull, .vobj [], hash_content (.vobj []), true⟩

def tinyStore3 : Store := ⟨[⟨1, "T"⟩], [⟨1, 1, "S"⟩], [tinyContentRow], [], 2, 2⟩

/-! ## C10: every written row is published -/

/-- Rows carried by a write event all have `is_published = True`. -/
def publishedEvent : Event → Prop
  | .contentUpsert rows _ _ => ∀ r ∈ rows, r.is_published = true
  | .questionUpsert rows _ _ => ∀ r ∈ rows, r.is_published = true
  | _ => True

/-- C10: Every content row and every question row that either flow
builds and writes has `is_published` set to `True`; neither flow ever
produces an unpublished row. -/
theorem C10_all_rows_published (oracle : Oracle) (c : Corpus) (s : Store)
    (e : Event)
    (he : e ∈ (runContent oracle c (initState s)).events ++
              (runQuestion oracle c (initState s)).events) :
    publishedEvent e := by
  have hb : builtEvent e := by
    rcases List.mem_append.mp he with hm | hm
    · exact runContent_events_built oracle c s e hm
    · exact runQuestion_events_built oracle c s e hm
  rcases e with _ | _ | ⟨rows, b, a⟩ | ⟨rows, b, a⟩
  · exact True.intro
  · exact True.intro
  · exact fun r hr => (hb r hr).1
  · exact fun r hr => (hb r hr).1

theorem C10_witness :
    publishedEvent (.contentUpsert [tinyContentRow] tinyStore2 tinyStore3) :=
  C10_all_rows_published allOk tinyCorp emptyStore
    (.contentUpsert [tinyContentRow] tinyStore2 tinyStore3)
    (by decide)

/-! ## C2: the two difficulty remap tables and their asymmetry -/

/-- Stored difficulty for a source level, per remap table
(`DIFFICULTY_MAP[yaml_level]`). -/
def lookupLevel (m : List (String × String)) (k : String) : Option String :=
  (m.find? (fun p => p.1 == k)).map (fun p => p.2)

/-- Rows carried by a write event draw their `difficulty` from the
stored side of the respective flow's remap table. -/
def difficultyMapped : Event → Prop
  | .contentUpsert rows _ _ =>
      ∀ r ∈ rows, ∃ p ∈ CONTENT_DIFFICULTY_MAP, r.difficulty = p.2
  | .questionUpsert rows _ _ =>
      ∀ r ∈ rows, ∃ p ∈ QUESTION_DIFFICULTY_MAP, r.difficulty = p.2
  | _ => True

/-- C2: the content flow maps `beginner/intermediate/advanced` to
`basic/core/advanced` while the question flow maps them to
`basic/core/mastery`; each processed level's row stores exactly the
mapped value (`mkContentRow`/`mkQuestionRow` store the table's value),
and every row either run writes draws its difficulty from its own
table — so the `advanced`-vs-`mastery` asymmetry is preserved exactly. -/
theorem C2_difficulty_remap (oracle : Oracle) (c : Corpus) (s : Store)
    (e : Event)
    (he : e ∈ (runContent oracle c (initState s)).events ++
              (runQuestion oracle c (initState s)).events) :
    difficultyMapped e ∧
    lookupLevel CONTENT_DIFFICULTY_MAP "beginner" = some "basic" ∧
    lookupLevel CONTENT_DIFFICULTY_MAP "intermediate" = some "core" ∧
    lookupLevel CONTENT_DIFFICULTY_MAP "advanced" = some "advanced" ∧
    lookupLevel QUESTION_DIFFICULTY_MAP "beginner" = some "basic" ∧
    lookupLevel QUESTION_DIFFICULTY_MAP "intermediate" = some "core" ∧
    lookupLevel QUESTION_DIFFICULTY_MAP "advanced" = some "mastery" ∧
    (∀ sid db bf, (mkContentRow sid db bf).difficulty = db) ∧
    (∀ sid db qt q, (mkQuestionRow sid db qt q).difficulty = db) := by
  refine ⟨?_, by decide, by decide, by decide, by decide, by decide, by decide,
    fun sid db bf => rfl, fun sid db qt q => rfl⟩
  have hb : builtEvent e := by
    rcases List.mem_append.mp he with hm | hm
    · exact runContent_events_built oracle c s e hm
    · exact runQuestion_events_built oracle c s e hm
  rcases e with _ | _ | ⟨rows, b, a⟩ | ⟨rows, b, a⟩
  · exact True.intro
  · exact True.intro
  · exact fun r hr => (hb r hr).2
  · exact fun r hr => (hb r hr).2

theorem C2_witness :
    difficultyMapped (.contentUpsert [tinyContentRow] tinyStore2 tinyStore3) ∧
    lookupLevel CONTENT_DIFFICULTY_MAP "advanced" = some "advanced" ∧
    lookupLevel QUESTION_DIFFICULTY_MAP "advanced" = some "mastery" := by
  have h := C2_difficulty_remap allOk tinyCorp emptyStore
    (.contentUpsert [tinyContentRow] tinyStore2 tinyStore3)
    (by decide)
  exact ⟨h.1, h.2.2.2.1, h.2.2.2.2.2.2.1⟩

/-! ## C9: level iteration is driven by the remap table, not the file -/

theorem lookupField_filter (P : String → Bool) (k : String) (hk : P k = true) :
    ∀ fields, Val.lookupField k (fields.filter (fun p => P p.1)) =
      Val.lookupField k fields
  | [] => rfl
  | (k', v) :: rest => by
      by_cases hk' : P k' = true
      · rcases eq_or_ne k' k with rfl | hne
        · simp [List.filter_cons, hk', Val.lookupField]
        · simp [List.filter_cons, hk', Val.lookupField, hne,
            lookupField_filter P k hk rest]
      · have hne : k' ≠ k := fun he => hk' (by rw [he]; exact hk)
        simp [List.filter_cons, hk', Val.lookupField, hne,
          lookupField_filter P k hk rest]

theorem anyKey_filter (P : String → Bool) (k : String) (hk : P k = true) :
    ∀ fields : List (String × Val),
      (fields.filter (fun p => P p.1)).any (fun p => p.1 = k) =
        fields.any (fun p => p.1 = k)
  | [] => rfl
  | (k', v) :: rest => by
      by_cases hk' : P k' = true
      · simp [List.filter_cons, hk', anyKey_filter P k hk rest]
      · have hne : k' ≠ k := fun he => hk' (by rw [he]; exact hk)
        simp [List.filter_cons, hk', hne, anyKey_filter P k hk rest]

theorem contentRowsFor_filter (P : String → Bool) (sid : Nat)
    (fields : List (String × Val)) :
    ∀ m : List (String × String), (∀ p ∈ m, P p.1 = true) →
      contentRowsFor sid (fields.filter (fun p => P p.1)) m =
        contentRowsFor sid fields m
  | [], _ => rfl
  | (lvl, db) :: rest, hm => by
      rw [contentRowsFor, contentRowsFor,
        lookupField_filter P lvl (hm _ (List.mem_cons_self _ _)) fields,
        contentRowsFor_filter P sid fields rest
          (fun p hp => hm p (List.mem_cons_of_mem _ hp))]

theorem qLevelLoop_filter (P : String → Bool) (oracle : Oracle) (sid : Nat)
    (lf : List (String × Val)) :
    ∀ (m : List (String × String)), (∀ p ∈ m, P p.1 = true) →
    ∀ (batch : List QuestionRow) (st : RunState),
      qLevelLoop oracle sid (.vobj (lf.filter (fun p => P p.1))) m batch st =
        qLevelLoop oracle sid (.vobj lf) m batch st
  | [], _, batch, st => rfl
  | (lvl, db) :: rest, hm, batch, st => by
      have hk := hm _ (List.mem_cons_self (lvl, db) rest)
      have hrest : ∀ p ∈ rest, P p.1 = true :=
        fun p hp => hm p (List.mem_cons_of_mem _ hp)
      rw [qLevelLoop, qLevelLoop]
      simp only [Val.pyContains, Val.pyIndex,
        anyKey_filter P lvl hk lf, lookupField_filter P lvl hk lf]
      split
      · rfl
      · split
        · rfl
        · exact qLevelLoop_filter P oracle sid lf rest hrest batch st
        · split
          · rfl
          · split
            · rfl
            · split
              · rfl
              · exact qLevelLoop_filter P oracle sid lf rest hrest _ _

/-- Whether a level name appears among a remap table's source keys. -/
def keyInMap (m : List (String × String)) (k : String) : Bool :=
  m.any (fun p => p.1 == k)

/-- C9: Both flows iterate the fixed three-entry remap table rather
than the file's own keys.  A recognized difficulty absent from the file
contributes nothing — no row, no log entry, no state change — and
level names outside the table are invisible: filtering the file down to
the table's keys changes neither flow's behaviour. -/
theorem C9_level_iteration_table_driven :
    (∀ sid fields, contentRowsFor sid
        (fields.filter (fun f => keyInMap CONTENT_DIFFICULTY_MAP f.1))
        CONTENT_DIFFICULTY_MAP =
      contentRowsFor sid fields CONTENT_DIFFICULTY_MAP) ∧
    (∀ sid fields lvl db rest, Val.lookupField lvl fields = none →
      contentRowsFor sid fields ((lvl, db) :: rest) =
        contentRowsFor sid fields rest) ∧
    (∀ oracle sid lf batch st, qLevelLoop oracle sid
        (.vobj (lf.filter (fun f => keyInMap QUESTION_DIFFICULTY_MAP f.1)))
        QUESTION_DIFFICULTY_MAP batch st =
      qLevelLoop oracle sid (.vobj lf) QUESTION_DIFFICULTY_MAP batch st) ∧
    (∀ oracle sid levels lvl db rest batch st, st.crashed = none →
      Val.pyContains levels lvl = some false →
      qLevelLoop oracle sid levels ((lvl, db) :: rest) batch st =
        qLevelLoop oracle sid levels rest batch st) := by
  refine ⟨?_, ?_, ?_, ?_⟩
  · intro sid fields
    exact contentRowsFor_filter (keyInMap CONTENT_DIFFICULTY_MAP) sid fields
      CONTENT_DIFFICULTY_MAP
      (fun p hp => by
        simp only [keyInMap, List.any_eq_true]
        exact ⟨p, hp, by simp⟩)
  · intro sid fields lvl db rest hnone
    rw [contentRowsFor, hnone]
  · intro oracle sid lf batch st
    exact qLevelLoop_filter (keyInMap QUESTION_DIFFICULTY_MAP) oracle sid lf
      QUESTION_DIFFICULTY_MAP
      (fun p hp => by
        simp only [keyInMap, List.any_eq_true]
        exact ⟨p, hp, by simp⟩) batch st
  · intro oracle sid levels lvl db rest batch st hc hfalse
    rw [qLevelLoop, hfalse]
    simp [hc]

theorem C9_witness :
    (contentRowsFor 1 [("bogus", Val.vnull)] (("beginner", "basic") ::
        ("intermediate", "core") :: []) =
      contentRowsFor 1 [("bogus", Val.vnull)] [("intermediate", "core")]) ∧
    qLevelLoop allOk 1 (.vobj []) (("beginner", "basic") :: []) []
        (initState emptyStore) =
      qLevelLoop allOk 1 (.vobj []) [] [] (initState emptyStore) :=
  ⟨C9_level_iteration_table_driven.2.1 1 [("bogus", Val.vnull)] "beginner" "basic"
      [("intermediate", "core")] (by decide),
   C9_level_iteration_table_driven.2.2.2 allOk 1 (.vobj []) "beginner" "basic"
      [] [] (initState emptyStore) rfl (by decide)⟩

/-! ## C4: the batch buffer discipline

The question loop's buffer behaviour is mirrored by `flushChunks`:
feeding rows one by one into a buffer that is emitted as soon as it
reaches `BATCH_SIZE`, returning the emitted full batches and the final
partial buffer. -/

def flushChunks : List QuestionRow → List QuestionRow →
    List (List QuestionRow) × List QuestionRow
  | batch, [] => ([], batch)
  | batch, r :: rest =>
      let b2 := batch ++ [r]
      if BATCH_SIZE ≤ b2.length then
        ((b2 :: (flushChunks [] rest).1), (flushChunks [] rest).2)
      else flushChunks b2 rest

/-- The rows the item loop assembles from one level's `questions` list
(items without a truthy `type` contribute nothing). -/
def qRowsOfItems (sid : Nat) (db : String) : List Val → List QuestionRow
  | [] => []
  | .vobj qf :: qs =>
      let qt := (Val.lookupField "type" qf).getD .vnull
      if qt.truthy then mkQuestionRow sid db qt (.vobj qf) :: qRowsOfItems sid db qs
      else qRowsOfItems sid db qs
  | _ :: qs => qRowsOfItems sid db qs

/-- The rows the level loop assembles across the remap table. -/
def qRowsOf (sid : Nat) (levels : Val) : List (String × String) → List QuestionRow
  | [] => []
  | (lvl, db) :: rest =>
      (match Val.pyContains levels lvl with
       | some true =>
           match Val.pyIndex levels lvl with
           | some block =>
               match Val.pyGet block "questions" (.varr []) with
               | some qsVal =>
                   match qsVal.pyIter with
                   | some qs => qRowsOfItems sid db qs
                   | none => []
               | none => []
           | none => []
       | _ => []) ++ qRowsOf sid levels rest

/-- Shape conditions under which the level loop raises no exception. -/
def qShapeOK (levels : Val) : List (String × String) → Bool
  | [] => true
  | (lvl, _) :: rest =>
      (match Val.pyContains levels lvl with
       | none => false
       | some false => true
       | some true =>
           match Val.pyIndex levels lvl with
           | none => false
           | some block =>
               match Val.pyGet block "questions" (.varr []) with
               | none => false
               | some qsVal =>
                   match qsVal.pyIter with
                   | none => false
                   | some qs => qs.all (fun q => Val.isDict q)) &&
      qShapeOK levels rest

/-- Question batches recorded in the trace. -/
def qEventRows : Event → Option (List QuestionRow)
  | .questionUpsert rows _ _ => some rows
  | _ => none

def qBatches (st : RunState) : List (List QuestionRow) :=
  st.events.filterMap qEventRows

/-- Content batches recorded in the trace. -/
def cEventRows : Event → Option (List ContentRow)
  | .contentUpsert rows _ _ => some rows
  | _ => none

def cBatches (st : RunState) : List (List ContentRow) :=
  st.events.filterMap cEventRows

theorem qBatches_of_events {st' st : RunState} {es : List Event}
    (h : st'.events = st.events ++ es) :
    qBatches st' = qBatches st ++ es.filterMap qEventRows := by
  simp [qBatches, h]

theorem cBatches_of_events {st' st : RunState} {es : List Event}
    (h : st'.events = st.events ++ es) :
    cBatches st' = cBatches st ++ es.filterMap cEventRows := by
  simp [cBatches, h]

/-- With a cooperative environment, `safe_upsert` succeeds on the first
attempt: one write event, no log, no delay, no crash. -/
theorem safeUpsertQuestions_allOk (rows : List QuestionRow) (st : RunState) :
    safeUpsertQuestions allOk rows st =
      { st with store := upsertQuestionRows st.store rows,
                attempts := st.attempts + 1,
                events := st.events ++
                  [.questionUpsert rows st.store (upsertQuestionRows st.store rows)] } := rfl

theorem safeUpsertContent_allOk (rows : List ContentRow) (st : RunState) :
    safeUpsertContent allOk rows st =
      { st with store := upsertContentRows st.store rows,
                attempts := st.attempts + 1,
                events := st.events ++
                  [.contentUpsert rows st.store (upsertContentRows st.store rows)] } := rfl

/-- Each emitted batch holds exactly `BATCH_SIZE` rows (the automatic
flush fires precisely when the buffer reaches the bound). -/
theorem flushChunks_full :
    ∀ (rs batch : List QuestionRow), batch.length < BATCH_SIZE →
      ∀ b ∈ (flushChunks batch rs).1, b.length = BATCH_SIZE
  | [], batch, _ => by simp [flushChunks]
  | r :: rest, batch, hlt => by
      rw [flushChunks]
      split
      · rename_i hge
        intro b hb
        rcases List.mem_cons.mp hb with rfl | hb
        · simp only [List.length_append, List.length_cons, List.length_nil,
            BATCH_SIZE] at hge hlt ⊢
          omega
        · exact flushChunks_full rest [] (by simp [BATCH_SIZE]) b hb
      · rename_i hge
        intro b hb
        have hlt2 : (batch ++ [r]).length < BATCH_SIZE := by
          simp only [List.length_append, List.length_cons, List.length_nil,
            BATCH_SIZE] at hge hlt ⊢
          omega
        exact flushChunks_full rest (batch ++ [r]) hlt2 b hb

/-- Nothing is lost or duplicated: the emitted batches followed by the
final partial buffer are exactly the buffered rows. -/
theorem flushChunks_concat :
    ∀ (rs batch : List QuestionRow),
      ((flushChunks batch rs).1.flatten : List QuestionRow) ++ (flushChunks batch rs).2 =
        batch ++ rs
  | [], batch => by simp [flushChunks]
  | r :: rest, batch => by
      rw [flushChunks]
      split
      · have ih := flushChunks_concat rest []
        simp only [List.flatten_cons, List.append_assoc, List.nil_append] at ih ⊢
        rw [ih]
        simp
      · have ih := flushChunks_concat rest (batch ++ [r])
        rw [ih]
        simp

/-- The final partial buffer stays strictly below the bound. -/
theorem flushChunks_rem :
    ∀ (rs batch : List QuestionRow), batch.length < BATCH_SIZE →
      (flushChunks batch rs).2.length < BATCH_SIZE
  | [], batch, hlt => hlt
  | r :: rest, batch, hlt => by
      rw [flushChunks]
      split
      · exact flushChunks_rem rest [] (by simp [BATCH_SIZE])
      · rename_i hge
        exact flushChunks_rem rest (batch ++ [r]) (by
          simp only [List.length_append, List.length_cons, List.length_nil,
            BATCH_SIZE] at hge hlt ⊢
          omega)

theorem flushChunks_nil (batch : List QuestionRow) :
    flushChunks batch [] = ([], batch) := rfl

theorem flushChunks_cons (batch : List QuestionRow) (r : QuestionRow)
    (rest : List QuestionRow) :
    flushChunks batch (r :: rest) =
      if BATCH_SIZE ≤ (batch ++ [r]).length then
        ((batch ++ [r]) :: (flushChunks [] rest).1, (flushChunks [] rest).2)
      else flushChunks (batch ++ [r]) rest := rfl

theorem flushChunks_append :
    ∀ (l1 l2 batch : List QuestionRow),
      flushChunks batch (l1 ++ l2) =
        ((flushChunks batch l1).1 ++
           (flushChunks (flushChunks batch l1).2 l2).1,
         (flushChunks (flushChunks batch l1).2 l2).2)
  | [], l2, batch => by simp [flushChunks]
  | r :: rest, l2, batch => by
      rw [List.cons_append, flushChunks, flushChunks]
      by_cases hB : BATCH_SIZE ≤ (batch ++ [r]).length
      · simp only [hB, if_true, flushChunks_append rest l2 []]
        simp
      · simp only [hB, if_false, flushChunks_append rest l2 (batch ++ [r])]

/-- Under the all-success environment, the item loop is exactly the
buffer discipline of `flushChunks` over the rows it assembles: it
returns the final partial buffer, records precisely the full batches,
applies them to the store in order, and never crashes. -/
theorem qItemLoop_allOk (sid : Nat) (db : String) :
    ∀ (qs : List Val) (batch : List QuestionRow) (st : RunState),
      st.crashed = none → (∀ q ∈ qs, Val.isDict q = true) →
      (qItemLoop allOk sid db qs batch st).1 =
          (flushChunks batch (qRowsOfItems sid db qs)).2 ∧
      qBatches (qItemLoop allOk sid db qs batch st).2 =
          qBatches st ++ (flushChunks batch (qRowsOfItems sid db qs)).1 ∧
      (qItemLoop allOk sid db qs batch st).2.crashed = none ∧
      (qItemLoop allOk sid db qs batch st).2.store =
          (flushChunks batch (qRowsOfItems sid db qs)).1.foldl
            upsertQuestionRows st.store
  | [], batch, st, hc, _ => by
      refine ⟨rfl, ?_, hc, rfl⟩
      simp [qItemLoop, flushChunks]
  | q :: qs, batch, st, hc, hdict => by
      rcases q with _ | b | n | s | xs | qf
      case vobj =>
        rw [qItemLoop, qRowsOfItems]
        rw [if_neg (show ¬(st.crashed.isSome = true) by simp [hc])]
        dsimp only
        by_cases ht : ((Val.lookupField "type" qf).getD .vnull).truthy = true
        · rw [if_pos ht, if_pos ht, flushChunks_cons]
          by_cases hB : BATCH_SIZE ≤
              (batch ++ [mkQuestionRow sid db
                ((Val.lookupField "type" qf).getD .vnull) (.vobj qf)]).length
          · rw [if_pos hB, if_pos hB]
            have hst' : (safeUpsertQuestions allOk
                (batch ++ [mkQuestionRow sid db
                  ((Val.lookupField "type" qf).getD .vnull) (.vobj qf)]) st).crashed =
                none := hc
            have ih := qItemLoop_allOk sid db qs [] _ hst'
              (fun x hx => hdict x (List.mem_cons_of_mem _ hx))
            refine ⟨ih.1, ?_, ih.2.2.1, ?_⟩
            · rw [ih.2.1, qBatches_of_events
                (rfl : (safeUpsertQuestions allOk
                  (batch ++ [mkQuestionRow sid db
                    ((Val.lookupField "type" qf).getD .vnull) (.vobj qf)]) st).events =
                  st.events ++ [.questionUpsert
                    (batch ++ [mkQuestionRow sid db
                      ((Val.lookupField "type" qf).getD .vnull) (.vobj qf)])
                    st.store (upsertQuestionRows st.store
                      (batch ++ [mkQuestionRow sid db
                        ((Val.lookupField "type" qf).getD .vnull) (.vobj qf)]))])]
              simp [qEventRows]
            · rw [ih.2.2.2]
              rfl
          · rw [if_neg hB, if_neg hB]
            exact qItemLoop_allOk sid db qs _ st hc
              (fun x hx => hdict x (List.mem_cons_of_mem _ hx))
        · rw [if_neg ht, if_neg ht]
          exact qItemLoop_allOk sid db qs batch
            { st with log := st.log ++
                [⟨.warning, "Skipping question with missing type"⟩] } hc
            (fun x hx => hdict x (List.mem_cons_of_mem _ hx))
      all_goals
        exact absurd (hdict _ (List.mem_cons_self _ _)) (by simp [Val.isDict])

/-- The level loop composes the per-level buffer disciplines. -/
theorem qLevelLoop_allOk (sid : Nat) (levels : Val) :
    ∀ (m : List (String × String)) (batch : List QuestionRow) (st : RunState),
      st.crashed = none → qShapeOK levels m = true →
      (qLevelLoop allOk sid levels m batch st).1 =
          (flushChunks batch (qRowsOf sid levels m)).2 ∧
      qBatches (qLevelLoop allOk sid levels m batch st).2 =
          qBatches st ++ (flushChunks batch (qRowsOf sid levels m)).1 ∧
      (qLevelLoop allOk sid levels m batch st).2.crashed = none ∧
      (qLevelLoop allOk sid levels m batch st).2.store =
          (flushChunks batch (qRowsOf sid levels m)).1.foldl
            upsertQuestionRows st.store
  | [], batch, st, hc, _ => by
      refine ⟨rfl, ?_, hc, rfl⟩
      simp [qLevelLoop, qRowsOf, flushChunks]
  | (lvl, db) :: rest, batch, st, hc, hshape => by
      rw [qShapeOK, Bool.and_eq_true] at hshape
      rw [qLevelLoop, qRowsOf]
      rw [if_neg (show ¬(st.crashed.isSome = true) by simp [hc])]
      rcases hpc : Val.pyContains levels lvl with _ | cb
      · rw [hpc] at hshape
        exact absurd hshape.1 (by simp)
      · rcases cb with _ | _
        · dsimp only
          exact qLevelLoop_allOk sid levels rest batch st hc hshape.2
        · rw [hpc] at hshape
          dsimp only at hshape
          dsimp only
          rcases hpi : Val.pyIndex levels lvl with _ | block
          · rw [hpi] at hshape
            exact absurd hshape.1 (by simp)
          · rw [hpi] at hshape
            dsimp only at hshape
            dsimp only
            rcases hpg : Val.pyGet block "questions" (.varr []) with _ | qsVal
            · rw [hpg] at hshape
              exact absurd hshape.1 (by simp)
            · rw [hpg] at hshape
              dsimp only at hshape
              dsimp only
              rcases hpit : Val.pyIter qsVal with _ | qs
              · rw [hpit] at hshape
                exact absurd hshape.1 (by simp)
              · rw [hpit] at hshape
                dsimp only at hshape
                dsimp only
                have hdict : ∀ x ∈ qs, Val.isDict x = true := by
                  have hall := hshape.1
                  simp only [List.all_eq_true] at hall
                  exact hall
                have ihi := qItemLoop_allOk sid db qs batch st hc hdict
                have ihl := qLevelLoop_allOk sid levels rest
                  (qItemLoop allOk sid db qs batch st).1
                  (qItemLoop allOk sid db qs batch st).2 ihi.2.2.1 hshape.2
                rw [flushChunks_append]
                refine ⟨?_, ?_, ihl.2.2.1, ?_⟩
                · rw [ihl.1, ihi.1]
                · rw [ihl.2.1, ihi.2.1, ihi.1]
                  simp [List.append_assoc]
                · rw [ihl.2.2.2, ihi.2.2.2, ihi.1]
                  simp [List.foldl_append]

/-- The content batch never exceeds the remap table's three entries. -/
theorem contentRowsFor_length :
    ∀ (m : List (String × String)) (sid : Nat) (fields : List (String × Val))
      (rows : List ContentRow), contentRowsFor sid fields m = .ok rows →
      rows.length ≤ m.length
  | [], sid, fields, rows, h => by
      simp [contentRowsFor] at h
      simp [← h]
  | (lvl, db) :: rest, sid, fields, rows, h => by
      rw [contentRowsFor] at h
      rcases hl : Val.lookupField lvl fields with _ | block <;> rw [hl] at h
      · exact (contentRowsFor_length rest sid fields rows h).trans (by simp)
      · rcases block with _ | b | n | s | xs | bf <;> simp at h
        rcases hrest : contentRowsFor sid fields rest with e | rows' <;>
          rw [hrest] at h <;> simp at h
        subst h
        simpa using contentRowsFor_length rest sid fields rows' hrest

/-- An option known to be `none` fails the `isSome` test. -/
theorem isSome_false_of_none {o : Option Crash} (h : o = none) :
    ¬(o.isSome = true) := by simp [h]

/-- Under the all-success environment, a subtopic with a valid content
file issues exactly one write holding its assembled rows — none at all
when the batch is empty. -/
theorem processContentSubtopic_allOk (tid : Nat) (sub : SubtopicDir)
    (st : RunState) (hc : st.crashed = none) (fields : List (String × Val))
    (hfile : sub.chunks = .parsed (.vobj fields)) (rows : List ContentRow)
    (hrows : contentRowsFor (getOrCreateSubtopic st.store tid sub.name).2
      fields CONTENT_DIFFICULTY_MAP = .ok rows) :
    cBatches (processContentSubtopic allOk tid sub st) =
        cBatches st ++ (if rows.isEmpty then [] else [rows]) ∧
    (processContentSubtopic allOk tid sub st).crashed = none := by
  unfold processContentSubtopic
  rw [if_neg (isSome_false_of_none hc), hfile]
  dsimp only
  rw [hrows]
  dsimp only
  by_cases he : rows.isEmpty = true
  · rw [if_pos he, he]
    refine ⟨?_, hc⟩
    simp [cBatches, cEventRows, List.filterMap_append]
  · rw [if_neg he, safeUpsertContent_allOk]
    simp only [Bool.not_eq_true] at he
    rw [he]
    dsimp only
    rw [if_neg (isSome_false_of_none hc)]
    refine ⟨?_, hc⟩
    simp [cBatches, cEventRows, List.filterMap_append]

/-- Under the all-success environment, a subtopic with a valid question
file issues exactly the full batches of the buffer discipline followed
by the final partial batch — and no write at all for an empty batch. -/
theorem processQuestionSubtopic_allOk (tid : Nat) (sub : SubtopicDir)
    (st : RunState) (hc : st.crashed = none) (fields : List (String × Val))
    (hfile : sub.questions = .parsed (.vobj fields))
    (hwrap : fields.any (fun p => p.1 == "by_level") = true)
    (hshape : qShapeOK ((Val.lookupField "by_level" fields).getD .vnull)
      QUESTION_DIFFICULTY_MAP = true) :
    qBatches (processQuestionSubtopic allOk tid sub st) =
        qBatches st ++
          (flushChunks [] (qRowsOf (getOrCreateSubtopic st.store tid sub.name).2
            ((Val.lookupField "by_level" fields).getD .vnull)
            QUESTION_DIFFICULTY_MAP)).1 ++
          (if (flushChunks [] (qRowsOf (getOrCreateSubtopic st.store tid sub.name).2
              ((Val.lookupField "by_level" fields).getD .vnull)
              QUESTION_DIFFICULTY_MAP)).2.isEmpty then []
           else [(flushChunks [] (qRowsOf (getOrCreateSubtopic st.store tid sub.name).2
              ((Val.lookupField "by_level" fields).getD .vnull)
              QUESTION_DIFFICULTY_MAP)).2]) ∧
    (processQuestionSubtopic allOk tid sub st).crashed = none := by
  unfold processQuestionSubtopic
  rw [if_neg (isSome_false_of_none hc), hfile]
  dsimp only
  rw [if_pos hwrap]
  have hll := qLevelLoop_allOk (getOrCreateSubtopic st.store tid sub.name).2
    ((Val.lookupField "by_level" fields).getD .vnull) QUESTION_DIFFICULTY_MAP []
    { st with
        store := (getOrCreateSubtopic st.store tid sub.name).1,
        events := st.events ++
          [.subtopicUpsert tid sub.name st.store
            (getOrCreateSubtopic st.store tid sub.name).1],
        log := st.log ++ [⟨.info, "Processing subtopic: " ++ sub.name⟩] }
    hc hshape
  have hb1 : qBatches
      { st with
          store := (getOrCreateSubtopic st.store tid sub.name).1,
          events := st.events ++
            [.subtopicUpsert tid sub.name st.store
              (getOrCreateSubtopic st.store tid sub.name).1],
          log := st.log ++ [⟨.info, "Processing subtopic: " ++ sub.name⟩] } =
      qBatches st := by
    simp [qBatches, qEventRows, List.filterMap_append]
  rw [if_neg (isSome_false_of_none hll.2.2.1)]
  by_cases he : (flushChunks [] (qRowsOf (getOrCreateSubtopic st.store tid sub.name).2
      ((Val.lookupField "by_level" fields).getD .vnull)
      QUESTION_DIFFICULTY_MAP)).2.isEmpty = true
  · rw [if_pos (by rw [hll.1]; exact he), if_pos he]
    refine ⟨?_, hll.2.2.1⟩
    rw [hll.2.1, hb1]
    simp
  · rw [if_neg (by rw [hll.1]; exact he), if_neg he, safeUpsertQuestions_allOk, hll.1]
    dsimp only
    rw [if_neg (isSome_false_of_none hll.2.2.1)]
    refine ⟨?_, hll.2.2.1⟩
    have hstep : ∀ (st2 : RunState) (rows : List QuestionRow) (s2 : Store)
        (lg : List LogEntry),
        qBatches ⟨s2, st2.events ++ [.questionUpsert rows st2.store s2], lg,
            st2.attempts + 1, st2.delays, st2.crashed⟩ =
          qBatches st2 ++ [rows] := by
      intro st2 rows s2 lg
      simp [qBatches, qEventRows, List.filterMap_append]
    rw [hstep, hll.2.1, hb1]

/-- The question rows a subtopic assembles from its parsed file. -/
def subQRows (tid : Nat) (sub : SubtopicDir) (st : RunState)
    (fields : List (String × Val)) : List QuestionRow :=
  qRowsOf (getOrCreateSubtopic st.store tid sub.name).2
    ((Val.lookupField "by_level" fields).getD .vnull) QUESTION_DIFFICULTY_MAP

/-- C4: In both flows the buffer is bounded by `BATCH_SIZE = 10` and
an enqueue triggers an automatic flush exactly when the buffer reaches
the bound: the question subtopic's writes are the full `BATCH_SIZE`
chunks of its rows followed by the final partial batch (flushed before
moving on), an empty buffer is never flushed (no write event), nothing
is lost or duplicated, and the content subtopic's single batch of at
most three rows is flushed only when nonempty. -/
theorem C4_batch_buffer (tid : Nat) (sub : SubtopicDir) (st : RunState)
    (hc : st.crashed = none)
    (cfields qfields : List (String × Val))
    (hcf : sub.chunks = .parsed (.vobj cfields))
    (hqf : sub.questions = .parsed (.vobj qfields))
    (hwrap : qfields.any (fun p => p.1 == "by_level") = true)
    (hshape : qShapeOK ((Val.lookupField "by_level" qfields).getD .vnull)
      QUESTION_DIFFICULTY_MAP = true)
    (crows : List ContentRow)
    (hcrows : contentRowsFor (getOrCreateSubtopic st.store tid sub.name).2
      cfields CONTENT_DIFFICULTY_MAP = .ok crows) :
    BATCH_SIZE = 10 ∧
    qBatches (processQuestionSubtopic allOk tid sub st) =
        qBatches st ++ (flushChunks [] (subQRows tid sub st qfields)).1 ++
          (if (flushChunks [] (subQRows tid sub st qfields)).2.isEmpty then []
           else [(flushChunks [] (subQRows tid sub st qfields)).2]) ∧
    (∀ b ∈ (flushChunks [] (subQRows tid sub st qfields)).1,
        b.length = BATCH_SIZE) ∧
    (flushChunks [] (subQRows tid sub st qfields)).2.length < BATCH_SIZE ∧
    (flushChunks [] (subQRows tid sub st qfields)).1.flatten ++
        (flushChunks [] (subQRows tid sub st qfields)).2 =
      subQRows tid sub st qfields ∧
    cBatches (processContentSubtopic allOk tid sub st) =
        cBatches st ++ (if crows.isEmpty then [] else [crows]) ∧
    crows.length ≤ 3 := by
  refine ⟨rfl,
    (processQuestionSubtopic_allOk tid sub st hc qfields hqf hwrap hshape).1,
    flushChunks_full (subQRows tid sub st qfields) [] (by simp [BATCH_SIZE]),
    flushChunks_rem (subQRows tid sub st qfields) [] (by simp [BATCH_SIZE]),
    ?_,
    (processContentSubtopic_allOk tid sub st hc cfields hcf crows hcrows).1,
    ?_⟩
  · simpa using flushChunks_concat (subQRows tid sub st qfields) []
  · have hlen := contentRowsFor_length CONTENT_DIFFICULTY_MAP
      (getOrCreateSubtopic st.store tid sub.name).2 cfields crows hcrows
    simpa [CONTENT_DIFFICULTY_MAP] using hlen

def tinySub : SubtopicDir := ⟨"S", .parsed tinyChunks, .parsed tinyQuestions⟩

def tinyQFields : List (String × Val) :=
  [("by_level", .vobj [("beginner",
    .vobj [("questions", .varr [.vobj [("type", .vstr "mcq")]])])])]

theorem C4_witness :
    BATCH_SIZE = 10 ∧
    (flushChunks [] (subQRows 1 tinySub (initState emptyStore) tinyQFields)).1.flatten ++
        (flushChunks [] (subQRows 1 tinySub (initState emptyStore) tinyQFields)).2 =
      subQRows 1 tinySub (initState emptyStore) tinyQFields := by
  have h := C4_batch_buffer 1 tinySub (initState emptyStore) rfl
    [("beginner", .vobj [])] tinyQFields rfl rfl (by decide) (by decide)
    [mkContentRow 1 "basic" []] rfl
  exact ⟨h.1, h.2.2.2.2.1⟩

/-! ## C8: which question items are skipped -/

/-- Items the loop ingests: mappings with a truthy `type`. -/
def qKeep : Val → Bool
  | .vobj qf => ((Val.lookupField "type" qf).getD .vnull).truthy
  | _ => false

/-- Items the loop skips with a warning: mappings whose `type` is
missing or falsy (`if not question_type`). -/
def qSkip : Val → Bool
  | .vobj qf => !((Val.lookupField "type" qf).getD .vnull).truthy
  | _ => false

/-- The assembled rows carry exactly the kept items, in order. -/
theorem qRowsOfItems_map (sid : Nat) (db : String) :
    ∀ qs : List Val,
      (qRowsOfItems sid db qs).map (fun r => r.content_json) = qs.filter qKeep
  | [] => rfl
  | q :: qs => by
      rcases q with _ | b | n | s | xs | qf
      case vobj =>
        rw [qRowsOfItems]
        by_cases ht : ((Val.lookupField "type" qf).getD .vnull).truthy = true
        · rw [if_pos ht]
          simp only [List.map_cons, qRowsOfItems_map sid db qs, List.filter_cons]
          simp [qKeep, ht, mkQuestionRow]
        · rw [if_neg ht]
          simp only [Bool.not_eq_true] at ht
          simp only [qRowsOfItems_map sid db qs, List.filter_cons]
          simp [qKeep, ht]
      case vnull =>
        rw [qRowsOfItems]
        · simp only [qRowsOfItems_map sid db qs, List.filter_cons]
          simp [qKeep]
        · intro qf hqf
          cases hqf
      case vbool =>
        rw [qRowsOfItems]
        · simp only [qRowsOfItems_map sid db qs, List.filter_cons]
          simp [qKeep]
        · intro qf hqf
          cases hqf
      case vint =>
        rw [qRowsOfItems]
        · simp only [qRowsOfItems_map sid db qs, List.filter_cons]
          simp [qKeep]
        · intro qf hqf
          cases hqf
      case vstr =>
        rw [qRowsOfItems]
        · simp only [qRowsOfItems_map sid db qs, List.filter_cons]
          simp [qKeep]
        · intro qf hqf
          cases hqf
      case varr =>
        rw [qRowsOfItems]
        · simp only [qRowsOfItems_map sid db qs, List.filter_cons]
          simp [qKeep]
        · intro qf hqf
          cases hqf

/-- Skipping logs one warning per skipped item and nothing else. -/
theorem qItemLoop_log (sid : Nat) (db : String) :
    ∀ (qs : List Val) (batch : List QuestionRow) (st : RunState),
      st.crashed = none → (∀ q ∈ qs, Val.isDict q = true) →
      (qItemLoop allOk sid db qs batch st).2.log =
        st.log ++ List.replicate ((qs.filter qSkip).length)
          ⟨.warning, "Skipping question with missing type"⟩
  | [], batch, st, _, _ => by simp [qItemLoop]
  | q :: qs, batch, st, hc, hdict => by
      rcases q with _ | b | n | s | xs | qf
      case vobj =>
        rw [qItemLoop]
        rw [if_neg (isSome_false_of_none hc)]
        dsimp only
        by_cases ht : ((Val.lookupField "type" qf).getD .vnull).truthy = true
        · rw [if_pos ht]
          have hfilt : ((Val.vobj qf :: qs).filter qSkip) = qs.filter qSkip := by
            simp [List.filter_cons, qSkip, ht]
          rw [hfilt]
          by_cases hB : BATCH_SIZE ≤
              (batch ++ [mkQuestionRow sid db
                ((Val.lookupField "type" qf).getD .vnull) (.vobj qf)]).length
          · rw [if_pos hB]
            exact qItemLoop_log sid db qs [] _ hc
              (fun x hx => hdict x (List.mem_cons_of_mem _ hx))
          · rw [if_neg hB]
            exact qItemLoop_log sid db qs _ st hc
              (fun x hx => hdict x (List.mem_cons_of_mem _ hx))
        · rw [if_neg ht]
          have hfilt : ((Val.vobj qf :: qs).filter qSkip).length =
              (qs.filter qSkip).length + 1 := by
            simp only [Bool.not_eq_true] at ht
            simp [List.filter_cons, qSkip, ht]
          rw [hfilt,
            qItemLoop_log sid db qs batch
              { st with log := st.log ++
                  [⟨.warning, "Skipping question with missing type"⟩] } hc
              (fun x hx => hdict x (List.mem_cons_of_mem _ hx))]
          simp [List.replicate_succ]
      all_goals
        exact absurd (hdict _ (List.mem_cons_self _ _)) (by simp [Val.isDict])

/-- C8 (amended): every question item whose `type` is missing **or
falsy** is skipped individually with one logged warning; the items
with a truthy `type` in the same level and batch are all ingested, in
order; skipping never aborts the batch or the file (no crash). -/
theorem C8_falsy_type_items_skipped (sid : Nat) (db : String) (qs : List Val)
    (batch : List QuestionRow) (st : RunState) (hc : st.crashed = none)
    (hdict : ∀ q ∈ qs, Val.isDict q = true) :
    (qItemLoop allOk sid db qs batch st).2.crashed = none ∧
    (qItemLoop allOk sid db qs batch st).2.log =
      st.log ++ List.replicate ((qs.filter qSkip).length)
        ⟨.warning, "Skipping question with missing type"⟩ ∧
    (flushChunks batch (qRowsOfItems sid db qs)).1.flatten ++
        (flushChunks batch (qRowsOfItems sid db qs)).2 =
      batch ++ qRowsOfItems sid db qs ∧
    (qRowsOfItems sid db qs).map (fun r => r.content_json) = qs.filter qKeep :=
  ⟨(qItemLoop_allOk sid db qs batch st hc hdict).2.2.1,
   qItemLoop_log sid db qs batch st hc hdict,
   flushChunks_concat (qRowsOfItems sid db qs) batch,
   qRowsOfItems_map sid db qs⟩

def c8Q1 : Val := .vobj [("q", .vstr "missing")]
def c8Q2 : Val := .vobj [("type", .vstr ""), ("q", .vstr "empty")]
def c8Q3 : Val := .vobj [("type", .vstr "mcq"), ("q", .vstr "ok")]

def c8Corp : Corpus :=
  [⟨"T", [⟨"S", .missing, .parsed (.vobj [("by_level", .vobj [("beginner",
    .vobj [("questions", .varr [c8Q1, c8Q2, c8Q3])])])])⟩]⟩]

/-- C8 counterexample to the claim as stated: `c8Q2` carries the
discriminant `type` field (it is present, with value `""`), so it is
not an item "lacking the type field" — yet the flow does not ingest it:
the run completes and the only stored question is `c8Q3`. -/
theorem C8_counterexample :
    Val.lookupField "type" [("type", Val.vstr ""), ("q", Val.vstr "empty")] =
      some (.vstr "") ∧
    (runQuestion allOk c8Corp (initState emptyStore)).crashed = none ∧
    (runQuestion allOk c8Corp (initState emptyStore)).store.questions.map
      (fun r => r.content_json) = [c8Q3] ∧
    c8Q2 ∉ (runQuestion allOk c8Corp (initState emptyStore)).store.questions.map
      (fun r => r.content_json) := by
  refine ⟨rfl, rfl, ?_, ?_⟩ <;> decide

theorem C8_witness :
    (qItemLoop allOk 1 "basic" [c8Q1, c8Q2, c8Q3] [] (initState emptyStore)).2.crashed =
        none ∧
    (qItemLoop allOk 1 "basic" [c8Q1, c8Q2, c8Q3] [] (initState emptyStore)).2.log =
      (initState emptyStore).log ++ List.replicate
        (([c8Q1, c8Q2, c8Q3].filter qSkip).length)
        ⟨.warning, "Skipping question with missing type"⟩ := by
  have h := C8_falsy_type_items_skipped 1 "basic" [c8Q1, c8Q2, c8Q3] []
    (initState emptyStore) rfl (by decide)
  exact ⟨h.1, h.2.1⟩

/-! ## C6: handling of files that fail structural validation -/

theorem getOrCreateSubtopic_questions (s : Store) (tid : Nat) (n : String) :
    (getOrCreateSubtopic s tid n).1.questions = s.questions := by
  unfold getOrCreateSubtopic
  split <;> rfl

theorem getOrCreateSubtopic_content (s : Store) (tid : Nat) (n : String) :
    (getOrCreateSubtopic s tid n).1.content = s.content := by
  unfold getOrCreateSubtopic
  split <;> rfl

/-- An uncaught exception short-circuits every later step: the state is
returned untouched. -/
theorem processContentSubtopic_crashed_id (oracle : Oracle) (tid : Nat)
    (sub : SubtopicDir) (st : RunState) (h : st.crashed.isSome = true) :
    processContentSubtopic oracle tid sub st = st := by
  unfold processContentSubtopic
  rw [if_pos h]

theorem processContentTopic_crashed_id (oracle : Oracle) (t : TopicDir)
    (st : RunState) (h : st.crashed.isSome = true) :
    processContentTopic oracle t st = st := by
  unfold processContentTopic
  rw [if_pos h]

theorem contentFold_crashed_id (oracle : Oracle) :
    ∀ (c : Corpus) (st : RunState), st.crashed.isSome = true →
      c.foldl (fun acc t => processContentTopic oracle t acc) st = st
  | [], _, _ => rfl
  | t :: ts, st, h => by
      rw [List.foldl_cons, processContentTopic_crashed_id oracle t st h]
      exact contentFold_crashed_id oracle ts st h

theorem runContent_crashed_id (oracle : Oracle) (c : Corpus) (st : RunState)
    (h : st.crashed.isSome = true) : runContent oracle c st = st := by
  unfold runContent
  rw [contentFold_crashed_id oracle c st h]
  dsimp only
  rw [if_pos h]

/-- C6 (amended): the question flow isolates every structural-
validation failure of its file — unparseable, not a mapping, missing
the `by_level` wrapper — logging an error, writing no question rows and
continuing without crash.  The content flow isolates only the
not-a-mapping case; an unparseable `chunks_by_level.yaml` raises an
uncaught `yaml.YAMLError`, and once an exception is raised every
remaining subtopic and topic of the run is skipped entirely. -/
theorem C6_format_error_isolation (oracle : Oracle) (tid : Nat) (name : String)
    (cf qf : FileData) (st : RunState) (hc : st.crashed = none) :
    ((processQuestionSubtopic oracle tid ⟨name, cf, .parseFail⟩ st).crashed = none ∧
     (processQuestionSubtopic oracle tid ⟨name, cf, .parseFail⟩ st).store.questions =
       st.store.questions ∧
     qBatches (processQuestionSubtopic oracle tid ⟨name, cf, .parseFail⟩ st) =
       qBatches st ∧
     (⟨.error, "Failed to parse questions_by_level.yaml in " ++ name⟩ : LogEntry) ∈
       (processQuestionSubtopic oracle tid ⟨name, cf, .parseFail⟩ st).log) ∧
    (∀ v : Val, Val.isDict v = false →
     (processQuestionSubtopic oracle tid ⟨name, cf, .parsed v⟩ st).crashed = none ∧
     (processQuestionSubtopic oracle tid ⟨name, cf, .parsed v⟩ st).store.questions =
       st.store.questions ∧
     qBatches (processQuestionSubtopic oracle tid ⟨name, cf, .parsed v⟩ st) =
       qBatches st ∧
     (⟨.error, "Invalid YAML structure in " ++ name⟩ : LogEntry) ∈
       (processQuestionSubtopic oracle tid ⟨name, cf, .parsed v⟩ st).log) ∧
    (∀ fields : List (String × Val),
     fields.any (fun p => p.1 == "by_level") = false →
     (processQuestionSubtopic oracle tid ⟨name, cf, .parsed (.vobj fields)⟩ st).crashed =
       none ∧
     (processQuestionSubtopic oracle tid
       ⟨name, cf, .parsed (.vobj fields)⟩ st).store.questions = st.store.questions ∧
     qBatches (processQuestionSubtopic oracle tid
       ⟨name, cf, .parsed (.vobj fields)⟩ st) = qBatches st ∧
     (⟨.error, "Invalid YAML structure in " ++ name⟩ : LogEntry) ∈
       (processQuestionSubtopic oracle tid ⟨name, cf, .parsed (.vobj fields)⟩ st).log) ∧
    (∀ v : Val, Val.isDict v = false →
     (processContentSubtopic oracle tid ⟨name, .parsed v, qf⟩ st).crashed = none ∧
     (processContentSubtopic oracle tid ⟨name, .parsed v, qf⟩ st).store.content =
       st.store.content ∧
     cBatches (processContentSubtopic oracle tid ⟨name, .parsed v, qf⟩ st) =
       cBatches st ∧
     (⟨.error, "Invalid YAML structure in " ++ name⟩ : LogEntry) ∈
       (processContentSubtopic oracle tid ⟨name, .parsed v, qf⟩ st).log) ∧
    (processContentSubtopic oracle tid ⟨name, .parseFail, qf⟩ st).crashed =
      some (.yamlParse name) ∧
    (∀ (sub : SubtopicDir) (st' : RunState), st'.crashed.isSome = true →
      processContentSubtopic oracle tid sub st' = st') ∧
    (∀ (c : Corpus) (st' : RunState), st'.crashed.isSome = true →
      runContent oracle c st' = st') := by
  refine ⟨?_, ?_, ?_, ?_, ?_, ?_, ?_⟩
  · unfold processQuestionSubtopic
    rw [if_neg (isSome_false_of_none hc)]
    dsimp only
    exact ⟨hc, getOrCreateSubtopic_questions st.store tid name, by
      simp [qBatches, qEventRows, List.filterMap_append], by simp⟩
  · intro v hv
    unfold processQuestionSubtopic
    rw [if_neg (isSome_false_of_none hc)]
    rcases v with _ | b | n | s | xs | fields
    case vobj => exact absurd hv (by simp [Val.isDict])
    all_goals
      exact ⟨hc, getOrCreateSubtopic_questions st.store tid name, by
        simp [qBatches, qEventRows, List.filterMap_append], by simp⟩
  · intro fields hwrap
    unfold processQuestionSubtopic
    rw [if_neg (isSome_false_of_none hc)]
    dsimp only
    rw [if_neg (by simp [hwrap])]
    exact ⟨hc, getOrCreateSubtopic_questions st.store tid name, by
      simp [qBatches, qEventRows, List.filterMap_append], by simp⟩
  · intro v hv
    unfold processContentSubtopic
    rw [if_neg (isSome_false_of_none hc)]
    rcases v with _ | b | n | s | xs | fields
    case vobj => exact absurd hv (by simp [Val.isDict])
    all_goals
      exact ⟨hc, getOrCreateSubtopic_content st.store tid name, by
        simp [cBatches, cEventRows, List.filterMap_append], by simp⟩
  · unfold processContentSubtopic
    rw [if_neg (isSome_false_of_none hc)]
    rfl
  · exact fun sub st' h => processContentSubtopic_crashed_id oracle tid sub st' h
  · exact fun c st' h => runContent_crashed_id oracle c st' h

def c6Corp : Corpus :=
  [⟨"T", [⟨"B", .parseFail, .missing⟩, ⟨"C", .parsed tinyChunks, .missing⟩]⟩]

/-- C6 counterexample to the claim as stated: subtopic `B`'s content
file does not parse; instead of logging an error and continuing, the
run crashes — no error entry is logged, and the unrelated subtopic `C`
is never ingested (zero content rows in the whole store). -/
theorem C6_counterexample :
    (runContent allOk c6Corp (initState emptyStore)).crashed =
      some (.yamlParse "B") ∧
    (runContent allOk c6Corp (initState emptyStore)).store.content = [] ∧
    (runContent allOk c6Corp (initState emptyStore)).log.filter
      (fun e => e.level == .error) = [] := by
  refine ⟨?_, ?_, ?_⟩ <;> decide

theorem C6_witness :
    (processQuestionSubtopic allOk 1 ⟨"S", .missing, .parseFail⟩
      (initState emptyStore)).crashed = none ∧
    (processContentSubtopic allOk 1 ⟨"S", .parseFail, .missing⟩
      (initState emptyStore)).crashed = some (.yamlParse "S") := by
  have h := C6_format_error_isolation allOk 1 "S" .missing .missing
    (initState emptyStore) rfl
  exact ⟨h.1.1, h.2.2.2.2.1⟩

/-! ## C3: retry policy and what propagation aborts -/

theorem processQuestionSubtopic_crashed_id (oracle : Oracle) (tid : Nat)
    (sub : SubtopicDir) (st : RunState) (h : st.crashed.isSome = true) :
    processQuestionSubtopic oracle tid sub st = st := by
  unfold processQuestionSubtopic
  rw [if_pos h]

theorem processQuestionTopic_crashed_id (oracle : Oracle) (t : TopicDir)
    (st : RunState) (h : st.crashed.isSome = true) :
    processQuestionTopic oracle t st = st := by
  unfold processQuestionTopic
  rw [if_pos h]

theorem questionFold_crashed_id (oracle : Oracle) :
    ∀ (c : Corpus) (st : RunState), st.crashed.isSome = true →
      c.foldl (fun acc t => processQuestionTopic oracle t acc) st = st
  | [], _, _ => rfl
  | t :: ts, st, h => by
      rw [List.foldl_cons, processQuestionTopic_crashed_id oracle t st h]
      exact questionFold_crashed_id oracle ts st h

theorem runQuestion_crashed_id (oracle : Oracle) (c : Corpus) (st : RunState)
    (h : st.crashed.isSome = true) : runQuestion oracle c st = st := by
  unfold runQuestion
  rw [questionFold_crashed_id oracle c st h]
  dsimp only
  rw [if_pos h]

/-- Exhausting all `MAX_RETRIES` attempts: three failures, an error log
entry per attempt, a 2-second sleep between attempts, no store change,
and the exception escapes. -/
theorem attemptUpsert_fail3 {oracle : Oracle} (table : String)
    (ap : Store → Store) (ev : Store → Store → Event) (st : RunState)
    (h0 : oracle st.attempts = false) (h1 : oracle (st.attempts + 1) = false)
    (h2 : oracle (st.attempts + 2) = false) :
    attemptUpsert oracle table ap ev MAX_RETRIES st =
      ⟨st.store, st.events,
       st.log ++ [⟨.error, "Upsert failed for " ++ table⟩,
                  ⟨.error, "Upsert failed for " ++ table⟩,
                  ⟨.error, "Upsert failed for " ++ table⟩],
       st.attempts + 3, st.delays ++ [2, 2], some (.upsertExhausted table)⟩ := by
  show attemptUpsert oracle table ap ev 3 st = _
  rw [attemptUpsert, if_neg (show ¬(oracle st.attempts = true) by simp [h0])]
  try dsimp only
  rw [if_neg (show ¬((2 : Nat) = 0) by decide)]
  rw [attemptUpsert]
  try dsimp only
  rw [if_neg (show ¬(oracle (st.attempts + 1) = true) by simp [h1])]
  try dsimp only
  rw [if_neg (show ¬((1 : Nat) = 0) by decide)]
  rw [attemptUpsert]
  try dsimp only
  rw [if_neg (show ¬(oracle (st.attempts + 1 + 1) = true) by simp [h2])]
  try dsimp only
  rw [if_pos (show (0 : Nat) = 0 from rfl)]
  simp

/-- A transient failure that clears before the budget is exhausted is
retried to success: one error entry, one 2-second sleep, then the
write applies and the run continues. -/
theorem attemptUpsert_fail1 {oracle : Oracle} (table : String)
    (ap : Store → Store) (ev : Store → Store → Event) (st : RunState)
    (h0 : oracle st.attempts = false) (h1 : oracle (st.attempts + 1) = true) :
    attemptUpsert oracle table ap ev MAX_RETRIES st =
      ⟨ap st.store, st.events ++ [ev st.store (ap st.store)],
       st.log ++ [⟨.error, "Upsert failed for " ++ table⟩],
       st.attempts + 2, st.delays ++ [2], st.crashed⟩ := by
  show attemptUpsert oracle table ap ev 3 st = _
  rw [attemptUpsert, if_neg (show ¬(oracle st.attempts = true) by simp [h0])]
  try dsimp only
  rw [if_neg (show ¬((2 : Nat) = 0) by decide)]
  rw [attemptUpsert]
  try dsimp only
  rw [if_pos (show oracle (st.attempts + 1) = true from h1)]

/-- C3 (amended): a failing batch upsert is retried up to
`MAX_RETRIES = 3` attempts with a fixed 2-second delay between
attempts, each failure logging an error; when all attempts fail the
error propagates uncaught — `ingest()` has no handler around
`safe_upsert` — so the exception aborts not just the current subtopic
but the entire remaining run: once `crashed` is set, every remaining
subtopic, topic, and both run drivers return the state unchanged. -/
theorem C3_retry_then_global_abort (oracle : Oracle) (st : RunState)
    (rows : List ContentRow) (qrows : List QuestionRow)
    (h0 : oracle st.attempts = false) (h1 : oracle (st.attempts + 1) = false)
    (h2 : oracle (st.attempts + 2) = false) :
    MAX_RETRIES = 3 ∧
    safeUpsertContent oracle rows st =
      ⟨st.store, st.events,
       st.log ++ [⟨.error, "Upsert failed for content"⟩,
                  ⟨.error, "Upsert failed for content"⟩,
                  ⟨.error, "Upsert failed for content"⟩],
       st.attempts + 3, st.delays ++ [2, 2], some (.upsertExhausted "content")⟩ ∧
    safeUpsertQuestions oracle qrows st =
      ⟨st.store, st.events,
       st.log ++ [⟨.error, "Upsert failed for questions"⟩,
                  ⟨.error, "Upsert failed for questions"⟩,
                  ⟨.error, "Upsert failed for questions"⟩],
       st.attempts + 3, st.delays ++ [2, 2], some (.upsertExhausted "questions")⟩ ∧
    (∀ (orc : Oracle) (st2 : RunState) (rows2 : List ContentRow),
      orc st2.attempts = false → orc (st2.attempts + 1) = true →
      safeUpsertContent orc rows2 st2 =
        ⟨upsertContentRows st2.store rows2,
         st2.events ++ [.contentUpsert rows2 st2.store
           (upsertContentRows st2.store rows2)],
         st2.log ++ [⟨.error, "Upsert failed for content"⟩],
         st2.attempts + 2, st2.delays ++ [2], st2.crashed⟩) ∧
    (∀ (c : Corpus) (st' : RunState), st'.crashed.isSome = true →
      runContent oracle c st' = st' ∧ runQuestion oracle c st' = st') := by
  refine ⟨rfl,
    attemptUpsert_fail3 "content" _ _ st h0 h1 h2,
    attemptUpsert_fail3 "questions" _ _ st h0 h1 h2,
    fun orc st2 rows2 g0 g1 => attemptUpsert_fail1 "content" _ _ st2 g0 g1,
    fun c st' h =>
      ⟨runContent_crashed_id oracle c st' h, runQuestion_crashed_id oracle c st' h⟩⟩

/-- An environment in which every write attempt fails. -/
def failOracle : Oracle := fun _ => false

def c3Corp : Corpus :=
  [⟨"T", [⟨"B", .parsed tinyChunks, .missing⟩, ⟨"C", .parsed tinyChunks, .missing⟩]⟩]

/-- C3 counterexample to the claim as stated: subtopic `B`'s batch
upsert exhausts its three attempts (two 2-second delays); the error
propagates and the whole run aborts, so the independent subtopic `C`
is **not** ingested — the store ends with no content rows at all. -/
theorem C3_counterexample :
    (runContent failOracle c3Corp (initState emptyStore)).crashed =
      some (.upsertExhausted "content") ∧
    (runContent failOracle c3Corp (initState emptyStore)).attempts = 3 ∧
    (runContent failOracle c3Corp (initState emptyStore)).delays = [2, 2] ∧
    (runContent failOracle c3Corp (initState emptyStore)).store.content = [] ∧
    (runContent failOracle c3Corp (initState emptyStore)).store.subtopics.length = 1 := by
  refine ⟨?_, ?_, ?_, ?_, ?_⟩ <;> decide

theorem C3_witness :
    MAX_RETRIES = 3 ∧
    safeUpsertContent failOracle [] (initState emptyStore) =
      ⟨emptyStore, [],
       [⟨.error, "Upsert failed for content"⟩,
        ⟨.error, "Upsert failed for content"⟩,
        ⟨.error, "Upsert failed for content"⟩],
       3, [2, 2], some (.upsertExhausted "content")⟩ := by
  have h := C3_retry_then_global_abort failOracle (initState emptyStore) [] []
    rfl rfl rfl
  refine ⟨h.1, ?_⟩
  rw [h.2.1]
  rfl

/-! ## C7: the concrete TopicA/Sub1 scenario -/

def c7Beg : Val := .vobj [("title", .vstr "T1"), ("summary", .vstr "beginner overview")]
def c7Int : Val := .vobj [("title", .vstr "T1"), ("summary", .vstr "intermediate overview")]
def c7Adv : Val := .vobj [("title", .vstr "T1"), ("summary", .vstr "advanced overview")]

def c7Chunks : Val :=
  .vobj [("beginner", c7Beg), ("intermediate", c7Int), ("advanced", c7Adv)]

def c7Corp : Corpus := [⟨"TopicA", [⟨"Sub1", .parsed c7Chunks, .missing⟩]⟩]

/-- C7: ingesting a content file with `beginner`, `intermediate` and
`advanced` blocks under topic `TopicA`, subtopic `Sub1`, from an empty
store, yields exactly one `topics` row named `TopicA`, one `subtopics`
row, and three `content` rows with stored difficulties `basic`, `core`
and `advanced`, each carrying `content_hash = hash_content` of its
respective source block — and the run completes without an error. -/
theorem C7_concrete_scenario :
    (runContent allOk c7Corp (initState emptyStore)).store =
      ⟨[⟨1, "TopicA"⟩], [⟨1, 1, "Sub1"⟩],
       [⟨1, "basic", .vstr "T1", .vstr "beginner overview",
         c7Beg, hash_content c7Beg, true⟩,
        ⟨1, "core", .vstr "T1", .vstr "intermediate overview",
         c7Int, hash_content c7Int, true⟩,
        ⟨1, "advanced", .vstr "T1", .vstr "advanced overview",
         c7Adv, hash_content c7Adv, true⟩],
       [], 2, 2⟩ ∧
    (runContent allOk c7Corp (initState emptyStore)).crashed = none := ⟨rfl, rfl⟩

/-! ## C5: structural equality, key order, and the canonical digest -/

theorem char_eq_of_toNat_eq {c d : Char} (h : c.toNat = d.toNat) : c = d :=
  Char.eq_of_val_eq (by
    first
    | exact UInt32.toNat_injective h
    | exact UInt32.eq_of_toNat_eq h
    | exact UInt32.toNat.inj h)

theorem str_eq_of_toList_eq {s t : String} (h : s.toList = t.toList) : s = t := by
  cases s
  cases t
  simp only [String.toList] at h
  rw [h]

theorem strLtB_irrefl : ∀ l : List Char, strLtB l l = false
  | [] => rfl
  | c :: cs => by
      unfold strLtB
      rw [if_neg (Nat.lt_irrefl c.toNat), if_neg (Nat.lt_irrefl c.toNat)]
      exact strLtB_irrefl cs

theorem strLtB_eq_of_both_false :
    ∀ l m : List Char, strLtB l m = false → strLtB m l = false → l = m
  | [], [], _, _ => rfl
  | [], _ :: _, h, _ => by simp [strLtB] at h
  | _ :: _, [], _, h2 => by simp [strLtB] at h2
  | c :: cs, d :: ds, h, h2 => by
      unfold strLtB at h h2
      by_cases hcd : c.toNat < d.toNat
      · rw [if_pos hcd] at h
        exact absurd h (by simp)
      · rw [if_neg hcd] at h
        by_cases hdc : d.toNat < c.toNat
        · rw [if_pos hdc] at h2
          exact absurd h2 (by simp)
        · rw [if_neg hdc] at h
          rw [if_neg hdc, if_neg hcd] at h2
          have hcde : c = d := char_eq_of_toNat_eq (by omega)
          rw [hcde, strLtB_eq_of_both_false cs ds h h2]

theorem strLtB_trans :
    ∀ a b c : List Char, strLtB a b = true → strLtB b c = true → strLtB a c = true
  | [], [], _, h1, _ => by simp [strLtB] at h1
  | [], _ :: _, [], _, h2 => by simp [strLtB] at h2
  | [], _ :: _, _ :: _, _, _ => rfl
  | _ :: _, [], _, h1, _ => by simp [strLtB] at h1
  | _ :: _, _ :: _, [], _, h2 => by simp [strLtB] at h2
  | x :: xs, y :: ys, z :: zs, h1, h2 => by
      unfold strLtB at h1 h2 ⊢
      by_cases hxy : x.toNat < y.toNat
      · by_cases hyz : y.toNat < z.toNat
        · rw [if_pos (Nat.lt_trans hxy hyz)]
        · rw [if_neg hyz] at h2
          by_cases hzy : z.toNat < y.toNat
          · rw [if_pos hzy] at h2
            exact absurd h2 (by simp)
          · have hyze : y.toNat = z.toNat := by omega
            rw [if_pos (hyze ▸ hxy)]
      · rw [if_neg hxy] at h1
        by_cases hyx : y.toNat < x.toNat
        · rw [if_pos hyx] at h1
          exact absurd h1 (by simp)
        · rw [if_neg hyx] at h1
          have hxye : x.toNat = y.toNat := by omega
          by_cases hyz : y.toNat < z.toNat
          · rw [if_pos (hxye ▸ hyz)]
          · rw [if_neg hyz] at h2
            by_cases hzy : z.toNat < y.toNat
            · rw [if_pos hzy] at h2
              exact absurd h2 (by simp)
            · rw [if_neg hzy] at h2
              rw [if_neg (hxye ▸ hyz), if_neg (hxye ▸ hzy)]
              exact strLtB_trans xs ys zs h1 h2

theorem strLtB_asymm {a b : List Char} (h : strLtB a b = true) : strLtB b a = false := by
  by_contra hc
  have h2 : strLtB b a = true := by
    cases hba : strLtB b a
    · exact absurd hba hc
    · rfl
  have := strLtB_trans a b a h h2
  rw [strLtB_irrefl a] at this
  exact absurd this (by simp)

theorem keyLE_refl (p : String × Val) : keyLE p p := strLtB_irrefl _

theorem keyLE_total_thm (p q : String × Val) : keyLE p q ∨ keyLE q p := by
  unfold keyLE
  cases h : strLtB q.1.toList p.1.toList
  · exact Or.inl rfl
  · exact Or.inr (strLtB_asymm h)

theorem keyLE_trans_thm {p q r : String × Val} (h1 : keyLE p q) (h2 : keyLE q r) :
    keyLE p r := by
  unfold keyLE at h1 h2 ⊢
  by_contra hc
  have h3 : strLtB r.1.toList p.1.toList = true := by
    cases h : strLtB r.1.toList p.1.toList
    · exact absurd h hc
    · rfl
  by_cases hrq : strLtB r.1.toList q.1.toList = true
  · rw [h2] at hrq
    exact absurd hrq (by simp)
  · by_cases hqr : strLtB q.1.toList r.1.toList = true
    · have := strLtB_trans _ _ _ hqr h3
      rw [h1] at this
      exact absurd this (by simp)
    · have hqre : q.1.toList = r.1.toList :=
        strLtB_eq_of_both_false _ _
          (by cases h : strLtB q.1.toList r.1.toList; rfl; exact absurd h hqr)
          (by cases h : strLtB r.1.toList q.1.toList; rfl; exact absurd h hrq)
      rw [← hqre] at h3
      rw [h1] at h3
      exact absurd h3 (by simp)

instance : IsTotal (String × Val) keyLE := ⟨keyLE_total_thm⟩

instance : IsTrans (String × Val) keyLE := ⟨fun _ _ _ => keyLE_trans_thm⟩

theorem key_eq_of_keyLE {p q : String × Val} (h1 : keyLE p q) (h2 : keyLE q p) :
    p.1 = q.1 :=
  (str_eq_of_toList_eq (strLtB_eq_of_both_false _ _ h2 h1)).symm ▸
    (str_eq_of_toList_eq (strLtB_eq_of_both_false _ _ h2 h1)).symm

/-- Uniqueness of the sorted order of a field list with duplicate-free
keys: two `keyLE`-sorted permutations of each other are equal. -/
theorem sortedPermEq : ∀ (l₁ l₂ : List (String × Val)), l₁.Perm l₂ →
    l₁.Sorted keyLE → l₂.Sorted keyLE → (l₂.map Prod.fst).Nodup → l₁ = l₂
  | [], _, hp, _, _, _ => (List.Perm.eq_nil hp.symm).symm
  | _ :: _, [], hp, _, _, _ => absurd (List.Perm.eq_nil hp) (by simp)
  | a :: t₁, b :: t₂, hp, hs₁, hs₂, hnd => by
      obtain ⟨ha1, hs₁t⟩ := List.sorted_cons.mp hs₁
      obtain ⟨hb1, hs₂t⟩ := List.sorted_cons.mp hs₂
      have hab : keyLE a b := by
        have hbmem : b ∈ a :: t₁ := hp.mem_iff.mpr (by simp)
        rcases List.mem_cons.mp hbmem with h | h
        · rw [← h]
          exact keyLE_refl b
        · exact ha1 b h
      have hba : keyLE b a := by
        have hamem : a ∈ b :: t₂ := hp.mem_iff.mp (by simp)
        rcases List.mem_cons.mp hamem with h | h
        · rw [h]
          exact keyLE_refl b
        · exact hb1 a h
      have hkey : a.1 = b.1 := key_eq_of_keyLE hab hba
      have hndc : b.1 ∉ t₂.map Prod.fst ∧ (t₂.map Prod.fst).Nodup := by
        rw [List.map_cons] at hnd
        exact List.nodup_cons.mp hnd
      have hae : a = b := by
        have hamem : a ∈ b :: t₂ := hp.mem_iff.mp (by simp)
        rcases List.mem_cons.mp hamem with h | h
        · exact h
        · exact absurd (hkey ▸ List.mem_map.mpr ⟨a, h, rfl⟩) hndc.1
      subst hae
      rw [sortedPermEq t₁ t₂ hp.cons_inv hs₁t hs₂t hndc.2]

/-- String membership in a key list, executably. -/
def keyMemB (k : String) : List String → Bool
  | [] => false
  | j :: js => (j == k) || keyMemB k js

theorem keyMemB_iff : ∀ ks : List String, keyMemB k ks = true ↔ k ∈ ks
  | [] => by simp [keyMemB]
  | j :: js => by
      rw [keyMemB]
      simp only [Bool.or_eq_true, beq_iff_eq, List.mem_cons]
      rw [keyMemB_iff js]
      constructor
      · rintro (h | h)
        · exact Or.inl h.symm
        · exact Or.inr h
      · rintro (h | h)
        · exact Or.inl h.symm
        · exact Or.inr h

/-- Duplicate-freedom of a key list, executably. -/
def nodupKeysB : List String → Bool
  | [] => true
  | k :: ks => !keyMemB k ks && nodupKeysB ks

theorem nodupKeysB_iff : ∀ ks : List String, nodupKeysB ks = true ↔ ks.Nodup
  | [] => by simp [nodupKeysB]
  | k :: ks => by
      rw [nodupKeysB, List.nodup_cons, ← nodupKeysB_iff ks, Bool.and_eq_true,
        Bool.not_eq_true']
      constructor
      · rintro ⟨h1, h2⟩
        refine ⟨fun hmem => ?_, h2⟩
        rw [(keyMemB_iff ks).mpr hmem] at h1
        exact absurd h1 (by simp)
      · rintro ⟨h1, h2⟩
        refine ⟨?_, h2⟩
        cases hc : keyMemB k ks
        · rfl
        · exact absurd ((keyMemB_iff ks).mp hc) h1

mutual

/-- Wellformedness of a value as `yaml.safe_load` produces it: every
mapping's keys are pairwise distinct, recursively. -/
def wfKeys : Val → Bool
  | .vnull => true
  | .vbool _ => true
  | .vint _ => true
  | .vstr _ => true
  | .varr xs => wfList xs
  | .vobj fs => nodupKeysB (fs.map Prod.fst) && wfFields fs

def wfList : List Val → Bool
  | [] => true
  | x :: xs => wfKeys x && wfList xs

def wfFields : List (String × Val) → Bool
  | [] => true
  | (_, v) :: fs => wfKeys v && wfFields fs

end

theorem wfFields_iff :
    ∀ fs : List (String × Val), wfFields fs = true ↔ ∀ p ∈ fs, wfKeys p.2 = true
  | [] => by simp [wfFields]
  | (k, v) :: fs => by
      rw [wfFields]
      simp only [Bool.and_eq_true, List.mem_cons]
      rw [wfFields_iff fs]
      constructor
      · rintro ⟨h1, h2⟩ p hp
        rcases hp with h | h
        · rw [h]
          exact h1
        · exact h2 p h
      · intro h
        exact ⟨h (k, v) (Or.inl rfl), fun p hp => h p (Or.inr hp)⟩

mutual

/-- Equality of two values as nested mapping/sequence/scalar
structures, regardless of mapping key insertion order. -/
inductive StructEq : Val → Val → Prop where
  | vnull : StructEq .vnull .vnull
  | vbool (b : Bool) : StructEq (.vbool b) (.vbool b)
  | vint (n : Int) : StructEq (.vint n) (.vint n)
  | vstr (s : String) : StructEq (.vstr s) (.vstr s)
  | varr {xs ys : List Val} : StructEqList xs ys → StructEq (.varr xs) (.varr ys)
  | vobj {fs gs gsm : List (String × Val)} :
      StructEqFields fs gsm → gsm.Perm gs → StructEq (.vobj fs) (.vobj gs)

inductive StructEqList : List Val → List Val → Prop where
  | nil : StructEqList [] []
  | cons {x y : Val} {xs ys : List Val} :
      StructEq x y → StructEqList xs ys → StructEqList (x :: xs) (y :: ys)

inductive StructEqFields :
    List (String × Val) → List (String × Val) → Prop where
  | nil : StructEqFields [] []
  | cons {k : String} {v w : Val} {fs gs : List (String × Val)} :
      StructEq v w → StructEqFields fs gs →
      StructEqFields ((k, v) :: fs) ((k, w) :: gs)

end

mutual

theorem structEq_refl : ∀ v : Val, StructEq v v
  | .vnull => .vnull
  | .vbool b => .vbool b
  | .vint n => .vint n
  | .vstr s => .vstr s
  | .varr xs => .varr (structEqList_refl xs)
  | .vobj fs => .vobj (structEqFields_refl fs) (List.Perm.refl fs)

theorem structEqList_refl : ∀ xs : List Val, StructEqList xs xs
  | [] => .nil
  | x :: xs => .cons (structEq_refl x) (structEqList_refl xs)

theorem structEqFields_refl : ∀ fs : List (String × Val), StructEqFields fs fs
  | [] => .nil
  | (_, v) :: fs => .cons (structEq_refl v) (structEqFields_refl fs)

end

theorem canonFields_eq_map :
    ∀ fs : List (String × Val), canonFields fs = fs.map (fun p => (p.1, canon p.2))
  | [] => rfl
  | (k, v) :: fs => by
      rw [canonFields, canonFields_eq_map fs, List.map_cons]

theorem canonList_eq_map : ∀ xs : List Val, canonList xs = xs.map canon
  | [] => rfl
  | x :: xs => by
      rw [canonList, canonList_eq_map xs, List.map_cons]

theorem canonFields_keys (fs : List (String × Val)) :
    (canonFields fs).map Prod.fst = fs.map Prod.fst := by
  rw [canonFields_eq_map, List.map_map]
  rfl

theorem wfFields_of_perm {gsm gs : List (String × Val)} (hp : gsm.Perm gs)
    (h : wfFields gs = true) : wfFields gsm = true := by
  rw [wfFields_iff] at h ⊢
  intro p hp2
  exact h p (hp.mem_iff.mp hp2)

mutual

theorem canon_structEq : ∀ {x y : Val}, StructEq x y → wfKeys y = true →
    canon x = canon y
  | _, _, .vnull, _ => rfl
  | _, _, .vbool _, _ => rfl
  | _, _, .vint _, _ => rfl
  | _, _, .vstr _, _ => rfl
  | _, _, .varr h, hw => by
      rw [canon, canon]
      rw [wfKeys] at hw
      rw [canonList_structEq h hw]
  | _, _, @StructEq.vobj fs gs gsm h hperm, hw => by
      rw [canon, canon]
      rw [wfKeys] at hw
      obtain ⟨hnd, hwf⟩ := (Bool.and_eq_true _ _).mp hw
      have hfe := canonFields_structEq h (wfFields_of_perm hperm hwf)
      have hpc : (canonFields gsm).Perm (canonFields gs) := by
        rw [canonFields_eq_map, canonFields_eq_map]
        exact hperm.map _
      have hperm2 : (List.insertionSort keyLE (canonFields fs)).Perm
          (List.insertionSort keyLE (canonFields gs)) :=
        ((List.perm_insertionSort keyLE _).trans ((hfe ▸ hpc))).trans
          (List.perm_insertionSort keyLE _).symm
      have hndk : ((List.insertionSort keyLE (canonFields gs)).map Prod.fst).Nodup := by
        have hpk := (List.perm_insertionSort keyLE (canonFields gs)).map Prod.fst
        rw [canonFields_keys] at hpk
        exact (hpk.nodup_iff).mpr ((nodupKeysB_iff _).mp hnd)
      rw [sortedPermEq _ _ hperm2
        (List.sorted_insertionSort keyLE _) (List.sorted_insertionSort keyLE _) hndk]

theorem canonList_structEq : ∀ {xs ys : List Val}, StructEqList xs ys →
    wfList ys = true → canonList xs = canonList ys
  | _, _, .nil, _ => rfl
  | _, _, .cons h hs, hw => by
      rw [canonList, canonList]
      rw [wfList] at hw
      obtain ⟨h1, h2⟩ := (Bool.and_eq_true _ _).mp hw
      rw [canon_structEq h h1, canonList_structEq hs h2]

theorem canonFields_structEq : ∀ {fs gs : List (String × Val)},
    StructEqFields fs gs → wfFields gs = true → canonFields fs = canonFields gs
  | _, _, .nil, _ => rfl
  | _, _, .cons h hs, hw => by
      rw [canonFields, canonFields]
      rw [wfFields] at hw
      obtain ⟨h1, h2⟩ := (Bool.and_eq_true _ _).mp hw
      rw [canon_structEq h h1, canonFields_structEq hs h2]

end

theorem hash_content_structEq {x y : Val} (h : StructEq x y)
    (hw : wfKeys y = true) : hash_content x = hash_content y := by
  unfold hash_content serializeJson
  rw [canon_structEq h hw]

/-! ### A JSON reader, used to prove the dump injective (roundtrip) -/

def digitVal : Char → Option Nat
  | '0' => Option.some 0 | '1' => Option.some 1 | '2' => Option.some 2
  | '3' => Option.some 3 | '4' => Option.some 4 | '5' => Option.some 5
  | '6' => Option.some 6 | '7' => Option.some 7 | '8' => Option.some 8
  | '9' => Option.some 9
  | _ => none

def hexVal : Char → Option Nat
  | '0' => Option.some 0 | '1' => Option.some 1 | '2' => Option.some 2
  | '3' => Option.some 3 | '4' => Option.some 4 | '5' => Option.some 5
  | '6' => Option.some 6 | '7' => Option.some 7 | '8' => Option.some 8
  | '9' => Option.some 9
  | 'a' => Option.some 10 | 'b' => Option.some 11 | 'c' => Option.some 12
  | 'd' => Option.some 13 | 'e' => Option.some 14 | 'f' => Option.some 15
  | _ => none

def digitsToNat (ds : List Nat) : Nat := ds.foldl (fun a d => a * 10 + d) 0

/-- Greedily strip leading decimal digits. -/
def parseDigits : List Char → List Nat × List Char
  | [] => ([], [])
  | c :: cs =>
      match digitVal c with
      | some d =>
          let p := parseDigits cs
          (d :: p.1, p.2)
      | none => ([], c :: cs)

/-- Inverse of the two-character escapes other than `\uXXXX`. -/
def escSym : Char → Option Char
  | '"' => some '"'
  | '\\' => some '\\'
  | 'b' => some (Char.ofNat 8)
  | 't' => some (Char.ofNat 9)
  | 'n' => some (Char.ofNat 10)
  | 'f' => some (Char.ofNat 12)
  | 'r' => some (Char.ofNat 13)
  | _ => none

/-- Consume the four hex digits of a `\uXXXX` escape. -/
def readHex4 : List Char → Option (Nat × List Char)
  | h1 :: h2 :: h3 :: h4 :: r =>
      match hexVal h1, hexVal h2, hexVal h3, hexVal h4 with
      | some a, some b, some c, some d =>
          some (a * 4096 + b * 256 + c * 16 + d, r)
      | _, _, _, _ => none
  | _ => none

/-- Read the body of a JSON string literal up to its closing quote,
undoing `escChar` (including `\uXXXX` and surrogate pairs). -/
def decodeBody : Nat → List Char → Option (List Char × List Char)
  | 0, _ => none
  | fuel + 1, input =>
      match input with
      | [] => none
      | c :: r =>
          if c = '"' then some ([], r)
          else if c = '\\' then
            match r.head? with
            | none => none
            | some e =>
                if e = 'u' then
                  match readHex4 r.tail with
                  | none => none
                  | some (n, r3) =>
                      if 55296 ≤ n ∧ n < 56320 then
                        if r3.head? = some '\\' ∧ r3.tail.head? = some 'u' then
                          match readHex4 r3.tail.tail with
                          | some (m, r4) =>
                              if 56320 ≤ m ∧ m < 57344 then
                                match decodeBody fuel r4 with
                                | some (cs, rest2) =>
                                    some (Char.ofNat
                                      (65536 + (n - 55296) * 1024 + (m - 56320)) :: cs,
                                      rest2)
                                | none => none
                              else none
                          | none => none
                        else none
                      else
                        match decodeBody fuel r3 with
                        | some (cs, rest2) => some (Char.ofNat n :: cs, rest2)
                        | none => none
                else
                  match escSym e with
                  | some c2 =>
                      match decodeBody fuel r.tail with
                      | some (cs, rest2) => some (c2 :: cs, rest2)
                      | none => none
                  | none => none
          else
            match decodeBody fuel r with
            | some (cs, rest2) => some (c :: cs, rest2)
            | none => none

/-- Characters allowed to follow a complete serialized value. -/
def followB : List Char → Bool
  | [] => true
  | c :: _ => c == ',' || c == ']' || c == '}'

/-- Consume an expected literal character sequence. -/
def stripLit : List Char → List Char → Option (List Char)
  | [], l => some l
  | p :: ps, l =>
      match l with
      | [] => none
      | c :: cs => if c = p then stripLit ps cs else none

mutual

/-- Read one serialized value back (`fuel` bounds the nesting). -/
def parseVal : Nat → List Char → Option (Val × List Char)
  | 0, _ => none
  | fuel + 1, input =>
      match input with
      | [] => none
      | c :: r =>
          if c = 'n' then
            match stripLit ['u', 'l', 'l'] r with
            | some r2 => some (.vnull, r2)
            | none => none
          else if c = 't' then
            match stripLit ['r', 'u', 'e'] r with
            | some r2 => some (.vbool true, r2)
            | none => none
          else if c = 'f' then
            match stripLit ['a', 'l', 's', 'e'] r with
            | some r2 => some (.vbool false, r2)
            | none => none
          else if c = '-' then
            match parseDigits r with
            | ([], _) => none
            | (ds, r2) => some (.vint (-(digitsToNat ds : Int)), r2)
          else if c = '"' then
            match decodeBody r.length r with
            | some (cs, r2) => some (.vstr (String.mk cs), r2)
            | none => none
          else if c = '[' then
            if r.head? = some ']' then some (.varr [], r.tail)
            else
              match parseItems fuel r with
              | some (vs, r2) => some (.varr vs, r2)
              | none => none
          else if c = '{' then
            if r.head? = some '}' then some (.vobj [], r.tail)
            else
              match parseMembers fuel r with
              | some (ms, r2) => some (.vobj ms, r2)
              | none => none
          else
            match digitVal c with
            | some _ =>
                match parseDigits (c :: r) with
                | ([], _) => none
                | (ds, r2) => some (.vint (digitsToNat ds : Int), r2)
            | none => none

/-- Read the elements of a non-empty array, through the closing `]`. -/
def parseItems : Nat → List Char → Option (List Val × List Char)
  | 0, _ => none
  | fuel + 1, input =>
      match parseVal fuel input with
      | some (v, r) =>
          if r.head? = some ',' then
            match parseItems fuel r.tail with
            | some (vs, r2) => some (v :: vs, r2)
            | none => none
          else if r.head? = some ']' then some ([v], r.tail)
          else none
      | none => none

/-- Read the members of a non-empty object, through the closing `}`. -/
def parseMembers : Nat → List Char → Option (List (String × Val) × List Char)
  | 0, _ => none
  | fuel + 1, input =>
      match input with
      | [] => none
      | c :: r =>
          if c = '"' then
            match decodeBody r.length r with
            | some (cs, r2) =>
                if r2.head? = some ':' then
                  match parseVal fuel r2.tail with
                  | some (v, r3) =>
                      if r3.head? = some ',' then
                        match parseMembers fuel r3.tail with
                        | some (ms, r4) => some ((String.mk cs, v) :: ms, r4)
                        | none => none
                      else if r3.head? = some '}' then
                        some ([(String.mk cs, v)], r3.tail)
                      else none
                  | none => none
                else none
            | none => none
          else none

end

mutual

/-- Nesting size of a value, a fuel bound for `parseVal`. -/
def vsize : Val → Nat
  | .vnull => 1
  | .vbool _ => 1
  | .vint _ => 1
  | .vstr _ => 1
  | .varr xs => 1 + isizeL xs
  | .vobj fs => 1 + msizeL fs

def isizeL : List Val → Nat
  | [] => 0
  | x :: xs => 1 + max (vsize x) (isizeL xs)

def msizeL : List (String × Val) → Nat
  | [] => 0
  | (_, v) :: fs => 1 + max (vsize v) (msizeL fs)

end

theorem digitVal_digitChar {d : Nat} (h : d < 10) : digitVal (digitChar d) = some d := by
  interval_cases d <;> rfl

theorem hexVal_hexChar {d : Nat} (h : d < 16) : hexVal (hexChar d) = some d := by
  interval_cases d <;> rfl

theorem natDigitsAux_lt10 :
    ∀ fuel n d, d ∈ natDigitsAux fuel n → d < 10
  | 0, n, d, h => by simp [natDigitsAux] at h
  | fuel + 1, n, d, h => by
      rw [natDigitsAux] at h
      by_cases hn : n < 10
      · rw [if_pos hn] at h
        simp at h
        omega
      · rw [if_neg hn] at h
        rcases List.mem_append.mp h with h2 | h2
        · exact natDigitsAux_lt10 fuel (n / 10) d h2
        · simp at h2
          omega

theorem natDigits_lt10 {n d : Nat} (h : d ∈ natDigits n) : d < 10 :=
  natDigitsAux_lt10 (n + 1) n d h

theorem natDigitsAux_ne_nil (fuel n : Nat) : natDigitsAux (fuel + 1) n ≠ [] := by
  rw [natDigitsAux]
  by_cases hn : n < 10
  · rw [if_pos hn]
    simp
  · rw [if_neg hn]
    simp

theorem natDigits_ne_nil (n : Nat) : natDigits n ≠ [] := natDigitsAux_ne_nil n n

theorem digitsToNat_append (ds : List Nat) (d : Nat) :
    digitsToNat (ds ++ [d]) = digitsToNat ds * 10 + d := by
  unfold digitsToNat
  rw [List.foldl_append]
  rfl

theorem digitsToNat_natDigitsAux :
    ∀ fuel n, n < 10 ^ fuel → digitsToNat (natDigitsAux fuel n) = n
  | 0, n, h => by
      simp at h
      simp [natDigitsAux, digitsToNat, h]
  | fuel + 1, n, h => by
      rw [natDigitsAux]
      by_cases hn : n < 10
      · rw [if_pos hn]
        simp [digitsToNat]
      · rw [if_neg hn]
        rw [digitsToNat_append]
        rw [digitsToNat_natDigitsAux fuel (n / 10) (by
          rw [pow_succ] at h
          exact Nat.div_lt_of_lt_mul (by omega))]
        omega

theorem digitsToNat_natDigits (n : Nat) : digitsToNat (natDigits n) = n :=
  digitsToNat_natDigitsAux (n + 1) n
    (Nat.lt_of_lt_of_le (Nat.lt_pow_self (by norm_num) n)
      (Nat.pow_le_pow_right (by norm_num) (Nat.le_succ n)))

theorem parseDigits_stop :
    ∀ r : List Char, (∀ c, r.head? = some c → digitVal c = none) →
      parseDigits r = ([], r)
  | [], _ => rfl
  | c :: cs, h => by
      rw [parseDigits]
      rw [h c rfl]

theorem parseDigits_round :
    ∀ (ds : List Nat) (r : List Char), (∀ d ∈ ds, d < 10) →
      (∀ c, r.head? = some c → digitVal c = none) →
      parseDigits (ds.map digitChar ++ r) = (ds, r)
  | [], r, _, hr => by
      rw [List.map_nil, List.nil_append]
      exact parseDigits_stop r hr
  | d :: ds, r, hd, hr => by
      rw [List.map_cons, List.cons_append, parseDigits]
      rw [digitVal_digitChar (hd d (by simp))]
      rw [parseDigits_round ds r (fun x hx => hd x (by simp [hx])) hr]

theorem followB_digitVal {r : List Char} (h : followB r = true) :
    ∀ c, r.head? = some c → digitVal c = none := by
  intro c hc
  cases r with
  | nil => simp at hc
  | cons x xs =>
      simp at hc
      subst hc
      rw [followB] at h
      simp only [Bool.or_eq_true, beq_iff_eq] at h
      rcases h with (h | h) | h <;> rw [h] <;> rfl

/-! ### Decoding inverts `escChar` -/

def escList : List Char → List Char
  | [] => []
  | c :: cs => escChar c ++ escList cs

theorem escList_eq_foldr :
    ∀ cs : List Char, cs.foldr (fun c acc => escChar c ++ acc) [] = escList cs
  | [] => rfl
  | c :: cs => by rw [List.foldr_cons, escList, escList_eq_foldr cs]

theorem dumpStr_eq (s : String) : dumpStr s = '"' :: escList s.toList ++ ['"'] := by
  unfold dumpStr
  rw [escList_eq_foldr]

theorem char_valid (c : Char) :
    c.toNat < 55296 ∨ (57343 < c.toNat ∧ c.toNat < 1114112) := by
  rcases c.valid with h | ⟨h1, h2⟩
  · left
    exact h
  · right
    exact ⟨h1, h2⟩

theorem readHex4_hex4 (v : Nat) (r : List Char) (h : v < 65536) :
    readHex4 (hex4 v ++ r) = some (v, r) := by
  show readHex4 (hexChar (v / 4096 % 16) :: hexChar (v / 256 % 16) ::
    hexChar (v / 16 % 16) :: hexChar (v % 16) :: r) = some (v, r)
  rw [readHex4]
  rw [hexVal_hexChar (Nat.mod_lt _ (by norm_num)),
      hexVal_hexChar (Nat.mod_lt _ (by norm_num)),
      hexVal_hexChar (Nat.mod_lt _ (by norm_num)),
      hexVal_hexChar (Nat.mod_lt _ (by norm_num))]
  dsimp only
  rw [show v / 4096 % 16 * 4096 + v / 256 % 16 * 256 + v / 16 % 16 * 16 + v % 16 = v
    by omega]

theorem escChar_length_pos (c : Char) : 0 < (escChar c).length := by
  simp only [escChar]
  split_ifs <;> simp [hex4]

theorem escList_len : ∀ cs : List Char, cs.length ≤ (escList cs).length
  | [] => Nat.le_refl 0
  | c :: cs => by
      rw [escList, List.length_cons, List.length_append]
      have h1 := escChar_length_pos c
      have h2 := escList_len cs
      omega

theorem decodeBody_quote (f : Nat) (r : List Char) :
    decodeBody (f + 1) ('"' :: r) = some ([], r) := by
  rw [decodeBody, if_pos rfl]

theorem decodeBody_plain {c : Char} (h1 : ¬(c = '"')) (h2 : ¬(c = '\\'))
    (f : Nat) (X : List Char) :
    decodeBody (f + 1) (c :: X) =
      match decodeBody f X with
      | some (cs, rest) => some (c :: cs, rest)
      | none => none := by
  rw [decodeBody, if_neg h1, if_neg h2]

theorem decodeBody_esc2 {sym c2 : Char} (hsym : escSym sym = some c2)
    (hne : ¬(sym = 'u')) (f : Nat) (X : List Char) :
    decodeBody (f + 1) ('\\' :: sym :: X) =
      match decodeBody f X with
      | some (cs, rest) => some (c2 :: cs, rest)
      | none => none := by
  rw [decodeBody, if_neg (by decide), if_pos rfl]
  dsimp only [List.head?, List.tail]
  rw [if_neg hne, hsym]

theorem decodeBody_u (f n : Nat) (X : List Char) (hn : n < 65536)
    (hns : ¬(55296 ≤ n ∧ n < 56320)) :
    decodeBody (f + 1) ('\\' :: 'u' :: (hex4 n ++ X)) =
      match decodeBody f X with
      | some (cs, rest) => some (Char.ofNat n :: cs, rest)
      | none => none := by
  rw [decodeBody, if_neg (by decide), if_pos rfl]
  dsimp only [List.head?, List.tail]
  rw [if_pos rfl]
  rw [readHex4_hex4 n X hn]
  try dsimp only
  rw [if_neg hns]

theorem decodeBody_surrogate (f hi lo : Nat) (X : List Char)
    (hhi1 : 55296 ≤ hi) (hhi2 : hi < 56320)
    (hlo1 : 56320 ≤ lo) (hlo2 : lo < 57344) :
    decodeBody (f + 1)
      ('\\' :: 'u' :: (hex4 hi ++ ('\\' :: 'u' :: (hex4 lo ++ X)))) =
      match decodeBody f X with
      | some (cs, rest) =>
          some (Char.ofNat (65536 + (hi - 55296) * 1024 + (lo - 56320)) :: cs, rest)
      | none => none := by
  rw [decodeBody, if_neg (by decide), if_pos rfl]
  dsimp only [List.head?, List.tail]
  rw [if_pos rfl]
  rw [readHex4_hex4 hi _ (by omega)]
  try dsimp only
  rw [if_pos ⟨hhi1, hhi2⟩]
  try dsimp only [List.head?, List.tail]
  rw [if_pos ⟨rfl, rfl⟩]
  rw [readHex4_hex4 lo X (by omega)]
  try dsimp only
  rw [if_pos ⟨hlo1, hlo2⟩]

theorem decode_escBody :
    ∀ (cs : List Char) (fuel : Nat) (r : List Char), cs.length < fuel →
      decodeBody fuel (escList cs ++ '"' :: r) = some (cs, r) := by
  intro cs
  induction cs with
  | nil =>
      intro fuel r hf
      cases fuel with
      | zero => omega
      | succ f =>
          rw [escList, List.nil_append]
          exact decodeBody_quote f r
  | cons c cs ih =>
      intro fuel r hf
      cases fuel with
      | zero => omega
      | succ f =>
      have hfc : cs.length < f := by
        rw [List.length_cons] at hf
        omega
      rw [escList, List.append_assoc]
      by_cases h1 : c = '"'
      · subst h1
        rw [show escChar '"' = ['\\', '"'] by decide]
        show decodeBody (f + 1) ('\\' :: '"' :: (escList cs ++ '"' :: r)) = _
        rw [decodeBody_esc2 (show escSym '"' = some '"' by decide) (by decide) f _,
          ih f r hfc]
      · by_cases h2 : c = '\\'
        · subst h2
          rw [show escChar '\\' = ['\\', '\\'] by decide]
          show decodeBody (f + 1) ('\\' :: '\\' :: (escList cs ++ '"' :: r)) = _
          rw [decodeBody_esc2 (show escSym '\\' = some '\\' by decide) (by decide) f _,
            ih f r hfc]
        · by_cases h3 : c.toNat = 8
          · have hesc : escChar c = ['\\', 'b'] := by
              simp only [escChar]
              rw [if_neg h1, if_neg h2, if_pos h3]
            rw [hesc]
            show decodeBody (f + 1) ('\\' :: 'b' :: (escList cs ++ '"' :: r)) = _
            rw [decodeBody_esc2 (show escSym 'b' = some (Char.ofNat 8) by decide)
              (by decide) f _, ih f r hfc]
            try dsimp only
            rw [show Char.ofNat 8 = c by rw [← h3, Char.ofNat_toNat]]
          · by_cases h4 : c.toNat = 9
            · have hesc : escChar c = ['\\', 't'] := by
                simp only [escChar]
                rw [if_neg h1, if_neg h2, if_neg h3, if_pos h4]
              rw [hesc]
              show decodeBody (f + 1) ('\\' :: 't' :: (escList cs ++ '"' :: r)) = _
              rw [decodeBody_esc2 (show escSym 't' = some (Char.ofNat 9) by decide)
                (by decide) f _, ih f r hfc]
              try dsimp only
              rw [show Char.ofNat 9 = c by rw [← h4, Char.ofNat_toNat]]
            · by_cases h5 : c.toNat = 10
              · have hesc : escChar c = ['\\', 'n'] := by
                  simp only [escChar]
                  rw [if_neg h1, if_neg h2, if_neg h3, if_neg h4, if_pos h5]
                rw [hesc]
                show decodeBody (f + 1) ('\\' :: 'n' :: (escList cs ++ '"' :: r)) = _
                rw [decodeBody_esc2 (show escSym 'n' = some (Char.ofNat 10) by decide)
                  (by decide) f _, ih f r hfc]
                try dsimp only
                rw [show Char.ofNat 10 = c by rw [← h5, Char.ofNat_toNat]]
              · by_cases h6 : c.toNat = 12
                · have hesc : escChar c = ['\\', 'f'] := by
                    simp only [escChar]
                    rw [if_neg h1, if_neg h2, if_neg h3, if_neg h4, if_neg h5,
                      if_pos h6]
                  rw [hesc]
                  show decodeBody (f + 1) ('\\' :: 'f' :: (escList cs ++ '"' :: r)) = _
                  rw [decodeBody_esc2 (show escSym 'f' = some (Char.ofNat 12) by decide)
                    (by decide) f _, ih f r hfc]
                  try dsimp only
                  rw [show Char.ofNat 12 = c by rw [← h6, Char.ofNat_toNat]]
                · by_cases h7 : c.toNat = 13
                  · have hesc : escChar c = ['\\', 'r'] := by
                      simp only [escChar]
                      rw [if_neg h1, if_neg h2, if_neg h3, if_neg h4, if_neg h5,
                        if_neg h6, if_pos h7]
                    rw [hesc]
                    show decodeBody (f + 1)
                      ('\\' :: 'r' :: (escList cs ++ '"' :: r)) = _
                    rw [decodeBody_esc2 (show escSym 'r' = some (Char.ofNat 13) by decide)
                      (by decide) f _, ih f r hfc]
                    try dsimp only
                    rw [show Char.ofNat 13 = c by rw [← h7, Char.ofNat_toNat]]
                  · by_cases h8 : c.toNat < 32 ∨ 126 < c.toNat
                    · by_cases h9 : c.toNat < 65536
                      · have hesc : escChar c = '\\' :: 'u' :: hex4 c.toNat := by
                          simp only [escChar]
                          rw [if_neg h1, if_neg h2, if_neg h3, if_neg h4, if_neg h5,
                            if_neg h6, if_neg h7, if_pos h8, if_pos h9]
                        rw [hesc]
                        show decodeBody (f + 1)
                          ('\\' :: 'u' :: (hex4 c.toNat ++ (escList cs ++ '"' :: r))) = _
                        rw [decodeBody_u f c.toNat _ h9 (by
                          rcases char_valid c with hv | ⟨hv1, hv2⟩ <;> omega)]
                        rw [ih f r hfc]
                        try dsimp only
                        rw [Char.ofNat_toNat]
                      · have hup : c.toNat < 1114112 := by
                          rcases char_valid c with hv | ⟨hv1, hv2⟩ <;> omega
                        have hesc : escChar c =
                            ('\\' :: 'u' :: hex4 (55296 + (c.toNat - 65536) / 1024)) ++
                            ('\\' :: 'u' :: hex4 (56320 + (c.toNat - 65536) % 1024)) := by
                          simp only [escChar]
                          rw [if_neg h1, if_neg h2, if_neg h3, if_neg h4, if_neg h5,
                            if_neg h6, if_neg h7, if_pos h8, if_neg h9]
                        rw [hesc]
                        rw [List.cons_append, List.cons_append, List.append_assoc]
                        show decodeBody (f + 1)
                          ('\\' :: 'u' :: (hex4 (55296 + (c.toNat - 65536) / 1024) ++
                            ('\\' :: 'u' :: (hex4 (56320 + (c.toNat - 65536) % 1024) ++
                              (escList cs ++ '"' :: r))))) = _
                        rw [decodeBody_surrogate f _ _ _
                          (by omega) (by omega) (by omega) (by omega)]
                        rw [ih f r hfc]
                        try dsimp only
                        rw [show 65536 +
                            (55296 + (c.toNat - 65536) / 1024 - 55296) * 1024 +
                            (56320 + (c.toNat - 65536) % 1024 - 56320) = c.toNat
                          by omega]
                        rw [Char.ofNat_toNat]
                    · have hesc : escChar c = [c] := by
                        simp only [escChar]
                        rw [if_neg h1, if_neg h2, if_neg h3, if_neg h4, if_neg h5,
                          if_neg h6, if_neg h7, if_neg h8]
                      rw [hesc]
                      show decodeBody (f + 1) (c :: (escList cs ++ '"' :: r)) = _
                      rw [decodeBody_plain h1 h2 f _, ih f r hfc]

theorem string_mk_toList (s : String) : String.mk s.toList = s := by
  cases s
  rfl

theorem vsize_pos : ∀ v : Val, 1 ≤ vsize v
  | .vnull => Nat.le_refl 1
  | .vbool _ => Nat.le_refl 1
  | .vint _ => Nat.le_refl 1
  | .vstr _ => Nat.le_refl 1
  | .varr xs => by rw [vsize]; omega
  | .vobj fs => by rw [vsize]; omega

theorem digitChar_not_special {d : Nat} (h : d < 10) :
    ¬(digitChar d = 'n') ∧ ¬(digitChar d = 't') ∧ ¬(digitChar d = 'f') ∧
    ¬(digitChar d = '-') ∧ ¬(digitChar d = '"') ∧ ¬(digitChar d = '[') ∧
    ¬(digitChar d = '{') ∧ ¬(digitChar d = ']') ∧ ¬(digitChar d = '}') := by
  interval_cases d <;> exact (by decide)

theorem head_append_ne {tl S : List Char} {c d : Char} (hne : ¬(c = d)) :
    ¬(((c :: tl) ++ S).head? = some d) := by
  rw [List.cons_append]
  simp only [List.head?, Option.some.injEq]
  exact hne

/-- The first character of a dump discriminates the value class; in
particular it is never a closing bracket, comma or colon. -/
theorem dump_head : ∀ v : Val, ∃ c tl, dump v = c :: tl ∧
    ¬(c = ']') ∧ ¬(c = '}')
  | .vnull => ⟨'n', _, rfl, by decide, by decide⟩
  | .vbool true => ⟨'t', _, rfl, by decide, by decide⟩
  | .vbool false => ⟨'f', _, rfl, by decide, by decide⟩
  | .vint n => by
      rw [dump]
      unfold intChars
      by_cases hn : n < 0
      · rw [if_pos hn]
        exact ⟨'-', _, rfl, by decide, by decide⟩
      · rw [if_neg hn]
        obtain ⟨d, ds, hds⟩ := List.exists_cons_of_ne_nil (natDigits_ne_nil n.toNat)
        have hd10 : d < 10 := natDigits_lt10 (hds ▸ List.mem_cons_self d ds)
        rw [hds, List.map_cons]
        obtain ⟨_, _, _, _, _, _, _, h8, h9⟩ := digitChar_not_special hd10
        exact ⟨digitChar d, _, rfl, h8, h9⟩
  | .vstr s => by
      rw [dump, dumpStr_eq]
      exact ⟨'"', _, rfl, by decide, by decide⟩
  | .varr xs => by
      rw [dump]
      exact ⟨'[', _, rfl, by decide, by decide⟩
  | .vobj fs => by
      rw [dump]
      exact ⟨'{', _, rfl, by decide, by decide⟩

mutual

theorem parseVal_dump : ∀ (v : Val) (fuel : Nat) (r : List Char),
    vsize v ≤ fuel → followB r = true →
    parseVal fuel (dump v ++ r) = some (v, r)
  | .vnull, fuel, r, hs, hr => by
      cases fuel with
      | zero => rw [vsize] at hs; exact absurd hs (by omega)
      | succ f =>
          rw [dump]
          simp only [List.cons_append, List.nil_append]
          rw [parseVal, if_pos rfl]
          rw [show stripLit ['u', 'l', 'l'] ('u' :: 'l' :: 'l' :: r) = some r from rfl]
  | .vbool true, fuel, r, hs, hr => by
      cases fuel with
      | zero => rw [vsize] at hs; exact absurd hs (by omega)
      | succ f =>
          rw [dump]
          simp only [List.cons_append, List.nil_append]
          rw [parseVal, if_neg (by decide), if_pos rfl]
          rw [show stripLit ['r', 'u', 'e'] ('r' :: 'u' :: 'e' :: r) = some r from rfl]
  | .vbool false, fuel, r, hs, hr => by
      cases fuel with
      | zero => rw [vsize] at hs; exact absurd hs (by omega)
      | succ f =>
          rw [dump]
          simp only [List.cons_append, List.nil_append]
          rw [parseVal, if_neg (by decide), if_neg (by decide), if_pos rfl]
          rw [show stripLit ['a', 'l', 's', 'e'] ('a' :: 'l' :: 's' :: 'e' :: r) =
            some r from rfl]
  | .vint n, fuel, r, hs, hr => by
      cases fuel with
      | zero => rw [vsize] at hs; exact absurd hs (by omega)
      | succ f =>
          rw [dump]
          unfold intChars
          by_cases hn : n < 0
          · rw [if_pos hn]
            obtain ⟨d, ds, hds⟩ :=
              List.exists_cons_of_ne_nil (natDigits_ne_nil n.natAbs)
            rw [hds, List.cons_append]
            rw [parseVal, if_neg (by decide), if_neg (by decide), if_neg (by decide),
              if_pos rfl]
            rw [parseDigits_round (d :: ds) r (fun x hx => natDigits_lt10 (hds ▸ hx))
              (followB_digitVal hr)]
            try dsimp only
            rw [show digitsToNat (d :: ds) = n.natAbs by
              rw [← hds, digitsToNat_natDigits]]
            rw [show (-(n.natAbs : Int)) = n by omega]
          · rw [if_neg hn]
            obtain ⟨d, ds, hds⟩ :=
              List.exists_cons_of_ne_nil (natDigits_ne_nil n.toNat)
            have hd10 : d < 10 := natDigits_lt10 (hds ▸ List.mem_cons_self d ds)
            obtain ⟨g1, g2, g3, g4, g5, g6, g7, _, _⟩ := digitChar_not_special hd10
            rw [hds, List.map_cons, List.cons_append]
            rw [parseVal, if_neg g1, if_neg g2, if_neg g3, if_neg g4, if_neg g5,
              if_neg g6, if_neg g7]
            rw [digitVal_digitChar hd10]
            try dsimp only
            rw [show digitChar d :: (List.map digitChar ds ++ r) =
              List.map digitChar (d :: ds) ++ r from rfl]
            rw [parseDigits_round (d :: ds) r (fun x hx => natDigits_lt10 (hds ▸ hx))
              (followB_digitVal hr)]
            try dsimp only
            rw [show digitsToNat (d :: ds) = n.toNat by
              rw [← hds, digitsToNat_natDigits]]
            rw [show ((n.toNat : Nat) : Int) = n by omega]
  | .vstr s, fuel, r, hs, hr => by
      cases fuel with
      | zero => rw [vsize] at hs; exact absurd hs (by omega)
      | succ f =>
          rw [dump, dumpStr_eq]
          simp only [List.cons_append, List.append_assoc, List.singleton_append,
            List.nil_append]
          rw [parseVal, if_neg (by decide), if_neg (by decide), if_neg (by decide),
            if_neg (by decide), if_pos rfl]
          rw [decode_escBody s.toList _ r (by
            have := escList_len s.toList
            simp only [List.length_append, List.length_cons]
            omega)]
          try dsimp only
          rw [string_mk_toList]
  | .varr [], fuel, r, hs, hr => by
      cases fuel with
      | zero => rw [vsize] at hs; exact absurd hs (by omega)
      | succ f =>
          rw [dump, dumpArr]
          simp only [List.cons_append, List.nil_append]
          rw [parseVal, if_neg (by decide), if_neg (by decide), if_neg (by decide),
            if_neg (by decide), if_neg (by decide), if_pos rfl]
          rw [if_pos (show (']' :: r : List Char).head? = some ']' from rfl)]
          try dsimp only [List.tail]
  | .varr (x :: t), fuel, r, hs, hr => by
      cases fuel with
      | zero => rw [vsize] at hs; exact absurd hs (by omega)
      | succ f =>
          rw [vsize] at hs
          rw [dump, List.cons_append]
          rw [parseVal, if_neg (by decide), if_neg (by decide), if_neg (by decide),
            if_neg (by decide), if_neg (by decide), if_pos rfl]
          rw [if_neg (show ¬((dumpArr (x :: t) ++ r).head? = some ']') from by
            obtain ⟨c, tl, hct, hc1, hc2⟩ := dump_head x
            cases t with
            | nil =>
                rw [dumpArr, List.append_assoc, hct]
                exact head_append_ne hc1
            | cons y rest =>
                rw [dumpArr, List.append_assoc, hct]
                exact head_append_ne hc1)]
          rw [parseItems_dump x t f r (by omega)]
  | .vobj [], fuel, r, hs, hr => by
      cases fuel with
      | zero => rw [vsize] at hs; exact absurd hs (by omega)
      | succ f =>
          rw [dump, dumpObj]
          simp only [List.cons_append, List.nil_append]
          rw [parseVal, if_neg (by decide), if_neg (by decide), if_neg (by decide),
            if_neg (by decide), if_neg (by decide), if_neg (by decide), if_pos rfl]
          rw [if_pos (show ('}' :: r : List Char).head? = some '}' from rfl)]
          try dsimp only [List.tail]
  | .vobj ((k, v) :: t), fuel, r, hs, hr => by
      cases fuel with
      | zero => rw [vsize] at hs; exact absurd hs (by omega)
      | succ f =>
          rw [vsize] at hs
          rw [dump, List.cons_append]
          rw [parseVal, if_neg (by decide), if_neg (by decide), if_neg (by decide),
            if_neg (by decide), if_neg (by decide), if_neg (by decide), if_pos rfl]
          rw [if_neg (show ¬((dumpObj ((k, v) :: t) ++ r).head? = some '}') from by
            cases t with
            | nil =>
                rw [dumpObj, dumpStr_eq, List.append_assoc, List.append_assoc]
                exact head_append_ne (by decide)
            | cons p rest =>
                rw [dumpObj, dumpStr_eq, List.append_assoc, List.append_assoc]
                exact head_append_ne (by decide))]
          rw [parseMembers_dump k v t f r (by omega)]
termination_by v fuel r hs hr => sizeOf v

theorem parseItems_dump : ∀ (x : Val) (t : List Val) (fuel : Nat) (r : List Char),
    isizeL (x :: t) ≤ fuel →
    parseItems fuel (dumpArr (x :: t) ++ r) = some (x :: t, r)
  | x, [], fuel, r, hsz => by
      cases fuel with
      | zero => rw [isizeL] at hsz; exact absurd hsz (by omega)
      | succ f =>
          rw [isizeL, isizeL] at hsz
          have hx : vsize x ≤ f := by
            have := Nat.le_max_left (vsize x) 0
            omega
          rw [dumpArr, List.append_assoc, List.singleton_append]
          rw [parseItems]
          rw [parseVal_dump x f (']' :: r) hx rfl]
          try dsimp only
          rw [if_neg (by simp)]
          rw [if_pos (show (']' :: r : List Char).head? = some ']' from rfl)]
          try dsimp only [List.tail]
  | x, y :: rest, fuel, r, hsz => by
      cases fuel with
      | zero => rw [isizeL] at hsz; exact absurd hsz (by omega)
      | succ f =>
          rw [isizeL] at hsz
          have hx : vsize x ≤ f := by
            have := Nat.le_max_left (vsize x) (isizeL (y :: rest))
            omega
          have ht : isizeL (y :: rest) ≤ f := by
            have := Nat.le_max_right (vsize x) (isizeL (y :: rest))
            omega
          rw [dumpArr, List.append_assoc, List.cons_append]
          rw [parseItems]
          rw [parseVal_dump x f (',' :: (dumpArr (y :: rest) ++ r)) hx rfl]
          try dsimp only
          rw [if_pos (show (',' :: (dumpArr (y :: rest) ++ r)).head? = some ','
            from rfl)]
          try dsimp only [List.tail]
          rw [parseItems_dump y rest f r ht]
termination_by x t fuel r hsz => sizeOf (x :: t)

theorem parseMembers_dump :
    ∀ (k : String) (v : Val) (t : List (String × Val)) (fuel : Nat) (r : List Char),
    msizeL ((k, v) :: t) ≤ fuel →
    parseMembers fuel (dumpObj ((k, v) :: t) ++ r) = some ((k, v) :: t, r)
  | k, v, [], fuel, r, hsz => by
      cases fuel with
      | zero => rw [msizeL] at hsz; exact absurd hsz (by omega)
      | succ f =>
          rw [msizeL, msizeL] at hsz
          have hv : vsize v ≤ f := by
            have := Nat.le_max_left (vsize v) 0
            omega
          rw [dumpObj, dumpStr_eq]
          simp only [List.cons_append, List.append_assoc, List.singleton_append,
            List.nil_append]
          rw [parseMembers, if_pos rfl]
          rw [decode_escBody k.toList _ (':' :: (dump v ++ ('}' :: r))) (by
            have := escList_len k.toList
            simp only [List.length_append, List.length_cons]
            omega)]
          try dsimp only
          rw [if_pos (show (':' :: (dump v ++ ('}' :: r))).head? = some ':' from rfl)]
          try dsimp only [List.tail]
          rw [parseVal_dump v f ('}' :: r) hv rfl]
          try dsimp only
          rw [if_neg (by simp)]
          rw [if_pos (show ('}' :: r : List Char).head? = some '}' from rfl)]
          try dsimp only [List.tail]
          rw [string_mk_toList]
  | k, v, (l, w) :: rest, fuel, r, hsz => by
      cases fuel with
      | zero => rw [msizeL] at hsz; exact absurd hsz (by omega)
      | succ f =>
          rw [msizeL] at hsz
          have hv : vsize v ≤ f := by
            have := Nat.le_max_left (vsize v) (msizeL ((l, w) :: rest))
            omega
          have ht : msizeL ((l, w) :: rest) ≤ f := by
            have := Nat.le_max_right (vsize v) (msizeL ((l, w) :: rest))
            omega
          rw [dumpObj, dumpStr_eq]
          simp only [List.cons_append, List.append_assoc, List.singleton_append,
            List.nil_append]
          rw [parseMembers, if_pos rfl]
          rw [decode_escBody k.toList _
            (':' :: (dump v ++ (',' :: (dumpObj ((l, w) :: rest) ++ r)))) (by
            have := escList_len k.toList
            simp only [List.length_append, List.length_cons]
            omega)]
          try dsimp only
          rw [if_pos (show
            (':' :: (dump v ++ (',' :: (dumpObj ((l, w) :: rest) ++ r)))).head? =
              some ':' from rfl)]
          try dsimp only [List.tail]
          rw [parseVal_dump v f (',' :: (dumpObj ((l, w) :: rest) ++ r)) hv rfl]
          try dsimp only
          rw [if_pos (show
            (',' :: (dumpObj ((l, w) :: rest) ++ r)).head? = some ',' from rfl)]
          try dsimp only [List.tail]
          rw [parseMembers_dump l w rest f r ht]
          try dsimp only
          rw [string_mk_toList]
termination_by k v t fuel r hsz => sizeOf ((k, v) :: t)

end

/-- The compact JSON dump is injective. -/
theorem dump_inj {v w : Val} (h : dump v = dump w) : v = w := by
  have h1 := parseVal_dump v (max (vsize v) (vsize w)) []
    (Nat.le_max_left _ _) rfl
  have h2 := parseVal_dump w (max (vsize v) (vsize w)) []
    (Nat.le_max_right _ _) rfl
  rw [List.append_nil] at h1 h2
  rw [h, h2] at h1
  have h3 := h1.symm
  simp only [Option.some.injEq, Prod.mk.injEq] at h3
  exact h3.1

theorem serializeJson_inj {x y : Val} (h : serializeJson x = serializeJson y) :
    canon x = canon y := dump_inj h

/-! ### Leaf changes change the canonical serialization -/

def isScalar : Val → Bool
  | .vnull => true
  | .vbool _ => true
  | .vint _ => true
  | .vstr _ => true
  | .varr _ => false
  | .vobj _ => false

/-- `y` is `x` with exactly one leaf (scalar) value changed, at the
same position in the same nesting of sequences and mappings. -/
inductive LeafDiff : Val → Val → Prop where
  | leaf {a b : Val} : isScalar a = true → isScalar b = true → a ≠ b → LeafDiff a b
  | arr (pre post : List Val) (x y : Val) : LeafDiff x y →
      LeafDiff (.varr (pre ++ x :: post)) (.varr (pre ++ y :: post))
  | obj (pre post : List (String × Val)) (k : String) (x y : Val) : LeafDiff x y →
      LeafDiff (.vobj (pre ++ (k, x) :: post)) (.vobj (pre ++ (k, y) :: post))

theorem canon_scalar : ∀ {v : Val}, isScalar v = true → canon v = v
  | .vnull, _ => rfl
  | .vbool _, _ => rfl
  | .vint _, _ => rfl
  | .vstr _, _ => rfl

theorem leafDiff_canon_ne : ∀ {x y : Val}, LeafDiff x y → canon x ≠ canon y
  | _, _, .leaf ha hb hne => by
      rw [canon_scalar ha, canon_scalar hb]
      exact hne
  | _, _, .arr pre post x y h => by
      rw [canon, canon]
      intro he
      injection he with he2
      rw [canonList_eq_map, canonList_eq_map, List.map_append, List.map_append,
        List.map_cons, List.map_cons] at he2
      have he3 := List.append_cancel_left he2
      injection he3 with hx hrest
      exact leafDiff_canon_ne h hx
  | _, _, .obj pre post k x y h => by
      rw [canon, canon]
      intro he
      injection he with he2
      have p1 := List.perm_insertionSort keyLE (canonFields (pre ++ (k, x) :: post))
      have p2 := List.perm_insertionSort keyLE (canonFields (pre ++ (k, y) :: post))
      rw [he2] at p1
      have hperm := p1.symm.trans p2
      rw [canonFields_eq_map, canonFields_eq_map, List.map_append, List.map_append,
        List.map_cons, List.map_cons] at hperm
      have hbig := (List.perm_middle.symm.trans hperm).trans List.perm_middle
      have hxy : canon x ≠ canon y := leafDiff_canon_ne h
      have hne : ((k, x).1, canon (k, x).2) ≠ ((k, y).1, canon (k, y).2) := by
        intro hc
        exact hxy (congrArg Prod.snd hc)
      have hms := Multiset.coe_eq_coe.mpr hbig
      rw [← Multiset.cons_coe, ← Multiset.cons_coe] at hms
      have hcnt := congrArg (Multiset.count (((k, x).1, canon (k, x).2))) hms
      rw [Multiset.count_cons_self, Multiset.count_cons_of_ne hne] at hcnt
      omega

/-- A single leaf change always changes the canonical serialization. -/
theorem serialize_leafDiff {x y : Val} (h : LeafDiff x y) :
    serializeJson x ≠ serializeJson y :=
  fun he => leafDiff_canon_ne h (serializeJson_inj he)

/-! ### The digest is a 64-character lowercase-hex string -/

def hexAlphabet : List Char :=
  ['0', '1', '2', '3', '4', '5', '6', '7'] ++
    ['8', '9', 'a', 'b', 'c', 'd', 'e', 'f']

theorem hexChar_mem {d : Nat} (h : d < 16) : hexChar d ∈ hexAlphabet := by
  interval_cases d <;> decide

theorem hexFoldr_length : ∀ l : List Nat,
    (l.foldr (fun b acc => byteHex b ++ acc) []).length = 2 * l.length
  | [] => rfl
  | b :: l => by
      rw [List.foldr_cons, List.length_append, hexFoldr_length l]
      rw [show (byteHex b).length = 2 from rfl, List.length_cons]
      omega

theorem hexFoldr_mem : ∀ (l : List Nat), (∀ b ∈ l, b < 256) →
    ∀ c ∈ l.foldr (fun b acc => byteHex b ++ acc) [], c ∈ hexAlphabet
  | [], _, c, hc => absurd hc (by simp)
  | b :: l, hb, c, hc => by
      rw [List.foldr_cons] at hc
      rcases List.mem_append.mp hc with h | h
      · have hb256 : b < 256 := hb b (List.mem_cons_self b l)
        simp only [byteHex, List.mem_cons, List.not_mem_nil, or_false] at h
        rcases h with h | h
        · rw [h]
          exact hexChar_mem (by omega)
        · rw [h]
          exact hexChar_mem (by omega)
      · exact hexFoldr_mem l (fun z hz => hb z (List.mem_cons_of_mem b hz)) c h

theorem wordToBytes_bound {w b : Nat} (h : b ∈ wordToBytes w) : b < 256 := by
  simp only [wordToBytes, List.mem_cons, List.not_mem_nil, or_false] at h
  rcases h with h | h | h | h <;> omega

theorem sha256Bytes_length (msg : List Nat) : (sha256Bytes msg).length = 32 := by
  simp only [sha256Bytes, List.length_append]
  rw [show ∀ w, (wordToBytes w).length = 4 from fun w => rfl]
  simp only [show ∀ w, (wordToBytes w).length = 4 from fun w => rfl]

theorem sha256Bytes_bound {msg : List Nat} {b : Nat}
    (h : b ∈ sha256Bytes msg) : b < 256 := by
  simp only [sha256Bytes, List.mem_append] at h
  rcases h with ((((((h | h) | h) | h) | h) | h) | h) | h <;>
    exact wordToBytes_bound h

theorem hash_content_length (v : Val) : (hash_content v).length = 64 := by
  unfold hash_content
  rw [show ∀ l : List Char, (String.mk l).length = l.length from fun l => rfl]
  rw [hexFoldr_length, sha256Bytes_length]

theorem hash_content_hex (v : Val) :
    ∀ c ∈ (hash_content v).toList, c ∈ hexAlphabet := by
  unfold hash_content
  rw [show ∀ l : List Char, (String.mk l).toList = l from fun l => rfl]
  exact hexFoldr_mem _ (fun b hb => sha256Bytes_bound hb)

/-- C5 (amended): `hash_content` depends only on the value's structure
— two wellformed values that are equal as nested mapping/sequence/scalar
structures, regardless of mapping key insertion order, have the same
digest; the digest is a fixed-length (64-character) lowercase-hex
string; and changing any leaf value changes the **canonical
serialization** (`json.dumps(..., sort_keys=True)` output).  The
original claim that a leaf change always changes the *digest* is false:
SHA-256 has finitely many outputs, so some pair of leaf-different
values must collide (`C5_counterexample`). -/
theorem C5_canonical_digest (x y u w : Val)
    (hwf : wfKeys y = true) (hse : StructEq x y) (hld : LeafDiff u w) :
    hash_content x = hash_content y ∧
    (hash_content x).length = 64 ∧
    (∀ c ∈ (hash_content x).toList, c ∈ hexAlphabet) ∧
    serializeJson u ≠ serializeJson w :=
  ⟨hash_content_structEq hse hwf, hash_content_length x,
   hash_content_hex x, serialize_leafDiff hld⟩

def c5x : Val := .vobj [("b", .vint 2), ("a", .vint 1)]

def c5y : Val := .vobj [("a", .vint 1), ("b", .vint 2)]

theorem C5_witness :
    wfKeys c5y = true ∧
    (hash_content c5x = hash_content c5y ∧
     (hash_content c5x).length = 64 ∧
     (∀ c ∈ (hash_content c5x).toList, c ∈ hexAlphabet) ∧
     serializeJson (Val.vint 0) ≠ serializeJson (Val.vint 1)) :=
  ⟨by decide,
   C5_canonical_digest c5x c5y (Val.vint 0) (Val.vint 1) (by decide)
     (StructEq.vobj (structEqFields_refl [("b", Val.vint 2), ("a", Val.vint 1)])
       (List.Perm.swap ("a", Val.vint 1) ("b", Val.vint 2) []))
     (LeafDiff.leaf rfl rfl (by decide))⟩

/-- C5 counterexample to the digest-injectivity half of the claim:
it is **not** the case that every leaf change changes the digest —
by pigeonhole over the finitely many 32-byte digests, some two
integers (which differ as leaves) share their SHA-256 digest. -/
theorem C5_counterexample :
    ¬ (∀ u w : Val, LeafDiff u w → hash_content u ≠ hash_content w) := by
  intro H
  have hF : ∀ n : ℕ, ∀ i : Fin 32,
      (sha256Bytes (utf8Bytes (serializeJson (Val.vint (n : Int))))).getD i.val 0 < 256 := by
    intro n i
    have hlen := sha256Bytes_length (utf8Bytes (serializeJson (Val.vint (n : Int))))
    rw [List.getD_eq_getElem _ _ (by omega)]
    exact sha256Bytes_bound (List.getElem_mem _)
  have ⟨a, b, hab, hFeq⟩ :=
    Finite.exists_ne_map_eq_of_infinite
      (fun (n : ℕ) => fun (i : Fin 32) =>
        (⟨(sha256Bytes (utf8Bytes (serializeJson (Val.vint (n : Int))))).getD i.val 0,
          hF n i⟩ : Fin 256))
  have hbytes : sha256Bytes (utf8Bytes (serializeJson (Val.vint (a : Int)))) =
      sha256Bytes (utf8Bytes (serializeJson (Val.vint (b : Int)))) := by
    have hla := sha256Bytes_length (utf8Bytes (serializeJson (Val.vint (a : Int))))
    have hlb := sha256Bytes_length (utf8Bytes (serializeJson (Val.vint (b : Int))))
    apply List.ext_getElem (by omega)
    intro i h1 h2
    have := congrFun hFeq ⟨i, by omega⟩
    have h3 := congrArg Fin.val this
    dsimp only at h3
    have e1 := List.getD_eq_getElem
      (sha256Bytes (utf8Bytes (serializeJson (Val.vint (a : Int))))) 0 h1
    have e2 := List.getD_eq_getElem
      (sha256Bytes (utf8Bytes (serializeJson (Val.vint (b : Int))))) 0 h2
    exact (e1.symm.trans h3).trans e2
  have hhash : hash_content (Val.vint (a : Int)) = hash_content (Val.vint (b : Int)) := by
    unfold hash_content serializeJson at hbytes ⊢
    rw [hbytes]
  have hld : LeafDiff (Val.vint (a : Int)) (Val.vint (b : Int)) :=
    LeafDiff.leaf rfl rfl (by
      intro hc
      injection hc with hc2
      exact hab (by omega))
  exact H _ _ hld hhash

/-! ## C1: idempotence of re-ingestion

A second run over an unchanged corpus re-resolves every topic and
subtopic to its existing id and re-upserts rows that are already
stored, so the store never changes.  The key facts: an upsert whose row
is already present (under duplicate-free conflict keys) is the
identity, and lookups hit the rows the first run created. -/

theorem contentKeyMatch_self (r : ContentRow) : contentKeyMatch r r = true := by
  simp [contentKeyMatch]

theorem questionKeyMatch_self (r : QuestionRow) : questionKeyMatch r r = true := by
  simp [questionKeyMatch]

theorem upsertContentRow_mem {l : List ContentRow} {r : ContentRow}
    (hm : r ∈ l)
    (hnd : (l.map fun x => (x.subtopic_id, x.difficulty)).Nodup) :
    upsertContentRow l r = l := by
  unfold upsertContentRow
  rw [if_pos (List.any_eq_true.mpr ⟨r, hm, contentKeyMatch_self r⟩)]
  have hinj := List.inj_on_of_nodup_map hnd
  have hcong : ∀ x ∈ l, (if contentKeyMatch r x then r else x) = x := by
    intro x hx
    by_cases hmx : contentKeyMatch r x = true
    · rw [if_pos hmx]
      simp only [contentKeyMatch, Bool.and_eq_true, beq_iff_eq] at hmx
      exact hinj hm hx (by simp [hmx.1, hmx.2])
    · rw [if_neg hmx]
  rw [List.map_congr_left hcong]
  simp

theorem upsertQuestionRow_mem {l : List QuestionRow} {r : QuestionRow}
    (hm : r ∈ l) (hnd : (l.map fun x => x.question_hash).Nodup) :
    upsertQuestionRow l r = l := by
  unfold upsertQuestionRow
  rw [if_pos (List.any_eq_true.mpr ⟨r, hm, questionKeyMatch_self r⟩)]
  have hinj := List.inj_on_of_nodup_map hnd
  have hcong : ∀ x ∈ l, (if questionKeyMatch r x then r else x) = x := by
    intro x hx
    by_cases hmx : questionKeyMatch r x = true
    · rw [if_pos hmx]
      simp only [questionKeyMatch, beq_iff_eq] at hmx
      exact hinj hm hx (by simp [hmx])
    · rw [if_neg hmx]
  rw [List.map_congr_left hcong]
  simp

theorem store_eta (S : Store) :
    ({ S with content := S.content } : Store) = S := rfl

theorem upsertContentRows_mem {S : Store} :
    ∀ {rows : List ContentRow}, (∀ r ∈ rows, r ∈ S.content) →
    (S.content.map fun x => (x.subtopic_id, x.difficulty)).Nodup →
    upsertContentRows S rows = S := by
  intro rows
  induction rows with
  | nil => intro _ _; rfl
  | cons r rest ih =>
      intro hmem hnd
      have h1 : upsertContentRows S (r :: rest) = upsertContentRows S rest := by
        unfold upsertContentRows
        rw [List.foldl_cons,
          upsertContentRow_mem (hmem r (List.mem_cons_self r rest)) hnd]
      rw [h1]
      exact ih (fun x hx => hmem x (List.mem_cons_of_mem r hx)) hnd

theorem upsertQuestionRows_mem {S : Store} :
    ∀ {rows : List QuestionRow}, (∀ r ∈ rows, r ∈ S.questions) →
    (S.questions.map fun x => x.question_hash).Nodup →
    upsertQuestionRows S rows = S := by
  intro rows
  induction rows with
  | nil => intro _ _; rfl
  | cons r rest ih =>
      intro hmem hnd
      have h1 : upsertQuestionRows S (r :: rest) = upsertQuestionRows S rest := by
        unfold upsertQuestionRows
        rw [List.foldl_cons,
          upsertQuestionRow_mem (hmem r (List.mem_cons_self r rest)) hnd]
      rw [h1]
      exact ih (fun x hx => hmem x (List.mem_cons_of_mem r hx)) hnd

theorem findTopic_of_mem :
    ∀ {ts : List TopicRow} {r : TopicRow}, r ∈ ts →
      (ts.map fun x => x.topic_name).Nodup →
      findTopic ts r.topic_name = some r := by
  intro ts
  induction ts with
  | nil => intro r hm _; exact absurd hm (by simp)
  | cons a t ih =>
      intro r hm hnd
      rw [List.map_cons, List.nodup_cons] at hnd
      unfold findTopic at ih ⊢
      rw [List.find?]
      by_cases ha : a.topic_name == r.topic_name
      · rw [ha]
        rcases List.mem_cons.mp hm with h | h
        · rw [h]
        · exfalso
          rw [beq_iff_eq] at ha
          exact hnd.1 (ha ▸ List.mem_map.mpr ⟨r, h, rfl⟩)
      · rw [Bool.not_eq_true] at ha
        rw [ha]
        rcases List.mem_cons.mp hm with h | h
        · exfalso
          rw [h] at ha
          simp at ha
        · exact ih h hnd.2

theorem findSubtopic_of_mem :
    ∀ {ss : List SubtopicRow} {r : SubtopicRow}, r ∈ ss →
      (ss.map fun x => (x.topic_id, x.subtopic_name)).Nodup →
      findSubtopic ss r.topic_id r.subtopic_name = some r := by
  intro ss
  induction ss with
  | nil => intro r hm _; exact absurd hm (by simp)
  | cons a t ih =>
      intro r hm hnd
      rw [List.map_cons, List.nodup_cons] at hnd
      unfold findSubtopic at ih ⊢
      rw [List.find?]
      by_cases ha : (a.topic_id == r.topic_id && a.subtopic_name == r.subtopic_name) = true
      · rw [ha]
        rcases List.mem_cons.mp hm with h | h
        · rw [h]
        · exfalso
          simp only [Bool.and_eq_true, beq_iff_eq] at ha
          exact hnd.1 (by
            rw [ha.1, ha.2]
            exact List.mem_map.mpr ⟨r, h, rfl⟩)
      · rw [Bool.not_eq_true] at ha
        rw [ha]
        rcases List.mem_cons.mp hm with h | h
        · exfalso
          rw [h] at ha
          simp at ha
        · exact ih h hnd.2

/-- A write event that changes nothing: the store before and after is
`S`, and every row in the batch is already stored identically. -/
def noOpWrite (S : Store) : Event → Prop
  | .topicUpsert _ b a => b = S ∧ a = S
  | .subtopicUpsert _ _ b a => b = S ∧ a = S
  | .contentUpsert rows b a => b = S ∧ a = S ∧ ∀ r ∈ rows, r ∈ S.content
  | .questionUpsert rows b a => b = S ∧ a = S ∧ ∀ r ∈ rows, r ∈ S.questions

/-- The store already holds everything the content flow would write for
this subtopic file under subtopic id `sid` (and the file cannot crash
the content flow). -/
def ContentSat (S : Store) (sid : Nat) : FileData → Prop
  | .missing => True
  | .parseFail => False
  | .parsed (.vobj f) =>
      ∃ rows, contentRowsFor sid f CONTENT_DIFFICULTY_MAP = .ok rows ∧
        ∀ r ∈ rows, r ∈ S.content
  | .parsed _ => True

/-- The store already holds everything the question flow would write
for this subtopic file under subtopic id `sid`. -/
def QuestionSat (S : Store) (sid : Nat) : FileData → Prop
  | .missing => True
  | .parseFail => True
  | .parsed (.vobj f) =>
      if f.any (fun p => p.1 == "by_level") then
        qShapeOK ((Val.lookupField "by_level" f).getD .vnull)
          QUESTION_DIFFICULTY_MAP = true ∧
        ∀ r ∈ qRowsOf sid ((Val.lookupField "by_level" f).getD .vnull)
            QUESTION_DIFFICULTY_MAP, r ∈ S.questions
      else True
  | .parsed _ => True

def SubSat (S : Store) (tid : Nat) (s : SubtopicDir) : Prop :=
  ∃ sid, findSubtopic S.subtopics tid s.name = some ⟨sid, tid, s.name⟩ ∧
    ContentSat S sid s.chunks ∧ QuestionSat S sid s.questions

def TopicSat (S : Store) (t : TopicDir) : Prop :=
  ∃ tid, findTopic S.topics t.name = some ⟨tid, t.name⟩ ∧
    ∀ s ∈ t.subs, SubSat S tid s

/-- The store already holds everything both flows would write for the
corpus. -/
def Saturated (S : Store) (c : List TopicDir) : Prop := ∀ t ∈ c, TopicSat S t

/-- Duplicate-free conflict keys in the stored tables. -/
def KeysOK (S : Store) : Prop :=
  (S.content.map fun x => (x.subtopic_id, x.difficulty)).Nodup ∧
  (S.questions.map fun x => x.question_hash).Nodup

theorem getOrCreateTopic_hit {S : Store} {name : String} {r : TopicRow}
    (h : findTopic S.topics name = some r) :
    getOrCreateTopic S name = (S, r.topic_id) := by
  unfold getOrCreateTopic
  rw [h]

theorem getOrCreateSubtopic_hit {S : Store} {tid : Nat} {name : String}
    {r : SubtopicRow} (h : findSubtopic S.subtopics tid name = some r) :
    getOrCreateSubtopic S tid name = (S, r.subtopic_id) := by
  unfold getOrCreateSubtopic
  rw [h]

theorem replay_content_subtopic (S : Store) (tid : Nat) (s : SubtopicDir)
    (st : RunState) (hS : st.store = S) (hc : st.crashed = none)
    (hk : KeysOK S) (hsat : SubSat S tid s) :
    (processContentSubtopic allOk tid s st).store = S ∧
    (processContentSubtopic allOk tid s st).crashed = none ∧
    ∀ e ∈ (processContentSubtopic allOk tid s st).events,
      e ∈ st.events ∨ noOpWrite S e := by
  obtain ⟨sid, hfind, hcs, _⟩ := hsat
  unfold processContentSubtopic
  rw [if_neg (isSome_false_of_none hc), hS, getOrCreateSubtopic_hit hfind]
  dsimp only
  rcases hch : s.chunks with _ | _ | data
  · refine ⟨rfl, hc, ?_⟩
    intro e he
    simp only [List.mem_append, List.mem_singleton] at he
    rcases he with he | he
    · exact Or.inl he
    · exact Or.inr (by rw [he]; exact ⟨rfl, rfl⟩)
  · rw [hch] at hcs
    exact hcs.elim
  · rw [hch] at hcs
    rcases data with _ | b | n | str | xs | fields
    case vobj =>
      dsimp only
      obtain ⟨rows, hok, hmem⟩ := hcs
      rw [hok]
      dsimp only
      by_cases he : rows.isEmpty = true
      · rw [if_pos he]
        refine ⟨rfl, hc, ?_⟩
        intro e hev
        simp only [List.mem_append, List.mem_singleton] at hev
        rcases hev with hev | hev
        · exact Or.inl hev
        · exact Or.inr (by rw [hev]; exact ⟨rfl, rfl⟩)
      · rw [if_neg he, safeUpsertContent_allOk]
        dsimp only
        rw [if_neg (isSome_false_of_none hc)]
        rw [upsertContentRows_mem hmem hk.1]
        refine ⟨rfl, hc, ?_⟩
        intro e hev
        simp only [List.mem_append, List.mem_singleton] at hev
        rcases hev with (hev | hev) | hev
        · exact Or.inl hev
        · exact Or.inr (by rw [hev]; exact ⟨rfl, rfl⟩)
        · exact Or.inr (by rw [hev]; exact ⟨rfl, rfl, hmem⟩)
    all_goals
      refine ⟨rfl, hc, ?_⟩
      intro e hev
      simp only [List.mem_append, List.mem_singleton] at hev
      rcases hev with hev | hev
      · exact Or.inl hev
      · exact Or.inr (by rw [hev]; exact ⟨rfl, rfl⟩)

theorem replay_content_fold (S : Store) (tid : Nat) :
    ∀ (subs : List SubtopicDir) (st : RunState), st.store = S →
      st.crashed = none → KeysOK S → (∀ s ∈ subs, SubSat S tid s) →
      (subs.foldl (fun acc sub => processContentSubtopic allOk tid sub acc)
        st).store = S ∧
      (subs.foldl (fun acc sub => processContentSubtopic allOk tid sub acc)
        st).crashed = none ∧
      ∀ e ∈ (subs.foldl (fun acc sub => processContentSubtopic allOk tid sub acc)
        st).events, e ∈ st.events ∨ noOpWrite S e
  | [], st, hS, hc, _, _ => ⟨hS, hc, fun e he => Or.inl he⟩
  | s :: rest, st, hS, hc, hk, hsat => by
      rw [List.foldl_cons]
      have h1 := replay_content_subtopic S tid s st hS hc hk
        (hsat s (List.mem_cons_self s rest))
      have h2 := replay_content_fold S tid rest (processContentSubtopic allOk tid s st)
        h1.1 h1.2.1 hk (fun x hx => hsat x (List.mem_cons_of_mem s hx))
      refine ⟨h2.1, h2.2.1, ?_⟩
      intro e he
      rcases h2.2.2 e he with h | h
      · exact h1.2.2 e h
      · exact Or.inr h

theorem replay_content_topic (S : Store) (t : TopicDir) (st : RunState)
    (hS : st.store = S) (hc : st.crashed = none) (hk : KeysOK S)
    (hsat : TopicSat S t) :
    (processContentTopic allOk t st).store = S ∧
    (processContentTopic allOk t st).crashed = none ∧
    ∀ e ∈ (processContentTopic allOk t st).events,
      e ∈ st.events ∨ noOpWrite S e := by
  obtain ⟨tid, hfind, hsubs⟩ := hsat
  unfold processContentTopic
  rw [if_neg (isSome_false_of_none hc), hS, getOrCreateTopic_hit hfind]
  dsimp only
  have h1 := replay_content_fold S tid t.subs
    { st with store := S,
              events := st.events ++ [.topicUpsert t.name S S],
              log := st.log ++ [⟨.info, "Processing topic: " ++ t.name⟩] }
    rfl hc hk hsubs
  refine ⟨h1.1, h1.2.1, ?_⟩
  intro e he
  rcases h1.2.2 e he with h | h
  · simp only [List.mem_append, List.mem_singleton] at h
    rcases h with h | h
    · exact Or.inl h
    · exact Or.inr (by rw [h]; exact ⟨rfl, rfl⟩)
  · exact Or.inr h

theorem replay_runContent (S : Store) (c : Corpus) (st : RunState)
    (hS : st.store = S) (hc : st.crashed = none) (hk : KeysOK S)
    (hsat : Saturated S c) :
    (runContent allOk c st).store = S ∧
    (runContent allOk c st).crashed = none ∧
    ∀ e ∈ (runContent allOk c st).events, e ∈ st.events ∨ noOpWrite S e := by
  have hfold : ∀ (ts : List TopicDir) (st2 : RunState), st2.store = S →
      st2.crashed = none → (∀ t ∈ ts, TopicSat S t) →
      (ts.foldl (fun acc t => processContentTopic allOk t acc) st2).store = S ∧
      (ts.foldl (fun acc t => processContentTopic allOk t acc) st2).crashed = none ∧
      ∀ e ∈ (ts.foldl (fun acc t => processContentTopic allOk t acc) st2).events,
        e ∈ st2.events ∨ noOpWrite S e := by
    intro ts
    induction ts with
    | nil => exact fun st2 hS2 hc2 _ => ⟨hS2, hc2, fun e he => Or.inl he⟩
    | cons t rest ih =>
        intro st2 hS2 hc2 hsat2
        rw [List.foldl_cons]
        have h1 := replay_content_topic S t st2 hS2 hc2 hk
          (hsat2 t (List.mem_cons_self t rest))
        have h2 := ih (processContentTopic allOk t st2) h1.1 h1.2.1
          (fun x hx => hsat2 x (List.mem_cons_of_mem t hx))
        refine ⟨h2.1, h2.2.1, ?_⟩
        intro e he
        rcases h2.2.2 e he with h | h
        · exact h1.2.2 e h
        · exact Or.inr h
  have h1 := hfold c st hS hc hsat
  unfold runContent
  rw [if_neg (isSome_false_of_none h1.2.1)]
  exact ⟨h1.1, h1.2.1, h1.2.2⟩

theorem mem_append_noOp {S : Store} {es : List Event} {ev : Event}
    (hev : noOpWrite S ev) {e : Event} (he : e ∈ es ++ [ev]) :
    e ∈ es ∨ noOpWrite S e := by
  rcases List.mem_append.mp he with h | h
  · exact Or.inl h
  · rw [List.mem_singleton] at h
    exact Or.inr (h ▸ hev)

theorem replay_qItemLoop (S : Store) (sid : Nat) (db : String) :
    ∀ (qs : List Val) (batch : List QuestionRow) (st : RunState),
      st.store = S → st.crashed = none → KeysOK S →
      (∀ q ∈ qs, Val.isDict q = true) →
      (∀ r ∈ qRowsOfItems sid db qs, r ∈ S.questions) →
      (∀ r ∈ batch, r ∈ S.questions) →
      (qItemLoop allOk sid db qs batch st).2.store = S ∧
      (qItemLoop allOk sid db qs batch st).2.crashed = none ∧
      (∀ r ∈ (qItemLoop allOk sid db qs batch st).1, r ∈ S.questions) ∧
      ∀ e ∈ (qItemLoop allOk sid db qs batch st).2.events,
        e ∈ st.events ∨ noOpWrite S e
  | [], batch, st, hS, hc, _, _, _, hbatch =>
      ⟨hS, hc, hbatch, fun e he => Or.inl he⟩
  | q :: qs, batch, st, hS, hc, hk, hdict, hrows, hbatch => by
      rcases q with _ | b | n | s' | xs | qf
      case vobj =>
        rw [qItemLoop]
        rw [if_neg (isSome_false_of_none hc)]
        dsimp only
        rw [qRowsOfItems] at hrows
        by_cases ht : ((Val.lookupField "type" qf).getD .vnull).truthy = true
        · rw [if_pos ht]
          rw [if_pos ht] at hrows
          have hrdict : ∀ x ∈ qs, Val.isDict x = true :=
            fun x hx => hdict x (List.mem_cons_of_mem _ hx)
          have hhead : mkQuestionRow sid db ((Val.lookupField "type" qf).getD .vnull)
              (.vobj qf) ∈ S.questions := hrows _ (List.mem_cons_self _ _)
          have hrest : ∀ r ∈ qRowsOfItems sid db qs, r ∈ S.questions :=
            fun r hr => hrows r (List.mem_cons_of_mem _ hr)
          have hb2 : ∀ r ∈ batch ++ [mkQuestionRow sid db
              ((Val.lookupField "type" qf).getD .vnull) (.vobj qf)],
              r ∈ S.questions := by
            intro r hr
            rcases List.mem_append.mp hr with h | h
            · exact hbatch r h
            · rw [List.mem_singleton] at h
              exact h ▸ hhead
          by_cases hB : BATCH_SIZE ≤ (batch ++ [mkQuestionRow sid db
              ((Val.lookupField "type" qf).getD .vnull) (.vobj qf)]).length
          · rw [if_pos hB, safeUpsertQuestions_allOk, hS,
              upsertQuestionRows_mem hb2 hk.2]
            have ih := replay_qItemLoop S sid db qs []
              ⟨S, st.events ++ [.questionUpsert
                  (batch ++ [mkQuestionRow sid db
                    ((Val.lookupField "type" qf).getD .vnull) (.vobj qf)]) S S],
                st.log, st.attempts + 1, st.delays, st.crashed⟩
              rfl hc hk hrdict hrest (by simp)
            refine ⟨ih.1, ih.2.1, ih.2.2.1, ?_⟩
            intro e he
            rcases ih.2.2.2 e he with h | h
            · exact mem_append_noOp
                (show noOpWrite S (.questionUpsert
                  (batch ++ [mkQuestionRow sid db
                    ((Val.lookupField "type" qf).getD .vnull) (.vobj qf)]) S S)
                 from ⟨rfl, rfl, hb2⟩) h
            · exact Or.inr h
          · rw [if_neg hB]
            exact replay_qItemLoop S sid db qs _ st hS hc hk hrdict hrest hb2
        · rw [if_neg ht]
          rw [if_neg ht] at hrows
          exact replay_qItemLoop S sid db qs batch
            { st with log := st.log ++
                [⟨.warning, "Skipping question with missing type"⟩] }
            hS hc hk (fun x hx => hdict x (List.mem_cons_of_mem _ hx)) hrows hbatch
      all_goals
        exact absurd (hdict _ (List.mem_cons_self _ _)) (by simp [Val.isDict])
theorem replay_qLevelLoop (S : Store) (sid : Nat) (levels : Val) :
    ∀ (m : List (String × String)) (batch : List QuestionRow) (st : RunState),
      st.store = S → st.crashed = none → KeysOK S →
      qShapeOK levels m = true →
      (∀ r ∈ qRowsOf sid levels m, r ∈ S.questions) →
      (∀ r ∈ batch, r ∈ S.questions) →
      (qLevelLoop allOk sid levels m batch st).2.store = S ∧
      (qLevelLoop allOk sid levels m batch st).2.crashed = none ∧
      (∀ r ∈ (qLevelLoop allOk sid levels m batch st).1, r ∈ S.questions) ∧
      ∀ e ∈ (qLevelLoop allOk sid levels m batch st).2.events,
        e ∈ st.events ∨ noOpWrite S e
  | [], batch, st, hS, hc, _, _, _, hbatch =>
      ⟨hS, hc, hbatch, fun e he => Or.inl he⟩
  | (lvl, db) :: rest, batch, st, hS, hc, hk, hshape, hrows, hbatch => by
      rw [qShapeOK, Bool.and_eq_true] at hshape
      rw [qLevelLoop]
      rw [qRowsOf] at hrows
      rw [if_neg (isSome_false_of_none hc)]
      rcases hpc : Val.pyContains levels lvl with _ | cb
      · rw [hpc] at hshape
        exact absurd hshape.1 (by simp)
      · rcases cb with _ | _
        · dsimp only
          rw [hpc] at hrows
          dsimp only at hrows
          rw [List.nil_append] at hrows
          exact replay_qLevelLoop S sid levels rest batch st hS hc hk hshape.2
            hrows hbatch
        · rw [hpc] at hshape hrows
          dsimp only at hshape hrows
          dsimp only
          rcases hpi : Val.pyIndex levels lvl with _ | block
          · rw [hpi] at hshape
            exact absurd hshape.1 (by simp)
          · rw [hpi] at hshape hrows
            dsimp only at hshape hrows
            dsimp only
            rcases hpg : Val.pyGet block "questions" (.varr []) with _ | qsVal
            · rw [hpg] at hshape
              exact absurd hshape.1 (by simp)
            · rw [hpg] at hshape hrows
              dsimp only at hshape hrows
              dsimp only
              rcases hpit : Val.pyIter qsVal with _ | qs
              · rw [hpit] at hshape
                exact absurd hshape.1 (by simp)
              · rw [hpit] at hshape hrows
                dsimp only at hshape hrows
                dsimp only
                have hdict : ∀ x ∈ qs, Val.isDict x = true := by
                  have hall := hshape.1
                  simp only [List.all_eq_true] at hall
                  exact hall
                have hitems : ∀ r ∈ qRowsOfItems sid db qs, r ∈ S.questions :=
                  fun r hr => hrows r (List.mem_append.mpr (Or.inl hr))
                have hrest : ∀ r ∈ qRowsOf sid levels rest, r ∈ S.questions :=
                  fun r hr => hrows r (List.mem_append.mpr (Or.inr hr))
                have ihi := replay_qItemLoop S sid db qs batch st hS hc hk hdict
                  hitems hbatch
                have ihl := replay_qLevelLoop S sid levels rest
                  (qItemLoop allOk sid db qs batch st).1
                  (qItemLoop allOk sid db qs batch st).2
                  ihi.1 ihi.2.1 hk hshape.2 hrest ihi.2.2.1
                refine ⟨ihl.1, ihl.2.1, ihl.2.2.1, ?_⟩
                intro e he
                rcases ihl.2.2.2 e he with h | h
                · exact ihi.2.2.2 e h
                · exact Or.inr h

theorem replay_question_subtopic (S : Store) (tid : Nat) (s : SubtopicDir)
    (st : RunState) (hS : st.store = S) (hc : st.crashed = none)
    (hk : KeysOK S) (hsat : SubSat S tid s) :
    (processQuestionSubtopic allOk tid s st).store = S ∧
    (processQuestionSubtopic allOk tid s st).crashed = none ∧
    ∀ e ∈ (processQuestionSubtopic allOk tid s st).events,
      e ∈ st.events ∨ noOpWrite S e := by
  obtain ⟨sid, hfind, _, hqs⟩ := hsat
  unfold processQuestionSubtopic
  rw [if_neg (isSome_false_of_none hc), hS, getOrCreateSubtopic_hit hfind]
  dsimp only
  rcases hqf : s.questions with _ | _ | data
  · refine ⟨rfl, hc, ?_⟩
    intro e he
    simp only [List.mem_append, List.mem_singleton] at he
    rcases he with he | he
    · exact Or.inl he
    · exact Or.inr (by rw [he]; exact ⟨rfl, rfl⟩)
  · refine ⟨rfl, hc, ?_⟩
    intro e he
    simp only [List.mem_append, List.mem_singleton] at he
    rcases he with he | he
    · exact Or.inl he
    · exact Or.inr (by rw [he]; exact ⟨rfl, rfl⟩)
  · rw [hqf] at hqs
    rcases data with _ | b | n | str | xs | fields
    case vobj =>
      dsimp only
      by_cases hwrap : fields.any (fun p => p.1 == "by_level") = true
      · rw [if_pos hwrap]
        rw [QuestionSat] at hqs
        rw [if_pos hwrap] at hqs
        have hll := replay_qLevelLoop S sid
          ((Val.lookupField "by_level" fields).getD .vnull) QUESTION_DIFFICULTY_MAP
          []
          ⟨S, st.events ++ [.subtopicUpsert tid s.name S S],
            st.log ++ [⟨.info, "Processing subtopic: " ++ s.name⟩],
            st.attempts, st.delays, st.crashed⟩
          rfl hc hk hqs.1 hqs.2 (by simp)
        rw [if_neg (isSome_false_of_none hll.2.1)]
        by_cases hemp : (qLevelLoop allOk sid
            ((Val.lookupField "by_level" fields).getD .vnull) QUESTION_DIFFICULTY_MAP
            []
            ⟨S, st.events ++ [.subtopicUpsert tid s.name S S],
              st.log ++ [⟨.info, "Processing subtopic: " ++ s.name⟩],
              st.attempts, st.delays, st.crashed⟩).1.isEmpty = true
        · rw [if_pos hemp]
          refine ⟨hll.1, hll.2.1, ?_⟩
          intro e he
          rcases hll.2.2.2 e he with h | h
          · exact mem_append_noOp
              (show noOpWrite S (.subtopicUpsert tid s.name S S) from ⟨rfl, rfl⟩) h
          · exact Or.inr h
        · rw [if_neg hemp, safeUpsertQuestions_allOk, hll.1,
            upsertQuestionRows_mem hll.2.2.1 hk.2]
          dsimp only
          rw [if_neg (isSome_false_of_none hll.2.1)]
          refine ⟨rfl, hll.2.1, ?_⟩
          intro e he
          simp only [List.mem_append, List.mem_singleton] at he
          rcases he with he | he
          · rcases hll.2.2.2 e (by exact he) with h | h
            · exact mem_append_noOp
                (show noOpWrite S (.subtopicUpsert tid s.name S S) from ⟨rfl, rfl⟩) h
            · exact Or.inr h
          · refine Or.inr (by rw [he]; exact ⟨rfl, rfl, hll.2.2.1⟩)
      · rw [if_neg hwrap]
        refine ⟨rfl, hc, ?_⟩
        intro e he
        simp only [List.mem_append, List.mem_singleton] at he
        rcases he with he | he
        · exact Or.inl he
        · exact Or.inr (by rw [he]; exact ⟨rfl, rfl⟩)
    all_goals
      refine ⟨rfl, hc, ?_⟩
      intro e hev
      simp only [List.mem_append, List.mem_singleton] at hev
      rcases hev with hev | hev
      · exact Or.inl hev
      · exact Or.inr (by rw [hev]; exact ⟨rfl, rfl⟩)

theorem replay_question_topic (S : Store) (t : TopicDir) (st : RunState)
    (hS : st.store = S) (hc : st.crashed = none) (hk : KeysOK S)
    (hsat : TopicSat S t) :
    (processQuestionTopic allOk t st).store = S ∧
    (processQuestionTopic allOk t st).crashed = none ∧
    ∀ e ∈ (processQuestionTopic allOk t st).events,
      e ∈ st.events ∨ noOpWrite S e := by
  obtain ⟨tid, hfind, hsubs⟩ := hsat
  unfold processQuestionTopic
  rw [if_neg (isSome_false_of_none hc), hS, getOrCreateTopic_hit hfind]
  dsimp only
  have hfold : ∀ (subs : List SubtopicDir) (st2 : RunState), st2.store = S →
      st2.crashed = none → (∀ s ∈ subs, SubSat S tid s) →
      (subs.foldl (fun acc sub => processQuestionSubtopic allOk tid sub acc)
        st2).store = S ∧
      (subs.foldl (fun acc sub => processQuestionSubtopic allOk tid sub acc)
        st2).crashed = none ∧
      ∀ e ∈ (subs.foldl (fun acc sub => processQuestionSubtopic allOk tid sub acc)
        st2).events, e ∈ st2.events ∨ noOpWrite S e := by
    intro subs
    induction subs with
    | nil => exact fun st2 hS2 hc2 _ => ⟨hS2, hc2, fun e he => Or.inl he⟩
    | cons s rest ih =>
        intro st2 hS2 hc2 hsat2
        rw [List.foldl_cons]
        have h1 := replay_question_subtopic S tid s st2 hS2 hc2 hk
          (hsat2 s (List.mem_cons_self s rest))
        have h2 := ih (processQuestionSubtopic allOk tid s st2) h1.1 h1.2.1
          (fun x hx => hsat2 x (List.mem_cons_of_mem s hx))
        refine ⟨h2.1, h2.2.1, ?_⟩
        intro e he
        rcases h2.2.2 e he with h | h
        · exact h1.2.2 e h
        · exact Or.inr h
  have h1 := hfold t.subs
    { st with store := S,
              events := st.events ++ [.topicUpsert t.name S S],
              log := st.log ++ [⟨.info, "Processing topic: " ++ t.name⟩] }
    rfl hc hsubs
  refine ⟨h1.1, h1.2.1, ?_⟩
  intro e he
  rcases h1.2.2 e he with h | h
  · exact mem_append_noOp
      (show noOpWrite S (.topicUpsert t.name S S) from ⟨rfl, rfl⟩) h
  · exact Or.inr h

theorem replay_runQuestion (S : Store) (c : Corpus) (st : RunState)
    (hS : st.store = S) (hc : st.crashed = none) (hk : KeysOK S)
    (hsat : Saturated S c) :
    (runQuestion allOk c st).store = S ∧
    (runQuestion allOk c st).crashed = none ∧
    ∀ e ∈ (runQuestion allOk c st).events, e ∈ st.events ∨ noOpWrite S e := by
  have hfold : ∀ (ts : List TopicDir) (st2 : RunState), st2.store = S →
      st2.crashed = none → (∀ t ∈ ts, TopicSat S t) →
      (ts.foldl (fun acc t => processQuestionTopic allOk t acc) st2).store = S ∧
      (ts.foldl (fun acc t => processQuestionTopic allOk t acc) st2).crashed = none ∧
      ∀ e ∈ (ts.foldl (fun acc t => processQuestionTopic allOk t acc) st2).events,
        e ∈ st2.events ∨ noOpWrite S e := by
    intro ts
    induction ts with
    | nil => exact fun st2 hS2 hc2 _ => ⟨hS2, hc2, fun e he => Or.inl he⟩
    | cons t rest ih =>
        intro st2 hS2 hc2 hsat2
        rw [List.foldl_cons]
        have h1 := replay_question_topic S t st2 hS2 hc2 hk
          (hsat2 t (List.mem_cons_self t rest))
        have h2 := ih (processQuestionTopic allOk t st2) h1.1 h1.2.1
          (fun x hx => hsat2 x (List.mem_cons_of_mem t hx))
        refine ⟨h2.1, h2.2.1, ?_⟩
        intro e he
        rcases h2.2.2 e he with h | h
        · exact h1.2.2 e h
        · exact Or.inr h
  have h1 := hfold c st hS hc hsat
  unfold runQuestion
  rw [if_neg (isSome_false_of_none h1.2.1)]
  exact ⟨h1.1, h1.2.1, h1.2.2⟩

/-! ### Shape of a corpus the first run ingests without crashing -/

/-- Every difficulty level present in a content file maps to a mapping
(else `.get` raises and the run aborts). -/
def cLevelsOK (f : List (String × Val)) : List (String × String) → Bool
  | [] => true
  | (lvl, _) :: rest =>
      (match Val.lookupField lvl f with
       | none => true
       | some (.vobj _) => true
       | some _ => false) && cLevelsOK f rest

/-- A content file the content flow survives. -/
def cFileOK : FileData → Bool
  | .missing => true
  | .parseFail => false
  | .parsed (.vobj f) => cLevelsOK f CONTENT_DIFFICULTY_MAP
  | .parsed _ => true

/-- A question file the question flow survives. -/
def qFileOK : FileData → Bool
  | .missing => true
  | .parseFail => true
  | .parsed (.vobj f) =>
      if f.any (fun p => p.1 == "by_level") then
        qShapeOK ((Val.lookupField "by_level" f).getD .vnull) QUESTION_DIFFICULTY_MAP
      else true
  | .parsed _ => true

/-- The question fingerprints one subtopic contributes (`question_hash`
does not depend on the subtopic id). -/
def subQHashList (s : SubtopicDir) : List String :=
  match s.questions with
  | .parsed (.vobj f) =>
      if f.any (fun p => p.1 == "by_level") then
        (qRowsOf 0 ((Val.lookupField "by_level" f).getD .vnull)
          QUESTION_DIFFICULTY_MAP).map (fun r => r.question_hash)
      else []
  | _ => []

def corpusQHashes (c : List TopicDir) : List String :=
  c.flatMap fun t => t.subs.flatMap subQHashList

theorem cLevelsOK_ok :
    ∀ (m : List (String × String)) (f : List (String × Val)) (sid : Nat),
      cLevelsOK f m = true → ∃ rows, contentRowsFor sid f m = .ok rows
  | [], f, sid, _ => ⟨[], rfl⟩
  | (lvl, db) :: rest, f, sid, h => by
      rw [cLevelsOK, Bool.and_eq_true] at h
      rw [contentRowsFor]
      rcases hl : Val.lookupField lvl f with _ | block
      · exact cLevelsOK_ok rest f sid h.2
      · rw [hl] at h
        rcases block with _ | b | n | str | xs | bf
        case vobj =>
          obtain ⟨rows, hr⟩ := cLevelsOK_ok rest f sid h.2
          rw [hr]
          exact ⟨_, rfl⟩
        all_goals exact absurd h.1 (by simp)

theorem contentRowsFor_sid :
    ∀ (m : List (String × String)) (sid : Nat) (f : List (String × Val))
      (rows : List ContentRow), contentRowsFor sid f m = .ok rows →
      ∀ r ∈ rows, r.subtopic_id = sid
  | [], sid, f, rows, h => by
      simp only [contentRowsFor, Except.ok.injEq] at h
      rw [← h]
      simp
  | (lvl, db) :: rest, sid, f, rows, h => by
      rw [contentRowsFor] at h
      rcases hl : Val.lookupField lvl f with _ | block <;> rw [hl] at h
      · exact contentRowsFor_sid rest sid f rows h
      · rcases block with _ | b | n | str | xs | bf <;> simp at h
        rcases hrest : contentRowsFor sid f rest with e | rows' <;>
          rw [hrest] at h <;> simp at h
        rw [← h]
        intro r hr
        rcases List.mem_cons.mp hr with hx | hx
        · rw [hx]
          rfl
        · exact contentRowsFor_sid rest sid f rows' hrest r hx

theorem contentRowsFor_diffs :
    ∀ (m : List (String × String)) (sid : Nat) (f : List (String × Val))
      (rows : List ContentRow), contentRowsFor sid f m = .ok rows →
      (rows.map fun r => r.difficulty).Sublist (m.map Prod.snd)
  | [], sid, f, rows, h => by
      simp only [contentRowsFor, Except.ok.injEq] at h
      rw [← h]
      simp
  | (lvl, db) :: rest, sid, f, rows, h => by
      rw [contentRowsFor] at h
      rcases hl : Val.lookupField lvl f with _ | block <;> rw [hl] at h
      · rw [List.map_cons]
        exact (contentRowsFor_diffs rest sid f rows h).cons db
      · rcases block with _ | b | n | str | xs | bf <;> simp at h
        rcases hrest : contentRowsFor sid f rest with e | rows' <;>
          rw [hrest] at h <;> simp at h
        rw [← h, List.map_cons, List.map_cons]
        exact (contentRowsFor_diffs rest sid f rows' hrest).cons₂ db

/-- Store wellformedness the first run maintains: duplicate-free
names/keys and id counters strictly above every issued id. -/
structure WFS (S : Store) : Prop where
  tnames : (S.topics.map fun r => r.topic_name).Nodup
  stid_lt : ∀ r ∈ S.subtopics, r.topic_id < S.nextTopicId
  skeys : (S.subtopics.map fun r => (r.topic_id, r.subtopic_name)).Nodup
  sid_lt : ∀ r ∈ S.subtopics, r.subtopic_id < S.nextSubtopicId
  csid_lt : ∀ r ∈ S.content, r.subtopic_id < S.nextSubtopicId
  ckeys : (S.content.map fun r => (r.subtopic_id, r.difficulty)).Nodup
  qkeys : (S.questions.map fun r => r.question_hash).Nodup

theorem WFS.keysOK {S : Store} (h : WFS S) : KeysOK S := ⟨h.ckeys, h.qkeys⟩

theorem wfs_empty : WFS emptyStore := by
  refine ⟨?_, ?_, ?_, ?_, ?_, ?_, ?_⟩ <;> simp [emptyStore]

/-- `T` holds every row `S` holds (row-identically). -/
structure ExtMem (S T : Store) : Prop where
  topics : ∀ r ∈ S.topics, r ∈ T.topics
  subtopics : ∀ r ∈ S.subtopics, r ∈ T.subtopics
  content : ∀ r ∈ S.content, r ∈ T.content
  questions : ∀ r ∈ S.questions, r ∈ T.questions

theorem extMem_refl (S : Store) : ExtMem S S :=
  ⟨fun _ h => h, fun _ h => h, fun _ h => h, fun _ h => h⟩

theorem ExtMem.comp {S T U : Store} (h1 : ExtMem S T) (h2 : ExtMem T U) :
    ExtMem S U :=
  ⟨fun r hr => h2.topics r (h1.topics r hr),
   fun r hr => h2.subtopics r (h1.subtopics r hr),
   fun r hr => h2.content r (h1.content r hr),
   fun r hr => h2.questions r (h1.questions r hr)⟩

theorem findTopic_none {ts : List TopicRow} {name : String}
    (h : name ∉ ts.map fun r => r.topic_name) : findTopic ts name = none := by
  unfold findTopic
  rw [List.find?_eq_none]
  intro r hr
  simp only [beq_iff_eq]
  intro he
  exact h (he ▸ List.mem_map.mpr ⟨r, hr, rfl⟩)

theorem findSubtopic_none {ss : List SubtopicRow} {tid : Nat} {name : String}
    (h : ∀ r ∈ ss, r.topic_id = tid → r.subtopic_name ≠ name) :
    findSubtopic ss tid name = none := by
  unfold findSubtopic
  rw [List.find?_eq_none]
  intro r hr
  simp only [Bool.and_eq_true, beq_iff_eq, not_and]
  exact h r hr

theorem getOrCreateTopic_miss {S : Store} {name : String}
    (h : findTopic S.topics name = none) :
    getOrCreateTopic S name =
      ({ S with topics := S.topics ++ [⟨S.nextTopicId, name⟩],
                nextTopicId := S.nextTopicId + 1 }, S.nextTopicId) := by
  unfold getOrCreateTopic
  rw [h]

theorem getOrCreateSubtopic_miss {S : Store} {tid : Nat} {name : String}
    (h : findSubtopic S.subtopics tid name = none) :
    getOrCreateSubtopic S tid name =
      ({ S with subtopics := S.subtopics ++ [⟨S.nextSubtopicId, tid, name⟩],
                nextSubtopicId := S.nextSubtopicId + 1 }, S.nextSubtopicId) := by
  unfold getOrCreateSubtopic
  rw [h]

theorem upsertContentRow_fresh {l : List ContentRow} {r : ContentRow}
    (h : ∀ x ∈ l, (x.subtopic_id, x.difficulty) ≠ (r.subtopic_id, r.difficulty)) :
    upsertContentRow l r = l ++ [r] := by
  unfold upsertContentRow
  rw [if_neg]
  intro hx
  obtain ⟨x, hxl, hxm⟩ := List.any_eq_true.mp hx
  simp only [contentKeyMatch, Bool.and_eq_true, beq_iff_eq] at hxm
  exact h x hxl (by simp [hxm.1, hxm.2])

theorem upsertQuestionRow_fresh {l : List QuestionRow} {r : QuestionRow}
    (h : ∀ x ∈ l, x.question_hash ≠ r.question_hash) :
    upsertQuestionRow l r = l ++ [r] := by
  unfold upsertQuestionRow
  rw [if_neg]
  intro hx
  obtain ⟨x, hxl, hxm⟩ := List.any_eq_true.mp hx
  simp only [questionKeyMatch, beq_iff_eq] at hxm
  exact h x hxl hxm

theorem upsertContentRows_fresh :
    ∀ {rows : List ContentRow} {S : Store},
      ((S.content ++ rows).map fun r => (r.subtopic_id, r.difficulty)).Nodup →
      upsertContentRows S rows = { S with content := S.content ++ rows } := by
  intro rows
  induction rows with
  | nil => intro S _; simp [upsertContentRows]
  | cons r rest ih =>
      intro S hnd
      have hfresh : ∀ x ∈ S.content,
          (x.subtopic_id, x.difficulty) ≠ (r.subtopic_id, r.difficulty) := by
        intro x hx he
        have h1 : ((S.content ++ [r]).map
            fun r => (r.subtopic_id, r.difficulty)).Nodup := by
          have : (S.content ++ [r]).Sublist (S.content ++ r :: rest) := by
            apply List.Sublist.append_left
            simp
          exact (this.map _).nodup hnd
        rw [List.map_append] at h1
        have := (List.nodup_append.mp h1).2.2
        exact this (List.mem_map.mpr ⟨x, hx, he⟩) (by simp)
      have hstep : upsertContentRows S (r :: rest) =
          upsertContentRows { S with content := S.content ++ [r] } rest := by
        unfold upsertContentRows
        rw [List.foldl_cons, upsertContentRow_fresh hfresh]
      rw [hstep, ih (by simp only [List.append_assoc, List.singleton_append]; exact hnd)]
      simp

theorem upsertQuestionRows_fresh :
    ∀ {rows : List QuestionRow} {S : Store},
      ((S.questions ++ rows).map fun r => r.question_hash).Nodup →
      upsertQuestionRows S rows = { S with questions := S.questions ++ rows } := by
  intro rows
  induction rows with
  | nil => intro S _; simp [upsertQuestionRows]
  | cons r rest ih =>
      intro S hnd
      have hfresh : ∀ x ∈ S.questions, x.question_hash ≠ r.question_hash := by
        intro x hx he
        have h1 : ((S.questions ++ [r]).map fun r => r.question_hash).Nodup := by
          have : (S.questions ++ [r]).Sublist (S.questions ++ r :: rest) := by
            apply List.Sublist.append_left
            simp
          exact (this.map _).nodup hnd
        rw [List.map_append] at h1
        have := (List.nodup_append.mp h1).2.2
        exact this (List.mem_map.mpr ⟨x, hx, he⟩) (by simp)
      have hstep : upsertQuestionRows S (r :: rest) =
          upsertQuestionRows { S with questions := S.questions ++ [r] } rest := by
        unfold upsertQuestionRows
        rw [List.foldl_cons, upsertQuestionRow_fresh hfresh]
      rw [hstep, ih (by simp only [List.append_assoc, List.singleton_append]; exact hnd)]
      simp

theorem upsertQuestionRows_append (S : Store) (a b : List QuestionRow) :
    upsertQuestionRows (upsertQuestionRows S a) b = upsertQuestionRows S (a ++ b) := by
  unfold upsertQuestionRows
  rw [List.foldl_append]

theorem foldl_upsertQuestionRows_flatten :
    ∀ (chunks : List (List QuestionRow)) (S : Store),
      chunks.foldl upsertQuestionRows S = upsertQuestionRows S chunks.flatten
  | [], S => by simp [upsertQuestionRows]
  | a :: rest, S => by
      rw [List.foldl_cons, foldl_upsertQuestionRows_flatten rest,
        upsertQuestionRows_append, List.flatten_cons]

theorem qRowsOfItems_hash (sid sid2 : Nat) (db : String) :
    ∀ qs : List Val,
      (qRowsOfItems sid db qs).map (fun r => r.question_hash) =
      (qRowsOfItems sid2 db qs).map (fun r => r.question_hash)
  | [] => rfl
  | .vobj qf :: qs => by
      rw [qRowsOfItems, qRowsOfItems]
      by_cases ht : ((Val.lookupField "type" qf).getD .vnull).truthy = true
      · rw [if_pos ht, if_pos ht, List.map_cons, List.map_cons,
          qRowsOfItems_hash sid sid2 db qs]
        rfl
      · rw [if_neg ht, if_neg ht]
        exact qRowsOfItems_hash sid sid2 db qs
  | .vnull :: qs => qRowsOfItems_hash sid sid2 db qs
  | .vbool b :: qs => qRowsOfItems_hash sid sid2 db qs
  | .vint n :: qs => qRowsOfItems_hash sid sid2 db qs
  | .vstr s :: qs => qRowsOfItems_hash sid sid2 db qs
  | .varr xs :: qs => qRowsOfItems_hash sid sid2 db qs

theorem qRowsOf_hash (sid sid2 : Nat) (levels : Val) :
    ∀ m : List (String × String),
      (qRowsOf sid levels m).map (fun r => r.question_hash) =
      (qRowsOf sid2 levels m).map (fun r => r.question_hash)
  | [] => rfl
  | (lvl, db) :: rest => by
      rw [qRowsOf, qRowsOf, List.map_append, List.map_append,
        qRowsOf_hash sid sid2 levels rest]
      congr 1
      rcases hpc : Val.pyContains levels lvl with _ | cb
      · rfl
      · rcases cb with _ | _
        · rfl
        · try dsimp only
          rcases hpi : Val.pyIndex levels lvl with _ | block2
          · rfl
          · try dsimp only
            rcases hpg : Val.pyGet block2 "questions" (.varr []) with _ | qsVal
            · rfl
            · try dsimp only
              rcases hpit : Val.pyIter qsVal with _ | qs
              · rfl
              · try dsimp only
                exact qRowsOfItems_hash sid sid2 db qs

theorem content_append_keys_nodup {S : Store} (hW : WFS S)
    {rows : List ContentRow}
    (hsid : ∀ r ∈ rows, r.subtopic_id = S.nextSubtopicId)
    (hdn : (rows.map fun r => r.difficulty).Nodup) :
    ((S.content ++ rows).map fun r => (r.subtopic_id, r.difficulty)).Nodup := by
  rw [List.map_append, List.nodup_append]
  refine ⟨hW.ckeys, ?_, ?_⟩
  · have h1 : rows.map (fun r => (r.subtopic_id, r.difficulty)) =
        (rows.map fun r => r.difficulty).map
          (fun d => (S.nextSubtopicId, d)) := by
      rw [List.map_map]
      exact List.map_congr_left (fun r hr => by
        simp only [Function.comp]
        rw [hsid r hr])
    rw [h1]
    exact hdn.map (fun a b hab => by
      simp only [Prod.mk.injEq] at hab
      exact hab.2)
  · intro k hk
    obtain ⟨r, hr, hkr⟩ := List.mem_map.mp hk
    intro hk2
    obtain ⟨r2, hr2, hkr2⟩ := List.mem_map.mp hk2
    have h1 := hW.csid_lt r hr
    have h2 := hsid r2 hr2
    rw [← hkr2] at hkr
    have : r.subtopic_id = r2.subtopic_id := by
      have := congrArg Prod.fst hkr
      simpa using this
    omega

theorem wfs_add_sub_content {S : Store} (hW : WFS S) {tid : Nat} {name : String}
    {rows : List ContentRow}
    (htid : tid < S.nextTopicId)
    (hfresh : ∀ r ∈ S.subtopics, r.topic_id = tid → r.subtopic_name ≠ name)
    (hsid : ∀ r ∈ rows, r.subtopic_id = S.nextSubtopicId)
    (hdn : (rows.map fun r => r.difficulty).Nodup) :
    WFS ⟨S.topics, S.subtopics ++ [⟨S.nextSubtopicId, tid, name⟩],
         S.content ++ rows, S.questions, S.nextTopicId, S.nextSubtopicId + 1⟩ := by
  refine ⟨hW.tnames, ?_, ?_, ?_, ?_, ?_, hW.qkeys⟩
  · intro r hr
    rcases List.mem_append.mp hr with h | h
    · exact hW.stid_lt r h
    · rw [List.mem_singleton] at h
      rw [h]
      exact htid
  · rw [List.map_append, List.nodup_append]
    refine ⟨hW.skeys, by simp, ?_⟩
    intro k hk
    obtain ⟨r, hr, hkr⟩ := List.mem_map.mp hk
    simp only [List.map_cons, List.map_nil, List.mem_singleton]
    intro hk2
    rw [hk2] at hkr
    have h1 : r.topic_id = tid := by
      have := congrArg Prod.fst hkr
      simpa using this
    have h2 : r.subtopic_name = name := by
      have := congrArg Prod.snd hkr
      simpa using this
    exact hfresh r hr h1 h2
  · intro r hr
    dsimp only
    rcases List.mem_append.mp hr with h | h
    · have := hW.sid_lt r h
      omega
    · rw [List.mem_singleton] at h
      rw [h]
      dsimp only
      omega
  · intro r hr
    dsimp only
    rcases List.mem_append.mp hr with h | h
    · have := hW.csid_lt r h
      omega
    · have := hsid r h
      omega
  · exact content_append_keys_nodup hW hsid hdn

theorem build_content_subtopic (tid : Nat) (s : SubtopicDir) (st : RunState)
    (hW : WFS st.store) (hc : st.crashed = none)
    (hcf : cFileOK s.chunks = true)
    (htid : tid < st.store.nextTopicId)
    (hfresh : ∀ r ∈ st.store.subtopics, r.topic_id = tid →
      r.subtopic_name ≠ s.name) :
    ∃ rows : List ContentRow,
      (processContentSubtopic allOk tid s st).store =
        ⟨st.store.topics,
         st.store.subtopics ++ [⟨st.store.nextSubtopicId, tid, s.name⟩],
         st.store.content ++ rows, st.store.questions,
         st.store.nextTopicId, st.store.nextSubtopicId + 1⟩ ∧
      (processContentSubtopic allOk tid s st).crashed = none ∧
      (∀ r ∈ rows, r.subtopic_id = st.store.nextSubtopicId) ∧
      (rows.map fun r => r.difficulty).Nodup ∧
      ∀ T : Store, ExtMem (processContentSubtopic allOk tid s st).store T →
        (T.subtopics.map fun r => (r.topic_id, r.subtopic_name)).Nodup →
        findSubtopic T.subtopics tid s.name =
          some ⟨st.store.nextSubtopicId, tid, s.name⟩ ∧
        ContentSat T st.store.nextSubtopicId s.chunks := by
  have hfnone : findSubtopic st.store.subtopics tid s.name = none :=
    findSubtopic_none hfresh
  unfold processContentSubtopic
  rw [if_neg (isSome_false_of_none hc), getOrCreateSubtopic_miss hfnone]
  dsimp only
  rcases hch : s.chunks with _ | _ | data
  · dsimp only
    refine ⟨[], by rw [List.append_nil], hc, by simp, by simp, ?_⟩
    intro T hext hnd
    refine ⟨findSubtopic_of_mem (hext.subtopics ⟨st.store.nextSubtopicId, tid, s.name⟩ (by simp)) hnd, ?_⟩
    exact trivial
  · rw [hch] at hcf
    exact absurd hcf (by simp [cFileOK])
  · rw [hch] at hcf
    rcases data with _ | b | n | strv | xs | f
    case vobj =>
      dsimp only
      have hlv : cLevelsOK f CONTENT_DIFFICULTY_MAP = true := hcf
      obtain ⟨rows, hok⟩ :=
        cLevelsOK_ok CONTENT_DIFFICULTY_MAP f st.store.nextSubtopicId hlv
      have hsidr := contentRowsFor_sid CONTENT_DIFFICULTY_MAP
        st.store.nextSubtopicId f rows hok
      have hdnr : (rows.map fun r => r.difficulty).Nodup :=
        (contentRowsFor_diffs CONTENT_DIFFICULTY_MAP st.store.nextSubtopicId
          f rows hok).nodup (by decide)
      rw [hok]
      dsimp only
      by_cases he : rows.isEmpty = true
      · rw [if_pos he]
        rw [List.isEmpty_iff] at he
        subst he
        refine ⟨[], by rw [List.append_nil], hc, by simp, by simp, ?_⟩
        intro T hext hnd
        refine ⟨findSubtopic_of_mem (hext.subtopics ⟨st.store.nextSubtopicId, tid, s.name⟩ (by simp)) hnd, ?_⟩
        exact ⟨[], hok, by simp⟩
      · rw [if_neg he, safeUpsertContent_allOk]
        dsimp only
        rw [if_neg (isSome_false_of_none hc)]
        have hups : upsertContentRows
            { st.store with
                subtopics := st.store.subtopics ++
                  [⟨st.store.nextSubtopicId, tid, s.name⟩],
                nextSubtopicId := st.store.nextSubtopicId + 1 } rows =
            ⟨st.store.topics,
             st.store.subtopics ++ [⟨st.store.nextSubtopicId, tid, s.name⟩],
             st.store.content ++ rows, st.store.questions,
             st.store.nextTopicId, st.store.nextSubtopicId + 1⟩ :=
          upsertContentRows_fresh (content_append_keys_nodup hW hsidr hdnr)
        rw [hups]
        refine ⟨rows, rfl, hc, hsidr, hdnr, ?_⟩
        intro T hext hnd
        refine ⟨findSubtopic_of_mem (hext.subtopics ⟨st.store.nextSubtopicId, tid, s.name⟩ (by simp)) hnd, ?_⟩
        refine ⟨rows, hok, ?_⟩
        intro r hr
        exact hext.content r (by
          simp only [List.mem_append]
          exact Or.inr hr)
    all_goals
      dsimp only
      refine ⟨[], by rw [List.append_nil], hc, by simp, by simp, ?_⟩
      intro T hext hnd
      refine ⟨findSubtopic_of_mem (hext.subtopics ⟨st.store.nextSubtopicId, tid, s.name⟩ (by simp)) hnd, ?_⟩
      exact trivial

/-- Fold companion of `build_content_subtopic`: the subtopic loop of a
fresh topic appends one subtopic row and one content batch per
directory and leaves every other table and the topic counter alone. -/
theorem build_content_subfold (tid : Nat) :
    ∀ (subs : List SubtopicDir) (st : RunState),
      WFS st.store → st.crashed = none →
      (∀ s ∈ subs, cFileOK s.chunks = true) →
      tid < st.store.nextTopicId →
      (subs.map fun s => s.name).Nodup →
      (∀ s ∈ subs, ∀ r ∈ st.store.subtopics, r.topic_id = tid →
        r.subtopic_name ≠ s.name) →
      ∀ F : RunState,
      F = List.foldl (fun acc sub => processContentSubtopic allOk tid sub acc)
            st subs →
      WFS F.store ∧ F.crashed = none ∧
      F.store.topics = st.store.topics ∧
      F.store.questions = st.store.questions ∧
      F.store.nextTopicId = st.store.nextTopicId ∧
      ExtMem st.store F.store ∧
      ∀ T : Store, ExtMem F.store T →
        (T.subtopics.map fun r => (r.topic_id, r.subtopic_name)).Nodup →
        ∀ s ∈ subs, ∃ sid,
          findSubtopic T.subtopics tid s.name = some ⟨sid, tid, s.name⟩ ∧
          ContentSat T sid s.chunks
  | [], st, hW, hc, _, _, _, _, F, hF => by
      subst hF
      exact ⟨hW, hc, rfl, rfl, rfl, extMem_refl _,
        fun T _ _ s hs => absurd hs (by simp)⟩
  | s :: rest, st, hW, hc, hcf, htid, hnames, hfresh, F, hF => by
      obtain ⟨rows, hst, hcr, hsid, hdn, hpay⟩ :=
        build_content_subtopic tid s st hW hc (hcf s (by simp)) htid
          (fun r hr => hfresh s (by simp) r hr)
      rw [List.map_cons, List.nodup_cons] at hnames
      have hWs : WFS (processContentSubtopic allOk tid s st).store := by
        rw [hst]
        exact wfs_add_sub_content hW htid
          (fun r hr => hfresh s (by simp) r hr) hsid hdn
      have htid2 : tid < (processContentSubtopic allOk tid s st).store.nextTopicId := by
        rw [hst]
        exact htid
      have hfresh2 : ∀ x ∈ rest,
          ∀ r ∈ (processContentSubtopic allOk tid s st).store.subtopics,
          r.topic_id = tid → r.subtopic_name ≠ x.name := by
        intro x hx r hr
        rw [hst] at hr
        rcases List.mem_append.mp hr with h | h
        · exact hfresh x (by simp [hx]) r h
        · rw [List.mem_singleton] at h
          subst h
          intro _ he
          dsimp only at he
          exact hnames.1 (he ▸ List.mem_map.mpr ⟨x, hx, rfl⟩)
      have hext1 : ExtMem st.store (processContentSubtopic allOk tid s st).store := by
        rw [hst]
        exact ⟨fun r hr => hr, fun r hr => by simp [hr], fun r hr => by simp [hr],
          fun r hr => hr⟩
      obtain ⟨hWf, hcf2, htop, hq, hnt, hext2, hpay2⟩ :=
        build_content_subfold tid rest (processContentSubtopic allOk tid s st)
          hWs hcr (fun x hx => hcf x (by simp [hx])) htid2 hnames.2 hfresh2
          F (by rw [hF, List.foldl_cons])
      refine ⟨hWf, hcf2, htop.trans (by rw [hst]), hq.trans (by rw [hst]),
        hnt.trans (by rw [hst]), hext1.comp hext2, ?_⟩
      intro T hext hnd x hx
      rcases List.mem_cons.mp hx with rfl | hx
      · exact ⟨st.store.nextSubtopicId, hpay T (hext2.comp hext) hnd⟩
      · exact hpay2 T hext hnd x hx


theorem wfs_add_topic {S : Store} (hW : WFS S) {name : String}
    (hfresh : name ∉ S.topics.map fun r => r.topic_name) :
    WFS ⟨S.topics ++ [⟨S.nextTopicId, name⟩], S.subtopics, S.content,
         S.questions, S.nextTopicId + 1, S.nextSubtopicId⟩ := by
  refine ⟨?_, ?_, hW.skeys, hW.sid_lt, hW.csid_lt, hW.ckeys, hW.qkeys⟩
  · rw [List.map_append, List.nodup_append]
    refine ⟨hW.tnames, by simp, ?_⟩
    intro k hk
    simp only [List.map_cons, List.map_nil, List.mem_singleton]
    intro hk2
    subst hk2
    exact hfresh hk
  · intro r hr
    dsimp only
    have := hW.stid_lt r hr
    omega

/-- The content pass over a topic whose name is new: it appends the
topic row, then runs the subtopic loop, touching neither the question
table nor any previously stored row. -/
theorem build_content_topic (t : TopicDir) (st : RunState)
    (hW : WFS st.store) (hc : st.crashed = none)
    (hcf : ∀ s ∈ t.subs, cFileOK s.chunks = true)
    (hsn : (t.subs.map fun s => s.name).Nodup)
    (hfresh : t.name ∉ st.store.topics.map fun r => r.topic_name) :
    WFS (processContentTopic allOk t st).store ∧
    (processContentTopic allOk t st).crashed = none ∧
    (processContentTopic allOk t st).store.questions = st.store.questions ∧
    ExtMem st.store (processContentTopic allOk t st).store ∧
    (∀ x, x ∈ (processContentTopic allOk t st).store.topics →
      x ∈ st.store.topics ∨ x.topic_name = t.name) ∧
    ∀ T : Store, ExtMem (processContentTopic allOk t st).store T →
      (T.topics.map fun r => r.topic_name).Nodup →
      (T.subtopics.map fun r => (r.topic_id, r.subtopic_name)).Nodup →
      ∃ tid, findTopic T.topics t.name = some ⟨tid, t.name⟩ ∧
      ∀ s ∈ t.subs, ∃ sid,
        findSubtopic T.subtopics tid s.name = some ⟨sid, tid, s.name⟩ ∧
        ContentSat T sid s.chunks := by
  have hfnone : findTopic st.store.topics t.name = none := findTopic_none hfresh
  unfold processContentTopic
  rw [if_neg (isSome_false_of_none hc), getOrCreateTopic_miss hfnone]
  dsimp only
  have hW2 : WFS (⟨st.store.topics ++ [⟨st.store.nextTopicId, t.name⟩],
      st.store.subtopics, st.store.content, st.store.questions,
      st.store.nextTopicId + 1, st.store.nextSubtopicId⟩ : Store) :=
    wfs_add_topic hW hfresh
  obtain ⟨hWf, hcf2, htop, hq, hnt, hext2, hpay2⟩ :=
    build_content_subfold st.store.nextTopicId t.subs
      ⟨⟨st.store.topics ++ [⟨st.store.nextTopicId, t.name⟩],
        st.store.subtopics, st.store.content, st.store.questions,
        st.store.nextTopicId + 1, st.store.nextSubtopicId⟩,
       st.events ++ [.topicUpsert t.name st.store
        ⟨st.store.topics ++ [⟨st.store.nextTopicId, t.name⟩],
         st.store.subtopics, st.store.content, st.store.questions,
         st.store.nextTopicId + 1, st.store.nextSubtopicId⟩],
       st.log ++ [⟨.info, "Processing topic: " ++ t.name⟩],
       st.attempts, st.delays, st.crashed⟩
      hW2 hc hcf (by dsimp only; omega) hsn
      (by
        intro s hs r hr he
        dsimp only at hr
        have := hW.stid_lt r hr
        omega)
      _ rfl
  refine ⟨hWf, hcf2, hq.trans rfl, ?_, ?_, ?_⟩
  · refine ExtMem.comp ?_ hext2
    exact ⟨fun r hr => by simp [hr], fun r hr => hr, fun r hr => hr,
      fun r hr => hr⟩
  · intro x hx
    rw [htop] at hx
    dsimp only at hx
    rcases List.mem_append.mp hx with h | h
    · exact Or.inl h
    · rw [List.mem_singleton] at h
      subst h
      exact Or.inr rfl
  · intro T hext htn hsk
    refine ⟨st.store.nextTopicId, ?_, fun s hs => hpay2 T hext hsk s hs⟩
    have hmem : (⟨st.store.nextTopicId, t.name⟩ : TopicRow) ∈ T.topics := by
      apply hext.topics
      rw [htop]
      simp
    exact findTopic_of_mem hmem htn


/-- The content pass over a corpus of pairwise-fresh topic names. -/
theorem build_content_fold :
    ∀ (ts : List TopicDir) (st : RunState),
      WFS st.store → st.crashed = none →
      (∀ t ∈ ts, ∀ s ∈ t.subs, cFileOK s.chunks = true) →
      (∀ t ∈ ts, (t.subs.map fun s => s.name).Nodup) →
      (ts.map fun t => t.name).Nodup →
      (∀ t ∈ ts, t.name ∉ st.store.topics.map fun r => r.topic_name) →
      ∀ F : RunState,
      F = List.foldl (fun acc t => processContentTopic allOk t acc) st ts →
      WFS F.store ∧ F.crashed = none ∧
      F.store.questions = st.store.questions ∧
      ExtMem st.store F.store ∧
      (∀ x ∈ F.store.topics, x ∈ st.store.topics ∨
        ∃ t, t ∈ ts ∧ x.topic_name = t.name) ∧
      ∀ T : Store, ExtMem F.store T →
        (T.topics.map fun r => r.topic_name).Nodup →
        (T.subtopics.map fun r => (r.topic_id, r.subtopic_name)).Nodup →
        ∀ t ∈ ts, ∃ tid, findTopic T.topics t.name = some ⟨tid, t.name⟩ ∧
          ∀ s ∈ t.subs, ∃ sid,
            findSubtopic T.subtopics tid s.name = some ⟨sid, tid, s.name⟩ ∧
            ContentSat T sid s.chunks
  | [], st, hW, hc, _, _, _, _, F, hF => by
      subst hF
      exact ⟨hW, hc, rfl, extMem_refl _, fun x hx => Or.inl hx,
        fun T _ _ _ t ht => absurd ht (by simp)⟩
  | t :: rest, st, hW, hc, hcf, hsn, htn, hfresh, F, hF => by
      rw [List.map_cons, List.nodup_cons] at htn
      obtain ⟨hW1, hc1, hq1, hext1, htch1, hpay1⟩ :=
        build_content_topic t st hW hc (hcf t (by simp)) (hsn t (by simp))
          (hfresh t (by simp))
      have hfresh2 : ∀ x ∈ rest, x.name ∉
          (processContentTopic allOk t st).store.topics.map
            fun r => r.topic_name := by
        intro x hx hmem
        obtain ⟨r, hr, hname⟩ := List.mem_map.mp hmem
        rcases htch1 r hr with h | h
        · exact hfresh x (by simp [hx]) (hname ▸ List.mem_map.mpr ⟨r, h, rfl⟩)
        · rw [h] at hname
          exact htn.1 (hname ▸ List.mem_map.mpr ⟨x, hx, rfl⟩)
      obtain ⟨hWf, hcf2, hqf2, hext2, htch2, hpay2⟩ :=
        build_content_fold rest (processContentTopic allOk t st)
          hW1 hc1 (fun x hx => hcf x (by simp [hx]))
          (fun x hx => hsn x (by simp [hx])) htn.2 hfresh2
          F (by rw [hF, List.foldl_cons])
      refine ⟨hWf, hcf2, hqf2.trans hq1, hext1.comp hext2, ?_, ?_⟩
      · intro x hx
        rcases htch2 x hx with h | ⟨t2, ht2, hn2⟩
        · rcases htch1 x h with h2 | h2
          · exact Or.inl h2
          · exact Or.inr ⟨t, by simp, h2⟩
        · exact Or.inr ⟨t2, by simp [ht2], hn2⟩
      · intro T hext htnm hskm x hx
        rcases List.mem_cons.mp hx with rfl | hx
        · exact hpay1 T (hext2.comp hext) htnm hskm
        · exact hpay2 T hext htnm hskm x hx

/-- The whole `content_ingestion.py:ingest` run over fresh topic
names: wellformed output, no crash, and every topic and subtopic of
the corpus resolvable with its content rows stored. -/
theorem build_runContent (c : List TopicDir) (st : RunState)
    (hW : WFS st.store) (hc : st.crashed = none)
    (hcf : ∀ t ∈ c, ∀ s ∈ t.subs, cFileOK s.chunks = true)
    (hsn : ∀ t ∈ c, (t.subs.map fun s => s.name).Nodup)
    (htn : (c.map fun t => t.name).Nodup)
    (hfresh : ∀ t ∈ c, t.name ∉ st.store.topics.map fun r => r.topic_name) :
    WFS (runContent allOk c st).store ∧
    (runContent allOk c st).crashed = none ∧
    (runContent allOk c st).store.questions = st.store.questions ∧
    ExtMem st.store (runContent allOk c st).store ∧
    ∀ T : Store, ExtMem (runContent allOk c st).store T →
      (T.topics.map fun r => r.topic_name).Nodup →
      (T.subtopics.map fun r => (r.topic_id, r.subtopic_name)).Nodup →
      ∀ t ∈ c, ∃ tid, findTopic T.topics t.name = some ⟨tid, t.name⟩ ∧
        ∀ s ∈ t.subs, ∃ sid,
          findSubtopic T.subtopics tid s.name = some ⟨sid, tid, s.name⟩ ∧
          ContentSat T sid s.chunks := by
  obtain ⟨hWf, hcr, hq, hext, _, hpay⟩ :=
    build_content_fold c st hW hc hcf hsn htn hfresh _ rfl
  unfold runContent
  rw [if_neg (isSome_false_of_none hcr)]
  exact ⟨hWf, hcr, hq, hext, hpay⟩


/-- The question rows one subtopic directory yields under subtopic id
`sid` (empty unless the file parses to a mapping with `by_level`). -/
def qRowsOfSub (sid : Nat) (s : SubtopicDir) : List QuestionRow :=
  match s.questions with
  | .parsed (.vobj f) =>
      if f.any (fun p => p.1 == "by_level") then
        qRowsOf sid ((Val.lookupField "by_level" f).getD .vnull)
          QUESTION_DIFFICULTY_MAP
      else []
  | _ => []

theorem qRowsOfSub_hash (sid : Nat) (s : SubtopicDir) :
    (qRowsOfSub sid s).map (fun r => r.question_hash) = subQHashList s := by
  unfold qRowsOfSub subQHashList
  rcases s.questions with _ | _ | d
  · rfl
  · rfl
  · rcases d with _ | b | n | str | xs | f
    case vobj =>
      dsimp only
      by_cases hb : f.any (fun p => p.1 == "by_level") = true
      · rw [if_pos hb, if_pos hb]
        exact qRowsOf_hash sid 0 _ QUESTION_DIFFICULTY_MAP
      · rw [if_neg hb, if_neg hb]
        rfl
    all_goals rfl

theorem wfs_add_questions {S : Store} (hW : WFS S) {rows : List QuestionRow}
    (h : ((S.questions ++ rows).map fun r => r.question_hash).Nodup) :
    WFS ⟨S.topics, S.subtopics, S.content, S.questions ++ rows,
         S.nextTopicId, S.nextSubtopicId⟩ :=
  ⟨hW.tnames, hW.stid_lt, hW.skeys, hW.sid_lt, hW.csid_lt, hW.ckeys, h⟩

/-- Net effect of the question flow after the level loop: the emitted
full batches and the final partial batch together append exactly the
assembled rows when their hashes are fresh. -/
theorem qSubTail_allOk (sid : Nat) (levels : Val) (nm : String) (st1 : RunState)
    (hc : st1.crashed = none)
    (hshape : qShapeOK levels QUESTION_DIFFICULTY_MAP = true)
    (hhash : ((st1.store.questions ++
        qRowsOf sid levels QUESTION_DIFFICULTY_MAP).map
        fun r => r.question_hash).Nodup) :
    ∀ r : List QuestionRow × RunState,
      r = qLevelLoop allOk sid levels QUESTION_DIFFICULTY_MAP [] st1 →
      (if r.2.crashed.isSome then r.2
       else if r.1.isEmpty then r.2
       else
         if (safeUpsertQuestions allOk r.1 r.2).crashed.isSome then
           safeUpsertQuestions allOk r.1 r.2
         else { safeUpsertQuestions allOk r.1 r.2 with
                  log := (safeUpsertQuestions allOk r.1 r.2).log ++
                    [⟨.info, "Inserted final batch of questions for " ++ nm⟩] }).store =
        ⟨st1.store.topics, st1.store.subtopics, st1.store.content,
         st1.store.questions ++ qRowsOf sid levels QUESTION_DIFFICULTY_MAP,
         st1.store.nextTopicId, st1.store.nextSubtopicId⟩ ∧
      (if r.2.crashed.isSome then r.2
       else if r.1.isEmpty then r.2
       else
         if (safeUpsertQuestions allOk r.1 r.2).crashed.isSome then
           safeUpsertQuestions allOk r.1 r.2
         else { safeUpsertQuestions allOk r.1 r.2 with
                  log := (safeUpsertQuestions allOk r.1 r.2).log ++
                    [⟨.info, "Inserted final batch of questions for " ++ nm⟩] }).crashed =
        none := by
  intro r hR
  have hll := qLevelLoop_allOk sid levels QUESTION_DIFFICULTY_MAP [] st1 hc hshape
  rw [← hR] at hll
  obtain ⟨h1, _, h3, h4⟩ := hll
  rw [if_neg (isSome_false_of_none h3)]
  have hcc : ((flushChunks [] (qRowsOf sid levels
      QUESTION_DIFFICULTY_MAP)).1.flatten : List QuestionRow) ++
      (flushChunks [] (qRowsOf sid levels QUESTION_DIFFICULTY_MAP)).2 =
      qRowsOf sid levels QUESTION_DIFFICULTY_MAP := by
    have h := flushChunks_concat (qRowsOf sid levels QUESTION_DIFFICULTY_MAP) []
    rwa [List.nil_append] at h
  by_cases he : r.1.isEmpty = true
  · rw [if_pos he]
    refine ⟨?_, h3⟩
    have hfl : (flushChunks [] (qRowsOf sid levels
        QUESTION_DIFFICULTY_MAP)).1.flatten =
        qRowsOf sid levels QUESTION_DIFFICULTY_MAP := by
      rw [h1, List.isEmpty_iff] at he
      rw [he, List.append_nil] at hcc
      exact hcc
    rw [h4, foldl_upsertQuestionRows_flatten, hfl,
      upsertQuestionRows_fresh hhash]
  · rw [if_neg he, safeUpsertQuestions_allOk]
    dsimp only
    rw [if_neg (isSome_false_of_none h3)]
    refine ⟨?_, h3⟩
    rw [h4, h1, foldl_upsertQuestionRows_flatten, upsertQuestionRows_append,
      hcc, upsertQuestionRows_fresh hhash]

/-- One subtopic of the question pass over an already-resolved
hierarchy: it appends exactly its assembled rows to the question table
and nothing else, and any store extending the result satisfies the
subtopic\'s question saturation. -/
theorem build_question_subtopic (tid sid : Nat) (s : SubtopicDir) (st : RunState)
    (hc : st.crashed = none)
    (hqf : qFileOK s.questions = true)
    (hfind : findSubtopic st.store.subtopics tid s.name =
      some ⟨sid, tid, s.name⟩)
    (hhash : ((st.store.questions ++ qRowsOfSub sid s).map
      fun r => r.question_hash).Nodup) :
    (processQuestionSubtopic allOk tid s st).store =
      ⟨st.store.topics, st.store.subtopics, st.store.content,
       st.store.questions ++ qRowsOfSub sid s,
       st.store.nextTopicId, st.store.nextSubtopicId⟩ ∧
    (processQuestionSubtopic allOk tid s st).crashed = none ∧
    ∀ T : Store, ExtMem (processQuestionSubtopic allOk tid s st).store T →
      QuestionSat T sid s.questions := by
  unfold processQuestionSubtopic
  rw [if_neg (isSome_false_of_none hc), getOrCreateSubtopic_hit hfind]
  dsimp only
  rcases hqd : s.questions with _ | _ | data
  · dsimp only
    have hrows : qRowsOfSub sid s = [] := by
      unfold qRowsOfSub
      rw [hqd]
    rw [hrows, List.append_nil]
    exact ⟨rfl, hc, fun T _ => trivial⟩
  · dsimp only
    have hrows : qRowsOfSub sid s = [] := by
      unfold qRowsOfSub
      rw [hqd]
    rw [hrows, List.append_nil]
    exact ⟨rfl, hc, fun T _ => trivial⟩
  · rw [hqd] at hqf
    rcases data with _ | b | n | strv | xs | f
    case vobj =>
      dsimp only
      by_cases hb : f.any (fun p => p.1 == "by_level") = true
      · rw [if_pos hb]
        have hshape : qShapeOK ((Val.lookupField "by_level" f).getD .vnull)
            QUESTION_DIFFICULTY_MAP = true := by
          simpa [qFileOK, hb] using hqf
        have hrows : qRowsOfSub sid s =
            qRowsOf sid ((Val.lookupField "by_level" f).getD .vnull)
              QUESTION_DIFFICULTY_MAP := by
          unfold qRowsOfSub
          rw [hqd]
          dsimp only
          rw [if_pos hb]
        rw [hrows] at hhash
        obtain ⟨hs, hcr⟩ := qSubTail_allOk sid
          ((Val.lookupField "by_level" f).getD .vnull) s.name
          ⟨st.store,
           st.events ++ [.subtopicUpsert tid s.name st.store st.store],
           st.log ++ [⟨.info, "Processing subtopic: " ++ s.name⟩],
           st.attempts, st.delays, st.crashed⟩
          hc hshape hhash _ rfl
        rw [hrows]
        refine ⟨hs, hcr, ?_⟩
        intro T hext
        show if f.any (fun p => p.1 == "by_level") then
            qShapeOK ((Val.lookupField "by_level" f).getD .vnull)
              QUESTION_DIFFICULTY_MAP = true ∧
            ∀ q ∈ qRowsOf sid ((Val.lookupField "by_level" f).getD .vnull)
              QUESTION_DIFFICULTY_MAP, q ∈ T.questions
          else True
        rw [if_pos hb]
        refine ⟨hshape, ?_⟩
        intro q hq
        exact hext.questions q
          (by rw [hs]; exact List.mem_append.mpr (Or.inr hq))
      · rw [if_neg hb]
        have hrows : qRowsOfSub sid s = [] := by
          unfold qRowsOfSub
          rw [hqd]
          dsimp only
          rw [if_neg hb]
        rw [hrows, List.append_nil]
        refine ⟨rfl, hc, ?_⟩
        intro T _
        show if f.any (fun p => p.1 == "by_level") then
            qShapeOK ((Val.lookupField "by_level" f).getD .vnull)
              QUESTION_DIFFICULTY_MAP = true ∧
            ∀ q ∈ qRowsOf sid ((Val.lookupField "by_level" f).getD .vnull)
              QUESTION_DIFFICULTY_MAP, q ∈ T.questions
          else True
        rw [if_neg hb]
        trivial
    all_goals
      dsimp only
      have hrows : qRowsOfSub sid s = [] := by
        unfold qRowsOfSub
        rw [hqd]
      rw [hrows, List.append_nil]
      exact ⟨rfl, hc, fun T _ => trivial⟩


/-- The question pass over the subtopics of one resolved topic: the
hierarchy and content tables are untouched and the question table gains
exactly the subtopic fingerprints, in order. -/
theorem build_question_subfold (tid : Nat) :
    ∀ (subs : List SubtopicDir) (st : RunState),
      st.crashed = none →
      (∀ s ∈ subs, qFileOK s.questions = true) →
      (∀ s ∈ subs, ∃ sid, findSubtopic st.store.subtopics tid s.name =
        some ⟨sid, tid, s.name⟩) →
      ((st.store.questions.map fun r => r.question_hash) ++
        subs.flatMap subQHashList).Nodup →
      ∀ F : RunState,
      F = List.foldl (fun acc sub => processQuestionSubtopic allOk tid sub acc)
            st subs →
      F.store.topics = st.store.topics ∧
      F.store.subtopics = st.store.subtopics ∧
      F.store.content = st.store.content ∧
      F.store.nextTopicId = st.store.nextTopicId ∧
      F.store.nextSubtopicId = st.store.nextSubtopicId ∧
      (F.store.questions.map fun r => r.question_hash) =
        (st.store.questions.map fun r => r.question_hash) ++
          subs.flatMap subQHashList ∧
      (∀ q ∈ st.store.questions, q ∈ F.store.questions) ∧
      F.crashed = none ∧
      ∀ T : Store, ExtMem F.store T →
        ∀ s ∈ subs, ∃ sid,
          findSubtopic st.store.subtopics tid s.name = some ⟨sid, tid, s.name⟩ ∧
          QuestionSat T sid s.questions
  | [], st, hc, _, _, _, F, hF => by
      subst hF
      exact ⟨rfl, rfl, rfl, rfl, rfl, by simp, fun q hq => hq, hc,
        fun T _ s hs => absurd hs (by simp)⟩
  | s :: rest, st, hc, hqf, hfind, hhash, F, hF => by
      obtain ⟨sid, hfs⟩ := hfind s (by simp)
      have hhs : ((st.store.questions ++ qRowsOfSub sid s).map
          fun r => r.question_hash).Nodup := by
        rw [List.map_append, qRowsOfSub_hash]
        have hsub : ((st.store.questions.map fun r => r.question_hash) ++
            subQHashList s).Sublist
            ((st.store.questions.map fun r => r.question_hash) ++
              (s :: rest).flatMap subQHashList) := by
          rw [List.flatMap_cons, ← List.append_assoc]
          exact List.sublist_append_left _ _
        exact hsub.nodup hhash
      obtain ⟨hs1, hc1, hpay1⟩ :=
        build_question_subtopic tid sid s st hc (hqf s (by simp)) hfs hhs
      have hq1 : ((processQuestionSubtopic allOk tid s st).store.questions.map
          fun r => r.question_hash) =
          (st.store.questions.map fun r => r.question_hash) ++
            subQHashList s := by
        rw [hs1]
        dsimp only
        rw [List.map_append, qRowsOfSub_hash]
      have hhash2 : (((processQuestionSubtopic allOk tid s st).store.questions.map
          fun r => r.question_hash) ++ rest.flatMap subQHashList).Nodup := by
        rw [hq1, List.append_assoc]
        rw [List.flatMap_cons] at hhash
        exact hhash
      have hsub1 : (processQuestionSubtopic allOk tid s st).store.subtopics =
          st.store.subtopics := by
        rw [hs1]
      have hfind2 : ∀ x ∈ rest, ∃ sid2,
          findSubtopic (processQuestionSubtopic allOk tid s st).store.subtopics
            tid x.name = some ⟨sid2, tid, x.name⟩ := by
        intro x hx
        obtain ⟨sid2, hfx⟩ := hfind x (by simp [hx])
        exact ⟨sid2, by rw [hsub1]; exact hfx⟩
      obtain ⟨ht2, hsub2, hco2, hnt2, hns2, hqh2, hqm2, hcr2, hpay2⟩ :=
        build_question_subfold tid rest (processQuestionSubtopic allOk tid s st)
          hc1 (fun x hx => hqf x (by simp [hx])) hfind2 hhash2
          F (by rw [hF, List.foldl_cons])
      refine ⟨ht2.trans (by rw [hs1]), hsub2.trans hsub1,
        hco2.trans (by rw [hs1]), hnt2.trans (by rw [hs1]),
        hns2.trans (by rw [hs1]), ?_, ?_, hcr2, ?_⟩
      · rw [hqh2, hq1, List.flatMap_cons, List.append_assoc]
      · intro q hq
        apply hqm2
        rw [hs1]
        exact List.mem_append.mpr (Or.inl hq)
      · intro T hext x hx
        have hext1 : ExtMem (processQuestionSubtopic allOk tid s st).store
            F.store :=
          ⟨fun q hq => ht2.symm ▸ hq, fun q hq => hsub2.symm ▸ hq,
           fun q hq => hco2.symm ▸ hq, hqm2⟩
        rcases List.mem_cons.mp hx with rfl | hx
        · exact ⟨sid, hfs, hpay1 T (hext1.comp hext)⟩
        · obtain ⟨sid2, hf2, hqs2⟩ := hpay2 T hext x hx
          exact ⟨sid2, by rw [← hsub1]; exact hf2, hqs2⟩


/-- One topic of the question pass over an already-built hierarchy. -/
theorem build_question_topic (t : TopicDir) (tid : Nat) (st : RunState)
    (hc : st.crashed = none)
    (hqf : ∀ s ∈ t.subs, qFileOK s.questions = true)
    (hfind : findTopic st.store.topics t.name = some ⟨tid, t.name⟩)
    (hsubfind : ∀ s ∈ t.subs, ∃ sid,
      findSubtopic st.store.subtopics tid s.name = some ⟨sid, tid, s.name⟩)
    (hhash : ((st.store.questions.map fun r => r.question_hash) ++
      t.subs.flatMap subQHashList).Nodup) :
    (processQuestionTopic allOk t st).store.topics = st.store.topics ∧
    (processQuestionTopic allOk t st).store.subtopics = st.store.subtopics ∧
    (processQuestionTopic allOk t st).store.content = st.store.content ∧
    (processQuestionTopic allOk t st).store.nextTopicId = st.store.nextTopicId ∧
    (processQuestionTopic allOk t st).store.nextSubtopicId =
      st.store.nextSubtopicId ∧
    ((processQuestionTopic allOk t st).store.questions.map
        fun r => r.question_hash) =
      (st.store.questions.map fun r => r.question_hash) ++
        t.subs.flatMap subQHashList ∧
    (∀ q ∈ st.store.questions, q ∈ (processQuestionTopic allOk t st).store.questions) ∧
    (processQuestionTopic allOk t st).crashed = none ∧
    ∀ T : Store, ExtMem (processQuestionTopic allOk t st).store T →
      ∀ s ∈ t.subs, ∃ sid,
        findSubtopic st.store.subtopics tid s.name = some ⟨sid, tid, s.name⟩ ∧
        QuestionSat T sid s.questions := by
  unfold processQuestionTopic
  rw [if_neg (isSome_false_of_none hc), getOrCreateTopic_hit hfind]
  dsimp only
  obtain ⟨ht2, hsub2, hco2, hnt2, hns2, hqh2, hqm2, hcr2, hpay2⟩ :=
    build_question_subfold tid t.subs
      ⟨st.store,
       st.events ++ [.topicUpsert t.name st.store st.store],
       st.log ++ [⟨.info, "Processing topic: " ++ t.name⟩],
       st.attempts, st.delays, st.crashed⟩
      hc hqf hsubfind hhash _ rfl
  exact ⟨ht2, hsub2, hco2, hnt2, hns2, hqh2, hqm2, hcr2, hpay2⟩

/-- The question pass over the whole corpus, topic by topic. -/
theorem build_question_fold :
    ∀ (ts : List TopicDir) (st : RunState),
      st.crashed = none →
      (∀ t ∈ ts, ∀ s ∈ t.subs, qFileOK s.questions = true) →
      (∀ t ∈ ts, ∃ tid, findTopic st.store.topics t.name = some ⟨tid, t.name⟩ ∧
        ∀ s ∈ t.subs, ∃ sid, findSubtopic st.store.subtopics tid s.name =
          some ⟨sid, tid, s.name⟩) →
      ((st.store.questions.map fun r => r.question_hash) ++
        ts.flatMap (fun t => t.subs.flatMap subQHashList)).Nodup →
      ∀ F : RunState,
      F = List.foldl (fun acc t => processQuestionTopic allOk t acc) st ts →
      F.store.topics = st.store.topics ∧
      F.store.subtopics = st.store.subtopics ∧
      F.store.content = st.store.content ∧
      F.store.nextTopicId = st.store.nextTopicId ∧
      F.store.nextSubtopicId = st.store.nextSubtopicId ∧
      (F.store.questions.map fun r => r.question_hash) =
        (st.store.questions.map fun r => r.question_hash) ++
          ts.flatMap (fun t => t.subs.flatMap subQHashList) ∧
      (∀ q ∈ st.store.questions, q ∈ F.store.questions) ∧
      F.crashed = none ∧
      ∀ T : Store, ExtMem F.store T →
        ∀ t ∈ ts, ∃ tid,
          findTopic st.store.topics t.name = some ⟨tid, t.name⟩ ∧
          ∀ s ∈ t.subs, ∃ sid,
            findSubtopic st.store.subtopics tid s.name = some ⟨sid, tid, s.name⟩ ∧
            QuestionSat T sid s.questions
  | [], st, hc, _, _, _, F, hF => by
      subst hF
      exact ⟨rfl, rfl, rfl, rfl, rfl, by simp, fun q hq => hq, hc,
        fun T _ t ht => absurd ht (by simp)⟩
  | t :: rest, st, hc, hqf, hfind, hhash, F, hF => by
      obtain ⟨tid, hft, hfsub⟩ := hfind t (by simp)
      have hhs : ((st.store.questions.map fun r => r.question_hash) ++
          t.subs.flatMap subQHashList).Nodup := by
        have hsub : ((st.store.questions.map fun r => r.question_hash) ++
            t.subs.flatMap subQHashList).Sublist
            ((st.store.questions.map fun r => r.question_hash) ++
              (t :: rest).flatMap fun x => x.subs.flatMap subQHashList) := by
          rw [List.flatMap_cons, ← List.append_assoc]
          exact List.sublist_append_left _ _
        exact hsub.nodup hhash
      obtain ⟨ht1, hsub1, hco1, hnt1, hns1, hqh1, hqm1, hcr1, hpay1⟩ :=
        build_question_topic t tid st hc (hqf t (by simp)) hft hfsub hhs
      have hhash2 : (((processQuestionTopic allOk t st).store.questions.map
          fun r => r.question_hash) ++
          rest.flatMap (fun x => x.subs.flatMap subQHashList)).Nodup := by
        rw [hqh1, List.append_assoc]
        rw [List.flatMap_cons] at hhash
        exact hhash
      have hfind2 : ∀ x ∈ rest, ∃ tid2,
          findTopic (processQuestionTopic allOk t st).store.topics x.name =
            some ⟨tid2, x.name⟩ ∧
          ∀ s ∈ x.subs, ∃ sid,
            findSubtopic (processQuestionTopic allOk t st).store.subtopics
              tid2 s.name = some ⟨sid, tid2, s.name⟩ := by
        intro x hx
        obtain ⟨tid2, hfx, hfsx⟩ := hfind x (by simp [hx])
        refine ⟨tid2, by rw [ht1]; exact hfx, ?_⟩
        intro s hs
        obtain ⟨sid, hsx⟩ := hfsx s hs
        exact ⟨sid, by rw [hsub1]; exact hsx⟩
      obtain ⟨ht2, hsub2, hco2, hnt2, hns2, hqh2, hqm2, hcr2, hpay2⟩ :=
        build_question_fold rest (processQuestionTopic allOk t st)
          hcr1 (fun x hx => hqf x (by simp [hx])) hfind2 hhash2
          F (by rw [hF, List.foldl_cons])
      refine ⟨ht2.trans ht1, hsub2.trans hsub1, hco2.trans hco1,
        hnt2.trans hnt1, hns2.trans hns1, ?_, ?_, hcr2, ?_⟩
      · rw [hqh2, hqh1, List.flatMap_cons, List.append_assoc]
      · intro q hq
        exact hqm2 q (hqm1 q hq)
      · intro T hext x hx
        have hext1 : ExtMem (processQuestionTopic allOk t st).store F.store :=
          ⟨fun q hq => ht2.symm ▸ hq, fun q hq => hsub2.symm ▸ hq,
           fun q hq => hco2.symm ▸ hq, hqm2⟩
        rcases List.mem_cons.mp hx with rfl | hx
        · refine ⟨tid, hft, ?_⟩
          exact hpay1 T (hext1.comp hext)
        · obtain ⟨tid2, hf2, hp2⟩ := hpay2 T hext x hx
          refine ⟨tid2, by rw [← ht1]; exact hf2, ?_⟩
          intro s hs
          obtain ⟨sid, hfs2, hqs2⟩ := hp2 s hs
          exact ⟨sid, by rw [← hsub1]; exact hfs2, hqs2⟩

/-- The whole `question_ingestion.py:ingest` run over an
already-resolved hierarchy with pairwise-fresh question fingerprints. -/
theorem build_runQuestion (c : List TopicDir) (st : RunState)
    (hc : st.crashed = none)
    (hqf : ∀ t ∈ c, ∀ s ∈ t.subs, qFileOK s.questions = true)
    (hfind : ∀ t ∈ c, ∃ tid, findTopic st.store.topics t.name =
      some ⟨tid, t.name⟩ ∧
      ∀ s ∈ t.subs, ∃ sid, findSubtopic st.store.subtopics tid s.name =
        some ⟨sid, tid, s.name⟩)
    (hhash : ((st.store.questions.map fun r => r.question_hash) ++
      c.flatMap (fun t => t.subs.flatMap subQHashList)).Nodup) :
    (runQuestion allOk c st).store.topics = st.store.topics ∧
    (runQuestion allOk c st).store.subtopics = st.store.subtopics ∧
    (runQuestion allOk c st).store.content = st.store.content ∧
    (runQuestion allOk c st).store.nextTopicId = st.store.nextTopicId ∧
    (runQuestion allOk c st).store.nextSubtopicId = st.store.nextSubtopicId ∧
    ((runQuestion allOk c st).store.questions.map fun r => r.question_hash) =
      (st.store.questions.map fun r => r.question_hash) ++
        c.flatMap (fun t => t.subs.flatMap subQHashList) ∧
    (∀ q ∈ st.store.questions, q ∈ (runQuestion allOk c st).store.questions) ∧
    (runQuestion allOk c st).crashed = none ∧
    ∀ T : Store, ExtMem (runQuestion allOk c st).store T →
      ∀ t ∈ c, ∃ tid,
        findTopic st.store.topics t.name = some ⟨tid, t.name⟩ ∧
        ∀ s ∈ t.subs, ∃ sid,
          findSubtopic st.store.subtopics tid s.name = some ⟨sid, tid, s.name⟩ ∧
          QuestionSat T sid s.questions := by
  obtain ⟨ht, hsub, hco, hnt, hns, hqh, hqm, hcr, hpay⟩ :=
    build_question_fold c st hc hqf hfind hhash _ rfl
  unfold runQuestion
  rw [if_neg (isSome_false_of_none hcr)]
  exact ⟨ht, hsub, hco, hnt, hns, hqh, hqm, hcr, hpay⟩


/-- C1: Re-running both ingestion scripts over an unchanged corpus is
idempotent when the corpus has pairwise-distinct topic directory names,
pairwise-distinct subtopic directory names per topic, files both flows
survive, and pairwise-distinct question fingerprints: the second run
reproduces the stored row sets and hash values exactly, and every write
the second run performs (content pass and question pass alike) is a
data-level no-op, upserting rows identical to those already stored.
Without the fingerprint condition the no-op part fails, since
`on_conflict="question_hash"` lets two subtopics contend for one row. -/
theorem C1_reingestion_idempotent (c : List TopicDir)
    (htn : (c.map fun t => t.name).Nodup)
    (hsn : ∀ t ∈ c, (t.subs.map fun s => s.name).Nodup)
    (hcf : ∀ t ∈ c, ∀ s ∈ t.subs, cFileOK s.chunks = true)
    (hqf : ∀ t ∈ c, ∀ s ∈ t.subs, qFileOK s.questions = true)
    (hqh : (corpusQHashes c).Nodup) :
    ingestAll allOk c (ingestAll allOk c emptyStore) =
      ingestAll allOk c emptyStore ∧
    (∀ e ∈ (runContent allOk c
        (initState (ingestAll allOk c emptyStore))).events,
      noOpWrite (ingestAll allOk c emptyStore) e) ∧
    ∀ e ∈ (runQuestion allOk c (initState (runContent allOk c
        (initState (ingestAll allOk c emptyStore))).store)).events,
      noOpWrite (ingestAll allOk c emptyStore) e := by
  obtain ⟨hWc, hcc, hqc, _, Pc⟩ :=
    build_runContent c (initState emptyStore) wfs_empty rfl hcf hsn htn
      (fun t _ => by simp [initState, emptyStore])
  have hfind1 : ∀ t ∈ c, ∃ tid,
      findTopic (runContent allOk c (initState emptyStore)).store.topics
        t.name = some ⟨tid, t.name⟩ ∧
      ∀ s ∈ t.subs, ∃ sid,
        findSubtopic (runContent allOk c (initState emptyStore)).store.subtopics
          tid s.name = some ⟨sid, tid, s.name⟩ := by
    intro t ht
    obtain ⟨tid, hf, hs⟩ := Pc _ (extMem_refl _) hWc.tnames hWc.skeys t ht
    refine ⟨tid, hf, ?_⟩
    intro s hsm
    obtain ⟨sid, hfs, _⟩ := hs s hsm
    exact ⟨sid, hfs⟩
  have hhash1 : (((runContent allOk c (initState emptyStore)).store.questions.map
      fun r => r.question_hash) ++
      c.flatMap (fun t => t.subs.flatMap subQHashList)).Nodup := by
    rw [hqc]
    exact hqh
  obtain ⟨hQt, hQsub, hQco, hQnt, hQns, hQqh, hQqm, hQcr, Pq⟩ :=
    build_runQuestion c
      (initState (runContent allOk c (initState emptyStore)).store)
      rfl hqf hfind1 hhash1
  have hS1 : ingestAll allOk c emptyStore =
      (runQuestion allOk c (initState (runContent allOk c
        (initState emptyStore)).store)).store := rfl
  rw [← hS1] at hQt hQsub hQco hQqh Pq
  have hextc1 : ExtMem (runContent allOk c (initState emptyStore)).store
      (ingestAll allOk c emptyStore) := by
    refine ⟨?_, ?_, ?_, ?_⟩
    · intro r hr
      rw [hQt]
      exact hr
    · intro r hr
      rw [hQsub]
      exact hr
    · intro r hr
      rw [hQco]
      exact hr
    · intro r hr
      rw [hqc] at hr
      exact absurd hr (List.not_mem_nil r)
  have htn1 : ((ingestAll allOk c emptyStore).topics.map
      fun r => r.topic_name).Nodup := by
    rw [hQt]
    exact hWc.tnames
  have hsk1 : ((ingestAll allOk c emptyStore).subtopics.map
      fun r => (r.topic_id, r.subtopic_name)).Nodup := by
    rw [hQsub]
    exact hWc.skeys
  have hPc1 := Pc (ingestAll allOk c emptyStore) hextc1 htn1 hsk1
  have hPq1 := Pq (ingestAll allOk c emptyStore) (extMem_refl _)
  have hsat : Saturated (ingestAll allOk c emptyStore) c := by
    intro t ht
    obtain ⟨tid, hfT, hsubsC⟩ := hPc1 t ht
    obtain ⟨tid2, hfT2, hsubsQ⟩ := hPq1 t ht
    have h1 := hfT
    rw [hQt] at h1
    injection h1.symm.trans hfT2 with h3
    have htid : tid2 = tid := (congrArg TopicRow.topic_id h3).symm
    refine ⟨tid, hfT, ?_⟩
    intro s hsm
    obtain ⟨sid, hfsC, hCS⟩ := hsubsC s hsm
    obtain ⟨sid2, hfsQ, hQS⟩ := hsubsQ s hsm
    rw [htid] at hfsQ
    have h4 := hfsC
    rw [hQsub] at h4
    injection h4.symm.trans hfsQ with h6
    have hsid : sid2 = sid := (congrArg SubtopicRow.subtopic_id h6).symm
    rw [hsid] at hQS
    exact ⟨sid, hfsC, hCS, hQS⟩
  have hkeys : KeysOK (ingestAll allOk c emptyStore) := by
    refine ⟨?_, ?_⟩
    · rw [hQco]
      exact hWc.ckeys
    · rw [hQqh]
      exact hhash1
  obtain ⟨hrcS, hrcC, hrcE⟩ := replay_runContent (ingestAll allOk c emptyStore)
    c (initState (ingestAll allOk c emptyStore)) rfl rfl hkeys hsat
  obtain ⟨hrqS, hrqC, hrqE⟩ := replay_runQuestion (ingestAll allOk c emptyStore)
    c (initState (ingestAll allOk c emptyStore)) rfl rfl hkeys hsat
  refine ⟨?_, ?_, ?_⟩
  · calc ingestAll allOk c (ingestAll allOk c emptyStore)
        = (runQuestion allOk c (initState (runContent allOk c
            (initState (ingestAll allOk c emptyStore))).store)).store := rfl
      _ = (runQuestion allOk c
            (initState (ingestAll allOk c emptyStore))).store := by rw [hrcS]
      _ = ingestAll allOk c emptyStore := hrqS
  · intro e he
    rcases hrcE e he with h | h
    · exact absurd h (List.not_mem_nil e)
    · exact h
  · intro e he
    rw [hrcS] at he
    rcases hrqE e he with h | h
    · exact absurd h (List.not_mem_nil e)
    · exact h


def c1W : List TopicDir := [⟨"T", [⟨"S", FileData.missing, FileData.missing⟩]⟩]

theorem C1_witness :
    ingestAll allOk c1W (ingestAll allOk c1W emptyStore) =
      ingestAll allOk c1W emptyStore ∧
    (∀ e ∈ (runContent allOk c1W
        (initState (ingestAll allOk c1W emptyStore))).events,
      noOpWrite (ingestAll allOk c1W emptyStore) e) ∧
    ∀ e ∈ (runQuestion allOk c1W (initState (runContent allOk c1W
        (initState (ingestAll allOk c1W emptyStore))).store)).events,
      noOpWrite (ingestAll allOk c1W emptyStore) e :=
  C1_reingestion_idempotent c1W (by decide) (by decide) (by decide)
    (by decide) (by decide)

/-- Executable form of `noOpWrite`. -/
def noOpWriteB (S : Store) : Event → Bool
  | .topicUpsert _ b a => decide (b = S) && decide (a = S)
  | .subtopicUpsert _ _ b a => decide (b = S) && decide (a = S)
  | .contentUpsert rows b a =>
      decide (b = S) && decide (a = S) &&
        rows.all fun r => decide (r ∈ S.content)
  | .questionUpsert rows b a =>
      decide (b = S) && decide (a = S) &&
        rows.all fun r => decide (r ∈ S.questions)

theorem noOpWriteB_iff (S : Store) (e : Event) :
    noOpWriteB S e = true ↔ noOpWrite S e := by
  cases e with
  | topicUpsert n b a => simp [noOpWriteB, noOpWrite]
  | subtopicUpsert t n b a => simp [noOpWriteB, noOpWrite]
  | contentUpsert rows b a =>
      simp [noOpWriteB, noOpWrite, List.all_eq_true, and_assoc]
  | questionUpsert rows b a =>
      simp [noOpWriteB, noOpWrite, List.all_eq_true, and_assoc]

/-- A question file whose single question also appears, verbatim, in a
sibling subtopic\'s file. -/
def c1qFile : Val :=
  .vobj [("by_level", .vobj [("beginner", .vobj [("questions",
    .varr [.vobj [("type", .vstr "x")]])])])]

def c1X : List TopicDir :=
  [⟨"T", [⟨"A", FileData.missing, .parsed c1qFile⟩,
          ⟨"B", FileData.missing, .parsed c1qFile⟩]⟩]

theorem C1_counterexample :
    ¬ ∀ c : List TopicDir,
        ∀ e ∈ (runQuestion allOk c (initState (runContent allOk c
            (initState (ingestAll allOk c emptyStore))).store)).events,
          noOpWrite (ingestAll allOk c emptyStore) e := by
  intro h
  have hb : (runQuestion allOk c1X (initState (runContent allOk c1X
      (initState (ingestAll allOk c1X emptyStore))).store)).events.all
      (noOpWriteB (ingestAll allOk c1X emptyStore)) = true :=
    List.all_eq_true.mpr fun e he => (noOpWriteB_iff _ e).mpr (h c1X e he)
  exact absurd hb (by decide)


end Ingest